import Mathlib

/-!
# Lip-sync engine of the English-practice application

A shallow embedding of the viseme timeline generator and of the per-frame
sampler of `src/App.jsx`, of the morph-target effects and the smoothing step of
`src/components/AvatarViewer.jsx`, and of `calculateAccuracy` of
`src/pages/funs.jsx`.

Modelling conventions.

* A JavaScript string is a sequence of UTF-16 code units; here a text is a
  `String` and a word a `List Char`.  Every character that survives the
  normalisation of `generateLipSyncData` lies in the classes `\w` or `\s`,
  all of whose members are single code units, so `word.length` is the length
  of the list.
* JavaScript numbers are IEEE doubles; here they are rationals and the
  arithmetic is exact.
* `forEach` over an array with a mutable accumulator is a left fold over an
  explicit state.
* A JavaScript object used as a map is an association list in key order.
* The value of `Math.random()` is a parameter.
-/

namespace LipSync

/-! ## Character classes of the regular expressions -/

/-- The class `\s` of a JavaScript regular expression, which is also the set of
characters removed by `String.prototype.trim`. -/
def isSpace (c : Char) : Bool :=
  let n := c.toNat
  n == 0x20 || n == 0x09 || n == 0x0A || n == 0x0B || n == 0x0C || n == 0x0D ||
  n == 0xA0 || n == 0x1680 || (0x2000 ≤ n && n ≤ 0x200A) || n == 0x2028 ||
  n == 0x2029 || n == 0x202F || n == 0x205F || n == 0x3000 || n == 0xFEFF

/-- The class `\w` of a JavaScript regular expression: `[A-Za-z0-9_]`. -/
def isWordChar (c : Char) : Bool :=
  let n := c.toNat
  (0x61 ≤ n && n ≤ 0x7A) || (0x41 ≤ n && n ≤ 0x5A) || (0x30 ≤ n && n ≤ 0x39) || n == 0x5F

/-- The class `[aeiouy]`. -/
def isVowel (c : Char) : Bool :=
  c == 'a' || c == 'e' || c == 'i' || c == 'o' || c == 'u' || c == 'y'

/-- The class `[^laeiouy]`: any single code unit other than these seven letters. -/
def notLVowel (c : Char) : Bool :=
  !(c == 'l' || isVowel c)

/-! ## String primitives -/

/-- Lower-casing of one character, as `String.prototype.toLowerCase` does it.
The letters `A`..`Z` go to `a`..`z`; U+0130 goes to `i` followed by U+0307 and
the Kelvin sign U+212A goes to `k`.  Every other character outside ASCII has a
lower-case form outside ASCII and outside `\s`; it is kept as it is here, which
makes no difference to the code below: such a character is deleted by the
replacement that follows in `generateLipSyncData`, and it is neither one of the
letters nor a vowel tested by `countSyllables`. -/
def lowerChar (c : Char) : List Char :=
  let n := c.toNat
  if 0x41 ≤ n ∧ n ≤ 0x5A then [Char.ofNat (n + 32)]
  else if n = 0x130 then ['i', Char.ofNat 0x307]
  else if n = 0x212A then ['k']
  else [c]

/-- The method `toLowerCase` on a sequence of characters. -/
def toLowerCase (s : List Char) : List Char :=
  (s.map lowerChar).flatten

/-- The call `.replace(/[^\w\s]/g, '')`: delete every character that is neither a
word character nor white space. -/
def stripNonWord (s : List Char) : List Char :=
  s.filter fun c => isWordChar c || isSpace c

/-- The call `.split(' ')`: cut at every single space; consecutive spaces give
empty pieces and the empty string gives one empty piece. -/
def splitSpace : List Char → List (List Char)
  | [] => [[]]
  | c :: cs =>
    if c = ' ' then [] :: splitSpace cs
    else
      match splitSpace cs with
      | [] => [[c]]
      | w :: ws => (c :: w) :: ws

/-- The method `trim`: drop the white space at both ends. -/
def trim (w : List Char) : List Char :=
  ((w.dropWhile isSpace).reverse.dropWhile isSpace).reverse

/-! ## countSyllables -/

/-- The call `.replace(/(?:[^laeiouy]es|ed|[^laeiouy]e)$/, '')`.  Every
alternative has a fixed length and must end at the end of the word, so the
leftmost match is the three-character one when it exists, and otherwise one of
the two-character ones. -/
def stripSuffix (w : List Char) : List Char :=
  match w.reverse with
  | last :: prev :: third :: rest =>
    if last = 's' ∧ prev = 'e' ∧ notLVowel third = true then rest.reverse
    else if last = 'd' ∧ prev = 'e' then (third :: rest).reverse
    else if last = 'e' ∧ notLVowel prev = true then (third :: rest).reverse
    else w
  | [last, prev] =>
    if last = 'd' ∧ prev = 'e' then []
    else if last = 'e' ∧ notLVowel prev = true then []
    else w
  | _ => w

/-- The call `.replace(/^y/, '')`. -/
def stripLeadingY : List Char → List Char
  | c :: cs => if c = 'y' then cs else c :: cs
  | [] => []

/-- The number of matches of the global pattern `/[aeiouy]{1,2}/g`: scanning from
the left, a vowel starts a match that also takes the next character when that
one is a vowel too. -/
def countVowelMatches : List Char → Nat
  | [] => 0
  | [c] => if isVowel c then 1 else 0
  | c :: d :: rest =>
    if isVowel c then
      if isVowel d then 1 + countVowelMatches rest
      else 1 + countVowelMatches (d :: rest)
    else countVowelMatches (d :: rest)

/-- The function `countSyllables`: the number of matches, or 1 when there is
none (`match` then returns `null`). -/
def countSyllables (word : List Char) : Nat :=
  let n := countVowelMatches (stripLeadingY (stripSuffix (toLowerCase word)))
  if n = 0 then 1 else n

/-! ## wordToPhonemes, phonemeToViseme, getIntensityForPhoneme -/

/-- The function `wordToPhonemes`: left to right, the digraphs `th`, `ch`, `sh`
become one token each and consume two characters; any other character is its
own token. -/
def wordToPhonemes : List Char → List String
  | [] => []
  | [c] => [String.singleton c]
  | c :: d :: rest =>
    if c = 't' ∧ d = 'h' then "TH" :: wordToPhonemes rest
    else if c = 'c' ∧ d = 'h' then "CH" :: wordToPhonemes rest
    else if c = 's' ∧ d = 'h' then "SH" :: wordToPhonemes rest
    else String.singleton c :: wordToPhonemes (d :: rest)

/-- The object literal `mapping` of `phonemeToViseme`. -/
def mapping : List (String × String) :=
  [("p", "PP"), ("b", "PP"), ("m", "PP"), ("PP", "PP"),
   ("f", "FF"), ("v", "FF"), ("FF", "FF"),
   ("TH", "TH"), ("th", "TH"),
   ("t", "DD"), ("d", "DD"), ("n", "DD"), ("l", "DD"), ("DD", "DD"),
   ("k", "kk"), ("g", "kk"), ("kk", "kk"),
   ("s", "SS"), ("z", "SS"), ("SH", "SS"), ("sh", "SS"), ("SS", "SS"),
   ("CH", "CH"), ("ch", "CH"), ("j", "CH"),
   ("r", "RR"), ("RR", "RR"),
   ("a", "aa"), ("ah", "aa"), ("aa", "aa"),
   ("e", "E"), ("eh", "E"), ("E", "E"),
   ("i", "I"), ("ih", "I"), ("I", "I"), ("ee", "I"),
   ("o", "O"), ("oh", "O"), ("O", "O"), ("oo", "O"),
   ("u", "U"), ("uh", "U"), ("U", "U"),
   ("sil", "sil"), (" ", "sil")]

/-- The function `phonemeToViseme`: the entry of the table, or `sil`.  The tokens
it receives are those of `wordToPhonemes`: one code unit, or `TH`, `CH`, `SH`. -/
def phonemeToViseme (phoneme : String) : String :=
  (mapping.lookup phoneme).getD "sil"

/-- The function `getIntensityForPhoneme`. -/
def getIntensityForPhoneme (phoneme : String) : ℚ :=
  if phoneme ∈ ["a", "aa", "ah"] then 1.2
  else if phoneme ∈ ["e", "E", "o", "O"] then 1.0
  else if phoneme ∈ ["i", "I", "u", "U"] then 0.8
  else if phoneme ∈ ["PP", "FF", "TH", "DD", "kk", "CH"] then 0.7
  else 0.5

/-! ## generateLipSyncData -/

/-- One entry of the timeline: `{ viseme, intensity, start, end }`. -/
structure VisemeEvent where
  viseme : String
  intensity : ℚ
  start : ℚ
  end_ : ℚ
  deriving DecidableEq, Repr

/-- The event pushed for the phoneme at position `index` of a word. -/
def phonemeEvent (currentTime phonemeDuration : ℚ) (index : Nat) (phoneme : String) :
    VisemeEvent :=
  let viseme := phonemeToViseme phoneme
  let intensity := getIntensityForPhoneme phoneme
  let overlap := phonemeDuration * 0.1
  let startTime := currentTime + (index * phonemeDuration) - overlap
  let endTime := startTime + phonemeDuration + overlap
  { viseme := viseme, intensity := intensity, start := startTime, end_ := endTime }

/-- The constant `complexityFactor` of a word. -/
def complexityFactor (word : List Char) : ℚ :=
  let syllableCount := countSyllables word
  let complexity : ℚ := (word.length : ℚ) / (syllableCount : ℚ)
  max 0.8 (min 1.5 complexity)

/-- The constant `baseSyllableDuration`, for a given `rateMultiplier`. -/
def baseSyllableDuration (rateMultiplier : ℚ) : ℚ :=
  350 * rateMultiplier

/-- The constant `wordDuration` of a word, for a given `rateMultiplier`. -/
def wordDuration (rateMultiplier : ℚ) (word : List Char) : ℚ :=
  let syllableCount := countSyllables word
  (syllableCount : ℚ) * baseSyllableDuration rateMultiplier * complexityFactor word

/-- The constant `phonemeDuration` of a word. -/
def phonemeDuration (rateMultiplier : ℚ) (word : List Char) : ℚ :=
  wordDuration rateMultiplier word / ((wordToPhonemes word).length : ℚ)

/-- The events of one word: the inner `phonemes.forEach`. -/
def wordEvents (rateMultiplier currentTime : ℚ) (word : List Char) : List VisemeEvent :=
  (wordToPhonemes word).enum.map fun ip =>
    phonemeEvent currentTime (phonemeDuration rateMultiplier word) ip.1 ip.2

/-- The mutable variables of `generateLipSyncData`. -/
structure GenState where
  visemes : List VisemeEvent
  currentTime : ℚ

/-- The body of the outer `words.forEach`. -/
def processWord (rateMultiplier : ℚ) (st : GenState) (word : List Char) : GenState :=
  if trim word = [] then st
  else
    { visemes := st.visemes ++ wordEvents rateMultiplier st.currentTime word
      currentTime := st.currentTime + wordDuration rateMultiplier word }

/-- The array `words` of `generateLipSyncData`. -/
def textWords (text : String) : List (List Char) :=
  splitSpace (stripNonWord (toLowerCase text.data))

/-- The function `generateLipSyncData`. -/
def generateLipSyncData (text : String) (speechRate : ℚ) : List VisemeEvent :=
  let rateMultiplier := 1.0 / speechRate
  ((textWords text).foldl (processWord rateMultiplier) { visemes := [], currentTime := 0 }).visemes

/-! ## animateLipSync -/

/-- The value handed to `setVisemeData`. -/
structure VisemeData where
  current : String
  intensity : ℚ
  timestamp : ℚ
  deriving DecidableEq, Repr

/-- The lookup `lipSyncData.find(v => currentTime >= v.start && currentTime <= v.end)`. -/
def findViseme (lipSyncData : List VisemeEvent) (currentTime : ℚ) : Option VisemeEvent :=
  lipSyncData.find? fun v => decide (currentTime ≥ v.start) && decide (currentTime ≤ v.end_)

/-- The sample of one animation frame of `animateLipSync`. -/
def animateLipSync (lipSyncData : List VisemeEvent) (currentTime : ℚ) : VisemeData :=
  match findViseme lipSyncData currentTime with
  | some currentViseme =>
    { current := currentViseme.viseme, intensity := currentViseme.intensity,
      timestamp := currentTime }
  | none => { current := "sil", intensity := 0.2, timestamp := currentTime }

/-! ## The smoothing step of useFrame -/

/-- The library function `THREE.MathUtils.lerp`. -/
def lerp (x y t : ℚ) : ℚ :=
  (1 - t) * x + t * y

/-- The new displayed weight of one channel after one `useFrame` tick. -/
def smoothStep (delta current target : ℚ) : ℚ :=
  let isClosing := target < current
  let lerpFactor := if isClosing then min (delta * 15) 1 else min (delta * 12) 1
  lerp current target lerpFactor

/-- The displayed weight after `n` ticks with the same `delta` and target. -/
def smoothIter (delta target : ℚ) : Nat → ℚ → ℚ
  | 0, current => current
  | n + 1, current => smoothIter delta target n (smoothStep delta current target)

/-! ## Auxiliary definitions used to state the properties -/

/-- The words that pass the guard `if (!word.trim()) return`. -/
def nonBlankWords (text : String) : List (List Char) :=
  (textWords text).filter fun w => decide (trim w ≠ [])

/-- The events of a list of non-blank words, the first one starting with the
cursor at `currentTime`. -/
def eventsFrom (rateMultiplier : ℚ) : ℚ → List (List Char) → List VisemeEvent
  | _, [] => []
  | currentTime, w :: ws =>
    wordEvents rateMultiplier currentTime w ++
      eventsFrom rateMultiplier (currentTime + wordDuration rateMultiplier w) ws

/-- Start times never decrease from an event to the next one:
`events[i].start <= events[i+1].start` for every adjacent pair. -/
def StartsNonDecreasing (events : List VisemeEvent) : Prop :=
  ∀ (i : Nat) (a b : VisemeEvent), events[i]? = some a → events[i + 1]? = some b →
    a.start ≤ b.start

/-- The condition at a word boundary under which the start times do not
decrease there: the phoneme slice of the next word is at most 11 times the
slice of the previous word. -/
def SliceBounded (rateMultiplier : ℚ) (u v : List Char) : Prop :=
  phonemeDuration rateMultiplier v ≤ 11 * phonemeDuration rateMultiplier u

instance (rateMultiplier : ℚ) (u v : List Char) :
    Decidable (SliceBounded rateMultiplier u v) :=
  inferInstanceAs
    (Decidable (phonemeDuration rateMultiplier v ≤ 11 * phonemeDuration rateMultiplier u))

/-- The event `e` with its two times divided by `r`. -/
def scaleEvent (r : ℚ) (e : VisemeEvent) : VisemeEvent :=
  { viseme := e.viseme, intensity := e.intensity, start := e.start / r, end_ := e.end_ / r }

/-- The test of the lookup of `animateLipSync`: `t` lies in the closed interval
of the event. -/
def Covers (t : ℚ) (e : VisemeEvent) : Prop :=
  e.start ≤ t ∧ t ≤ e.end_

/-- The closed enumeration of the 14 visemes. -/
def visemeNames : List String :=
  ["PP", "FF", "TH", "DD", "kk", "CH", "SS", "RR", "aa", "E", "I", "O", "U", "sil"]

/-- The intensity tiers as the specification lists them for the tokens of a
timeline: 1.2 for `a`; 1.0 for `e` and `o`; 0.8 for `i` and `u`; 0.7 for `TH`
and `CH`; 0.5 for every other token. -/
def tokenIntensity (phoneme : String) : ℚ :=
  if phoneme = "a" then 1.2
  else if phoneme = "e" ∨ phoneme = "o" then 1.0
  else if phoneme = "i" ∨ phoneme = "u" then 0.8
  else if phoneme = "TH" ∨ phoneme = "CH" then 0.7
  else 0.5

/-- An upper-case letter `A`..`Z`. -/
def isUpper (c : Char) : Bool :=
  0x41 ≤ c.toNat && c.toNat ≤ 0x5A

/-- The lengths of the maximal runs of characters of `[aeiouy]`, from left to
right. -/
def vowelRunLengths : List Char → List Nat
  | [] => []
  | [c] => if isVowel c then [1] else []
  | c :: d :: rest =>
    if isVowel c then
      if isVowel d then
        match vowelRunLengths (d :: rest) with
        | n :: ns => (n + 1) :: ns
        | [] => [1]
      else 1 :: vowelRunLengths (d :: rest)
    else vowelRunLengths (d :: rest)

/-- The number of maximal runs of vowel-like characters, the count the
specification describes. -/
def countVowelRuns (w : List Char) : Nat :=
  (vowelRunLengths w).length

/-- A phoneme token written back as characters: the digraph tokens `TH`, `CH`,
`SH` as `th`, `ch`, `sh`, any other token as it is. -/
def writeBack (phoneme : String) : List Char :=
  if phoneme = "TH" then ['t', 'h']
  else if phoneme = "CH" then ['c', 'h']
  else if phoneme = "SH" then ['s', 'h']
  else phoneme.data

/-- The digraph tokens. -/
def isDigraphToken (phoneme : String) : Bool :=
  phoneme = "TH" || phoneme = "CH" || phoneme = "SH"

/-- A letter `A`..`Z` or `a`..`z`. -/
def isLetter (c : Char) : Bool :=
  (0x41 ≤ c.toNat && c.toNat ≤ 0x5A) || (0x61 ≤ c.toNat && c.toNat ≤ 0x7A)

/-! ## The morph-target state of AvatarModel

A JavaScript object is an association list without repeated keys, in the order
of `Object.keys`; reading a key that is absent gives `none` (`undefined`).  The
array `morphTargetInfluences` is read through `influences[index] || 0`, so it is
a function from indices to weights.  `scene.traverse` applies each callback to
every mesh that has a morph-target dictionary; the definitions below are the
callback for one such mesh. -/

/-- The assignment `obj[key] = value`: overwrite the entry in place, or append a
new one. -/
def setKey {α : Type} : List (String × α) → String → α → List (String × α)
  | [], key, value => [(key, value)]
  | (k, v) :: rest, key, value =>
    if k = key then (k, value) :: rest else (k, v) :: setKey rest key value

/-- The method `includes` of a string: `sub` occurs in `s`. -/
def includes (s sub : String) : Bool :=
  s.data.tails.any fun t => sub.data.isPrefixOf t

/-- The state of one mesh (`child`): its dictionary from channel names to
indices, the displayed weights, and the two maps kept in `userData`. -/
structure Mesh where
  morphTargetDictionary : List (String × Nat)
  morphTargetInfluences : Nat → ℚ
  originalMorphTargets : List (String × ℚ)
  targetMorphTargets : List (String × ℚ)

/-- The map filled by the initialisation effect: for every key of the dictionary,
`influences[index] || 0`. -/
def initialTargets (dictionary : List (String × Nat)) (influences : Nat → ℚ) :
    List (String × ℚ) :=
  dictionary.foldl (fun o entry => setKey o entry.1 (influences entry.2)) []

/-- The initialisation effect: `originalMorphTargets` and `targetMorphTargets`
both start empty and receive the same value for every key of the dictionary. -/
def initMorphTargets (child : Mesh) : Mesh :=
  { child with
    originalMorphTargets := initialTargets child.morphTargetDictionary child.morphTargetInfluences
    targetMorphTargets := initialTargets child.morphTargetDictionary child.morphTargetInfluences }

/-- The reset effect, run when `isSpeaking` is false: for every key of
`originalMorphTargets`, `targetMorphTargets[key] = originalMorphTargets[key]`. -/
def resetTargets (child : Mesh) : Mesh :=
  { child with
    targetMorphTargets :=
      child.originalMorphTargets.foldl (fun t entry => setKey t entry.1 entry.2)
        child.targetMorphTargets }

/-- The object literal `visemeMapping`. -/
def visemeMapping : List (String × List String) :=
  [("PP", ["mouthClose", "mouthFunnel", "mouthPressLeft", "mouthPressRight", "mouthPucker"]),
   ("FF", ["mouthFrownLeft", "mouthFrownRight", "mouthLowerDownLeft", "mouthLowerDownRight"]),
   ("TH", ["mouthDimpleLeft", "mouthDimpleRight", "tongueOut", "mouthOpen"]),
   ("DD", ["mouthSmileLeft", "mouthSmileRight", "mouthOpen", "jawOpen"]),
   ("kk", ["mouthOpen", "jawOpen", "jawForward"]),
   ("CH", ["mouthShrugUpper", "mouthShrugLower", "mouthOpen"]),
   ("SS", ["mouthSmileLeft", "mouthSmileRight", "mouthStretchLeft", "mouthStretchRight"]),
   ("RR", ["mouthRollUpper", "mouthRollLower", "mouthOpen"]),
   ("aa", ["mouthOpen", "jawOpen", "mouthSmileLeft", "mouthSmileRight"]),
   ("E", ["mouthSmileLeft", "mouthSmileRight", "mouthOpen", "jawOpen"]),
   ("I", ["mouthSmileLeft", "mouthSmileRight", "mouthStretchLeft", "mouthStretchRight"]),
   ("O", ["mouthFunnel", "mouthPucker", "mouthOpen", "jawOpen"]),
   ("U", ["mouthFunnel", "mouthPucker", "mouthRollUpper", "mouthRollLower"]),
   ("sil", [])]

/-- The constant `morphIntensity` of a channel, for the amplified `intensity`. -/
def morphIntensity (intensity : ℚ) (morphName : String) : ℚ :=
  if includes morphName "Open" || includes morphName "jaw" then min (intensity * 1.2) 1.5
  else intensity

/-- The loop over the channels of the current viseme: a channel that exists in
the dictionary receives its `morphIntensity`. -/
def assignViseme (dictionary : List (String × Nat)) (intensity : ℚ)
    (target : List (String × ℚ)) (morphNames : List String) : List (String × ℚ) :=
  morphNames.foldl (fun t morphName =>
    if (dictionary.lookup morphName).isSome then
      setKey t morphName (morphIntensity intensity morphName)
    else t) target

/-- The loop over `mouthOpen` and `jawOpen`: a channel that exists in the
dictionary receives `max(target || 0, randomIntensity * 0.3)`. -/
def assignRandomFloor (dictionary : List (String × Nat)) (randomIntensity : ℚ)
    (target : List (String × ℚ)) : List (String × ℚ) :=
  ["mouthOpen", "jawOpen"].foldl (fun t morphName =>
    if (dictionary.lookup morphName).isSome then
      setKey t morphName (max ((t.lookup morphName).getD 0) (randomIntensity * 0.3))
    else t) target

/-- The part of the viseme effect that follows the reset of the targets, for the
sample `visemeData` and the value `random` of `Math.random()`.  The table is
read through its own keys; the visemes that `animateLipSync` produces are those
of `phonemeToViseme`. -/
def visemeTargets (dictionary : List (String × Nat)) (target : List (String × ℚ))
    (visemeData : VisemeData) (random : ℚ) : List (String × ℚ) :=
  if visemeData.current = "" then target
  else
    let currentViseme := visemeData.current
    let intensity := (if visemeData.intensity = 0 then 0.5 else visemeData.intensity) * 1.8
    match visemeMapping.lookup currentViseme with
    | some morphNames =>
      if currentViseme ≠ "sil" then
        let randomIntensity := intensity * (0.8 + random * 0.4)
        assignRandomFloor dictionary randomIntensity
          (assignViseme dictionary intensity target morphNames)
      else target
    | none => target

/-- The viseme effect, run when `visemeData` is set and `isSpeaking` is true:
reset every target to its original value, then derive the targets of the
sample. -/
def applyViseme (child : Mesh) (visemeData : VisemeData) (random : ℚ) : Mesh :=
  { child with
    targetMorphTargets :=
      visemeTargets child.morphTargetDictionary (resetTargets child).targetMorphTargets
        visemeData random }

/-- The callback of `useFrame`: for every key of `targetMorphTargets` that the
dictionary maps to an index, the displayed weight at that index takes one
smoothing step toward the target. -/
def useFrame (child : Mesh) (delta : ℚ) : Mesh :=
  { child with
    morphTargetInfluences :=
      child.targetMorphTargets.foldl (fun influences entry =>
        match child.morphTargetDictionary.lookup entry.1 with
        | some index =>
          Function.update influences index (smoothStep delta (influences index) entry.2)
        | none => influences) child.morphTargetInfluences }

/-- The state that the initialisation effect establishes and every other effect
keeps: the dictionary maps distinct names to distinct indices, and both maps of
`userData` have the keys of the dictionary, in its order. -/
def Mesh.Ready (m : Mesh) : Prop :=
  (m.morphTargetDictionary.map Prod.fst).Nodup ∧
  (m.morphTargetDictionary.map Prod.snd).Nodup ∧
  m.originalMorphTargets.map Prod.fst = m.morphTargetDictionary.map Prod.fst ∧
  m.targetMorphTargets.map Prod.fst = m.morphTargetDictionary.map Prod.fst

instance (m : Mesh) : Decidable m.Ready :=
  inferInstanceAs (Decidable
    ((m.morphTargetDictionary.map Prod.fst).Nodup ∧
      (m.morphTargetDictionary.map Prod.snd).Nodup ∧
      m.originalMorphTargets.map Prod.fst = m.morphTargetDictionary.map Prod.fst ∧
      m.targetMorphTargets.map Prod.fst = m.morphTargetDictionary.map Prod.fst))

/-- A small model with four channels, at rest. -/
def sampleMesh : Mesh :=
  initMorphTargets
    { morphTargetDictionary :=
        [("mouthOpen", 0), ("jawOpen", 1), ("mouthSmileLeft", 2), ("mouthSmileRight", 3)]
      morphTargetInfluences := fun _ => 0
      originalMorphTargets := []
      targetMorphTargets := [] }

/-- The intensities that `getIntensityForPhoneme` returns. -/
def generatorIntensities : List ℚ :=
  [1.2, 1.0, 0.8, 0.7, 0.5]

/-! ## calculateAccuracy (pages/funs.jsx) -/

/-- The function `distance` of the library `fastest-levenshtein`: the Levenshtein
distance, where an insertion, a deletion and a substitution cost 1 each. -/
def levenshteinDistance (a b : List Char) : Nat :=
  levenshtein Levenshtein.defaultCost a b

/-- The function `Math.round`: the nearest integer, a half going up. -/
def mathRound (x : ℚ) : ℤ :=
  ⌊x + 1 / 2⌋

/-- The function `calculateAccuracy`. -/
def calculateAccuracy (expected spoken : String) : ℤ :=
  let distance := levenshteinDistance (toLowerCase expected.data) (toLowerCase spoken.data)
  let maxLength := max expected.data.length spoken.data.length
  let accuracy : ℚ := (((maxLength : ℚ) - (distance : ℚ)) / (maxLength : ℚ)) * 100
  max 0 (mathRound accuracy)

/-! ## Basic facts -/

theorem trim_nil : trim [] = [] := rfl

theorem ne_nil_of_trim_ne_nil {w : List Char} (h : trim w ≠ []) : w ≠ [] := by
  rintro rfl
  exact h trim_nil

theorem countSyllables_pos (word : List Char) : 1 ≤ countSyllables word := by
  unfold countSyllables
  simp only
  split_ifs with h
  · exact le_refl 1
  · exact Nat.one_le_iff_ne_zero.mpr h

theorem wordToPhonemes_length_pos : ∀ (w : List Char), w ≠ [] → 1 ≤ (wordToPhonemes w).length
  | [], h => absurd rfl h
  | [c], _ => by simp [wordToPhonemes]
  | c :: d :: rest, _ => by
    unfold wordToPhonemes
    split_ifs <;> simp

theorem complexityFactor_pos (word : List Char) : 0 < complexityFactor word := by
  unfold complexityFactor
  simp only
  have : (0 : ℚ) < 0.8 := by norm_num
  exact lt_of_lt_of_le this (le_max_left _ _)

theorem wordDuration_pos {rm : ℚ} (hrm : 0 < rm) (word : List Char) :
    0 < wordDuration rm word := by
  unfold wordDuration baseSyllableDuration
  simp only
  have h1 : (0 : ℚ) < (countSyllables word : ℚ) := by
    exact_mod_cast countSyllables_pos word
  have h2 := complexityFactor_pos word
  positivity

theorem phonemeDuration_pos {rm : ℚ} (hrm : 0 < rm) {word : List Char} (hw : word ≠ []) :
    0 < phonemeDuration rm word := by
  unfold phonemeDuration
  have h1 : (0 : ℚ) < ((wordToPhonemes word).length : ℚ) := by
    exact_mod_cast wordToPhonemes_length_pos word hw
  exact div_pos (wordDuration_pos hrm word) h1

theorem length_mul_phonemeDuration (rm : ℚ) {word : List Char} (hw : word ≠ []) :
    ((wordToPhonemes word).length : ℚ) * phonemeDuration rm word = wordDuration rm word := by
  unfold phonemeDuration
  have h1 : ((wordToPhonemes word).length : ℚ) ≠ 0 := by
    have := wordToPhonemes_length_pos word hw
    exact_mod_cast (by omega : (wordToPhonemes word).length ≠ 0)
  field_simp

theorem foldl_processWord (rm : ℚ) : ∀ (ws : List (List Char)) (st : GenState),
    ws.foldl (processWord rm) st =
      { visemes := st.visemes ++
          eventsFrom rm st.currentTime (ws.filter fun w => decide (trim w ≠ []))
        currentTime := st.currentTime +
          ((ws.filter fun w => decide (trim w ≠ [])).map (wordDuration rm)).sum }
  | [], st => by simp [eventsFrom]
  | w :: ws, st => by
    rw [List.foldl_cons, foldl_processWord rm ws]
    by_cases h : trim w = []
    · simp [processWord, h]
    · simp [processWord, h, eventsFrom, add_assoc]

theorem generateLipSyncData_eq (text : String) (speechRate : ℚ) :
    generateLipSyncData text speechRate =
      eventsFrom (1 / speechRate) 0 (nonBlankWords text) := by
  unfold generateLipSyncData nonBlankWords
  simp only [foldl_processWord]
  norm_num


theorem mem_wordEvents {rm cur : ℚ} {w : List Char} {e : VisemeEvent}
    (h : e ∈ wordEvents rm cur w) :
    ∃ i : Nat, i < (wordToPhonemes w).length ∧
      e.start = cur + i * phonemeDuration rm w - phonemeDuration rm w * 0.1 ∧
      e.end_ = cur + (i + 1) * phonemeDuration rm w := by
  unfold wordEvents at h
  rw [List.mem_map] at h
  obtain ⟨⟨i, p⟩, hip, rfl⟩ := h
  refine ⟨i, List.fst_lt_of_mem_enum hip, ?_, ?_⟩
  · simp [phonemeEvent]
  · simp only [phonemeEvent]
    ring

theorem chain_enumFrom_map (cur pd : ℚ) (hpd : 0 ≤ pd) : ∀ (ps : List String) (k : Nat),
    List.Chain' (fun a b : VisemeEvent => a.start ≤ b.start)
      ((ps.enumFrom k).map fun ip => phonemeEvent cur pd ip.1 ip.2)
  | [], _ => by simp
  | [p], _ => by simp
  | p :: q :: rest, k => by
    have ih := chain_enumFrom_map cur pd hpd (q :: rest) (k + 1)
    simp only [List.enumFrom_cons, List.map_cons, List.chain'_cons] at ih ⊢
    refine ⟨?_, ih⟩
    simp only [phonemeEvent]
    push_cast
    nlinarith

theorem chain_wordEvents {rm : ℚ} (hrm : 0 < rm) (cur : ℚ) (w : List Char) :
    List.Chain' (fun a b : VisemeEvent => a.start ≤ b.start) (wordEvents rm cur w) := by
  unfold wordEvents
  apply chain_enumFrom_map
  unfold phonemeDuration
  exact div_nonneg (le_of_lt (wordDuration_pos hrm w)) (Nat.cast_nonneg _)

theorem length_wordEvents (rm cur : ℚ) (w : List Char) :
    (wordEvents rm cur w).length = (wordToPhonemes w).length := by
  simp [wordEvents]

theorem wordEvents_ne_nil (rm cur : ℚ) {w : List Char} (hw : w ≠ []) :
    wordEvents rm cur w ≠ [] := by
  intro h
  have h1 := length_wordEvents rm cur w
  have h2 := wordToPhonemes_length_pos w hw
  rw [h] at h1
  simp at h1
  omega

theorem head_wordEvents (rm cur : ℚ) {w : List Char} (hw : w ≠ []) :
    ∃ e, (wordEvents rm cur w).head? = some e ∧
      e.start = cur - phonemeDuration rm w * 0.1 := by
  have hlen := wordToPhonemes_length_pos w hw
  unfold wordEvents
  cases hp : wordToPhonemes w with
  | nil => simp [hp] at hlen
  | cons p ps =>
    refine ⟨phonemeEvent cur (phonemeDuration rm w) 0 p, ?_, ?_⟩
    · simp [List.enum, List.enumFrom_cons]
    · simp [phonemeEvent]

theorem last_wordEvents (rm cur : ℚ) {w : List Char} (hw : w ≠ []) :
    ∃ e, (wordEvents rm cur w).getLast? = some e ∧
      e.start = cur + wordDuration rm w - phonemeDuration rm w * 1.1 ∧
      e.end_ = cur + wordDuration rm w := by
  have hlen := wordToPhonemes_length_pos w hw
  have hmul := length_mul_phonemeDuration rm hw
  have hlt : (wordToPhonemes w).length - 1 < (wordToPhonemes w).length := by omega
  have hcast : (((wordToPhonemes w).length - 1 : ℕ) : ℚ) = ((wordToPhonemes w).length : ℚ) - 1 := by
    rw [Nat.cast_sub hlen]
    simp
  refine ⟨phonemeEvent cur (phonemeDuration rm w) ((wordToPhonemes w).length - 1)
    ((wordToPhonemes w)[(wordToPhonemes w).length - 1]), ?_, ?_, ?_⟩
  · rw [List.getLast?_eq_getElem?, length_wordEvents]
    unfold wordEvents
    rw [List.getElem?_map, List.getElem?_enum, List.getElem?_eq_getElem hlt]
    rfl
  · simp only [phonemeEvent, hcast]
    rw [← hmul]
    ring
  · simp only [phonemeEvent, hcast]
    rw [← hmul]
    ring

theorem head_eventsFrom_exists (rm cur : ℚ) {w : List Char} (hw : w ≠ [])
    (ws : List (List Char)) :
    ∃ e, (eventsFrom rm cur (w :: ws)).head? = some e ∧
      e.start = cur - phonemeDuration rm w * 0.1 := by
  obtain ⟨e, he, hs⟩ := head_wordEvents rm cur hw
  refine ⟨e, ?_, hs⟩
  simp [eventsFrom, he]

theorem sum_wordDuration_nonneg {rm : ℚ} (hrm : 0 < rm) (ws : List (List Char)) :
    0 ≤ (ws.map (wordDuration rm)).sum := by
  apply List.sum_nonneg
  intro x hx
  rw [List.mem_map] at hx
  obtain ⟨w, _, rfl⟩ := hx
  exact le_of_lt (wordDuration_pos hrm w)

theorem end_le_eventsFrom {rm : ℚ} (hrm : 0 < rm) : ∀ (ws : List (List Char)) (cur : ℚ),
    (∀ w ∈ ws, w ≠ []) → ∀ e ∈ eventsFrom rm cur ws,
      e.end_ ≤ cur + (ws.map (wordDuration rm)).sum
  | [], _, _, e, he => by simp [eventsFrom] at he
  | w :: ws, cur, hne, e, he => by
    have hw : w ≠ [] := hne w (List.mem_cons_self _ _)
    have hrest := sum_wordDuration_nonneg hrm ws
    simp only [eventsFrom, List.mem_append] at he
    simp only [List.map_cons, List.sum_cons]
    rcases he with he | he
    · obtain ⟨i, hi, _, hend⟩ := mem_wordEvents he
      have hmul := length_mul_phonemeDuration rm hw
      have hpd := phonemeDuration_pos hrm hw
      have hi1 : ((i : ℚ) + 1) ≤ ((wordToPhonemes w).length : ℚ) := by
        exact_mod_cast hi
      have := mul_le_mul_of_nonneg_right hi1 (le_of_lt hpd)
      rw [hend]
      linarith
    · have := end_le_eventsFrom hrm ws (cur + wordDuration rm w)
        (fun v hv => hne v (List.mem_cons_of_mem _ hv)) e he
      linarith

theorem last_eventsFrom (rm : ℚ) : ∀ (ws : List (List Char)) (cur : ℚ),
    ws ≠ [] → (∀ w ∈ ws, w ≠ []) →
    ∃ e, (eventsFrom rm cur ws).getLast? = some e ∧
      e.end_ = cur + (ws.map (wordDuration rm)).sum
  | [], _, h, _ => absurd rfl h
  | [w], cur, _, hne => by
    obtain ⟨e, he, _, hend⟩ := last_wordEvents rm cur (hne w (List.mem_cons_self _ _))
    refine ⟨e, ?_, ?_⟩
    · simp [eventsFrom, he]
    · simp [hend]
  | w :: w' :: ws, cur, _, hne => by
    obtain ⟨e, he, hend⟩ := last_eventsFrom rm (w' :: ws) (cur + wordDuration rm w)
      (List.cons_ne_nil _ _) (fun v hv => hne v (List.mem_cons_of_mem _ hv))
    refine ⟨e, ?_, ?_⟩
    · rw [eventsFrom, List.getLast?_append, he]
      rfl
    · rw [hend]
      simp only [List.map_cons, List.sum_cons]
      ring

theorem nonBlankWords_ne_nil (text : String) : ∀ w ∈ nonBlankWords text, w ≠ [] := by
  intro w hw
  unfold nonBlankWords at hw
  rw [List.mem_filter] at hw
  exact ne_nil_of_trim_ne_nil (by simpa using hw.2)

theorem startsNonDecreasing_iff_chain : ∀ (l : List VisemeEvent),
    StartsNonDecreasing l ↔ List.Chain' (fun a b : VisemeEvent => a.start ≤ b.start) l
  | [] => by simp [StartsNonDecreasing]
  | [a] => by simp [StartsNonDecreasing]
  | a :: b :: l => by
    rw [List.chain'_cons, ← startsNonDecreasing_iff_chain (b :: l)]
    constructor
    · intro h
      refine ⟨h 0 a b (by simp) (by simp), ?_⟩
      intro i x y hx hy
      exact h (i + 1) x y (by simpa using hx) (by simpa using hy)
    · rintro ⟨hab, h⟩ i x y hx hy
      cases i with
      | zero =>
        simp only [List.getElem?_cons_zero, Option.some.injEq, zero_add,
          List.getElem?_cons_succ] at hx hy
        subst hx
        subst hy
        exact hab
      | succ j =>
        exact h j x y (by simpa using hx) (by simpa using hy)

theorem chain_eventsFrom_iff {rm : ℚ} (hrm : 0 < rm) : ∀ (ws : List (List Char)) (cur : ℚ),
    (∀ w ∈ ws, w ≠ []) →
    (List.Chain' (fun a b : VisemeEvent => a.start ≤ b.start) (eventsFrom rm cur ws) ↔
      List.Chain' (SliceBounded rm) ws)
  | [], _, _ => by simp [eventsFrom]
  | [w], cur, _ => by
    simp only [eventsFrom, List.append_nil, List.chain'_singleton, iff_true]
    exact chain_wordEvents hrm cur w
  | w :: w' :: ws, cur, hne => by
    have hw : w ≠ [] := hne w (List.mem_cons_self _ _)
    have hw' : w' ≠ [] := hne w' (List.mem_cons_of_mem _ (List.mem_cons_self _ _))
    have ih := chain_eventsFrom_iff hrm (w' :: ws) (cur + wordDuration rm w)
      (fun v hv => hne v (List.mem_cons_of_mem _ hv))
    obtain ⟨x, hx, hxs, _⟩ := last_wordEvents rm cur hw
    obtain ⟨y, hy, hys⟩ := head_eventsFrom_exists rm (cur + wordDuration rm w) hw' ws
    rw [eventsFrom, List.chain'_append, List.chain'_cons, ih, hx, hy]
    have hb : (∀ a ∈ some x, ∀ b ∈ some y, a.start ≤ b.start) ↔ SliceBounded rm w w' := by
      simp only [Option.mem_def, Option.some.injEq, forall_eq', SliceBounded, hxs, hys]
      constructor <;> intro h <;> norm_num at h ⊢ <;> linarith
    rw [hb]
    constructor
    · rintro ⟨_, h2, h3⟩
      exact ⟨h3, h2⟩
    · rintro ⟨h3, h2⟩
      exact ⟨chain_wordEvents hrm cur w, h2, h3⟩

theorem length_eventsFrom (rm : ℚ) : ∀ (ws : List (List Char)) (cur : ℚ),
    (eventsFrom rm cur ws).length = (ws.map fun w => (wordToPhonemes w).length).sum
  | [], _ => rfl
  | w :: ws, cur => by
    simp [eventsFrom, length_wordEvents, length_eventsFrom rm ws]

theorem length_le_sum_of_one_le (f : List Char → Nat) : ∀ (ws : List (List Char)),
    (∀ w ∈ ws, 1 ≤ f w) → ws.length ≤ (ws.map f).sum
  | [], _ => by simp
  | w :: ws, h => by
    have h1 := h w (List.mem_cons_self _ _)
    have h2 := length_le_sum_of_one_le f ws (fun v hv => h v (List.mem_cons_of_mem _ hv))
    simp only [List.length_cons, List.map_cons, List.sum_cons]
    omega

theorem mem_splitSpace {P : Char → Prop} : ∀ (s : List Char), (∀ c ∈ s, P c) →
    ∀ w ∈ splitSpace s, ∀ c ∈ w, P c
  | [], _, w, hw, c, hc => by
    simp only [splitSpace, List.mem_singleton] at hw
    subst hw
    simp at hc
  | a :: s, h, w, hw, c, hc => by
    have ih := mem_splitSpace s (fun x hx => h x (List.mem_cons_of_mem _ hx))
    unfold splitSpace at hw
    split_ifs at hw with ha
    · rcases List.mem_cons.mp hw with hw | hw
      · subst hw
        simp at hc
      · exact ih w hw c hc
    · cases hs : splitSpace s with
      | nil =>
        simp only [hs, List.mem_singleton] at hw
        subst hw
        simp only [List.mem_singleton] at hc
        subst hc
        exact h c (List.mem_cons_self _ _)
      | cons v vs =>
        simp only [hs, List.mem_cons] at hw
        rcases hw with hw | hw
        · subst hw
          rcases List.mem_cons.mp hc with hc | hc
          · subst hc
            exact h c (List.mem_cons_self _ _)
          · exact ih v (by simp [hs]) c hc
        · exact ih w (by simp [hs, hw]) c hc

theorem trim_eq_nil_of_all_space {w : List Char} (h : ∀ c ∈ w, isSpace c = true) :
    trim w = [] := by
  have : w.dropWhile isSpace = [] := List.dropWhile_eq_nil_iff.mpr h
  simp [trim, this]

theorem lowerChar_of_not_word {c : Char} (h1 : isWordChar c = false) (h2 : c.toNat ≠ 0x130)
    (h3 : c.toNat ≠ 0x212A) : lowerChar c = [c] := by
  unfold lowerChar
  unfold isWordChar at h1
  simp only [Bool.or_eq_false_iff, Bool.and_eq_false_iff, decide_eq_false_iff_not] at h1
  have hup : ¬ (0x41 ≤ c.toNat ∧ c.toNat ≤ 0x5A) := by
    rintro ⟨ha, hb⟩
    rcases h1.1.1.2 with h | h
    · exact h ha
    · exact h hb
  simp [hup, h2, h3]

theorem toLowerCase_of_not_word : ∀ (s : List Char),
    (∀ c ∈ s, isWordChar c = false ∧ c.toNat ≠ 0x130 ∧ c.toNat ≠ 0x212A) →
    toLowerCase s = s
  | [], _ => rfl
  | c :: s, h => by
    have hc := h c (List.mem_cons_self _ _)
    have ih := toLowerCase_of_not_word s (fun x hx => h x (List.mem_cons_of_mem _ hx))
    unfold toLowerCase at ih ⊢
    simp [lowerChar_of_not_word hc.1 hc.2.1 hc.2.2, ih]

theorem wordDuration_rate (r : ℚ) (w : List Char) :
    wordDuration (1 / r) w = wordDuration 1 w / r := by
  unfold wordDuration baseSyllableDuration
  ring

theorem phonemeDuration_rate (r : ℚ) (w : List Char) :
    phonemeDuration (1 / r) w = phonemeDuration 1 w / r := by
  unfold phonemeDuration
  rw [wordDuration_rate]
  ring

theorem phonemeEvent_rate (r cur pd : ℚ) (i : Nat) (p : String) :
    phonemeEvent (cur / r) (pd / r) i p = scaleEvent r (phonemeEvent cur pd i p) := by
  simp only [phonemeEvent, scaleEvent, VisemeEvent.mk.injEq, true_and]
  constructor <;> ring

theorem wordEvents_rate (r cur : ℚ) (w : List Char) :
    wordEvents (1 / r) (cur / r) w = (wordEvents 1 cur w).map (scaleEvent r) := by
  unfold wordEvents
  rw [phonemeDuration_rate, List.map_map]
  apply List.map_congr_left
  intro ip _
  exact phonemeEvent_rate r cur _ ip.1 ip.2

theorem eventsFrom_rate (r : ℚ) : ∀ (ws : List (List Char)) (cur : ℚ),
    eventsFrom (1 / r) (cur / r) ws = (eventsFrom 1 cur ws).map (scaleEvent r)
  | [], _ => rfl
  | w :: ws, cur => by
    have ih := eventsFrom_rate r ws (cur + wordDuration 1 w)
    rw [add_div, ← wordDuration_rate] at ih
    simp only [eventsFrom, List.map_append, wordEvents_rate, ih]

theorem findViseme_cons_of_covers {t : ℚ} {x : VisemeEvent} (xs : List VisemeEvent)
    (h : Covers t x) : findViseme (x :: xs) t = some x := by
  unfold findViseme
  apply List.find?_cons_of_pos
  simpa [Covers] using h

theorem findViseme_cons_of_not_covers {t : ℚ} {x : VisemeEvent} (xs : List VisemeEvent)
    (h : ¬ Covers t x) : findViseme (x :: xs) t = findViseme xs t := by
  unfold findViseme
  apply List.find?_cons_of_neg
  simpa [Covers] using h

theorem findViseme_eq_none_iff (tl : List VisemeEvent) (t : ℚ) :
    findViseme tl t = none ↔ ∀ e ∈ tl, ¬ Covers t e := by
  unfold findViseme
  rw [List.find?_eq_none]
  simp [Covers]

theorem findViseme_eq_some_iff : ∀ (tl : List VisemeEvent) (t : ℚ) (e : VisemeEvent),
    findViseme tl t = some e ↔
      ∃ i, tl[i]? = some e ∧ Covers t e ∧
        ∀ (j : Nat) (e' : VisemeEvent), j < i → tl[j]? = some e' → ¬ Covers t e'
  | [], t, e => by simp [findViseme]
  | x :: xs, t, e => by
    by_cases hx : Covers t x
    · rw [findViseme_cons_of_covers xs hx]
      constructor
      · intro h
        cases h
        exact ⟨0, by simp, hx, fun j e' hj => absurd hj (Nat.not_lt_zero j)⟩
      · rintro ⟨i, hi, _, hmin⟩
        cases i with
        | zero => simpa using hi
        | succ k => exact absurd hx (hmin 0 x (Nat.succ_pos k) (by simp))
    · rw [findViseme_cons_of_not_covers xs hx, findViseme_eq_some_iff xs t e]
      constructor
      · rintro ⟨i, hi, hc, hmin⟩
        refine ⟨i + 1, by simpa using hi, hc, ?_⟩
        intro j e' hj hj'
        cases j with
        | zero =>
          simp only [List.getElem?_cons_zero, Option.some.injEq] at hj'
          subst hj'
          exact hx
        | succ k => exact hmin k e' (by omega) (by simpa using hj')
      · rintro ⟨i, hi, hc, hmin⟩
        cases i with
        | zero =>
          simp only [List.getElem?_cons_zero, Option.some.injEq] at hi
          subst hi
          exact absurd hc hx
        | succ k =>
          refine ⟨k, by simpa using hi, hc, ?_⟩
          intro j e' hj hj'
          exact hmin (j + 1) e' (by omega) (by simpa using hj')

theorem smoothStep_closing (delta : ℚ) {current : ℚ} (hc : 0 ≤ current) :
    smoothStep delta current 0 = (1 - min (delta * 15) 1) * current := by
  unfold smoothStep lerp
  by_cases h : (0 : ℚ) < current
  · simp [h]
  · have h0 : current = 0 := le_antisymm (not_lt.mp h) hc
    simp [h0]

theorem smoothStep_opening (delta : ℚ) {current : ℚ} (hc : current ≤ 1) :
    1 - smoothStep delta current 1 = (1 - min (delta * 12) 1) * (1 - current) := by
  unfold smoothStep lerp
  have h : ¬ (1 : ℚ) < current := not_lt.mpr hc
  simp only [h, if_false]
  ring

theorem smoothIter_closing_opening (delta : ℚ) (hd : 0 ≤ delta) : ∀ (n : Nat) (c o : ℚ),
    0 ≤ c → o ≤ 1 → c ≤ 1 - o →
    0 ≤ smoothIter delta 0 n c ∧ smoothIter delta 1 n o ≤ 1 ∧
      smoothIter delta 0 n c ≤ 1 - smoothIter delta 1 n o
  | 0, c, o, hc, ho, hco => ⟨hc, ho, hco⟩
  | n + 1, c, o, hc, ho, hco => by
    have hfc0 : (0 : ℚ) ≤ 1 - min (delta * 15) 1 := by
      have := min_le_right (delta * 15) 1
      linarith
    have hfo0 : (0 : ℚ) ≤ 1 - min (delta * 12) 1 := by
      have := min_le_right (delta * 12) 1
      linarith
    have hle : min (delta * 12) 1 ≤ min (delta * 15) 1 :=
      min_le_min (by linarith) (le_refl 1)
    have h1o : (0 : ℚ) ≤ 1 - o := by linarith
    have hc' : 0 ≤ smoothStep delta c 0 := by
      rw [smoothStep_closing delta hc]
      exact mul_nonneg hfc0 hc
    have ho' : smoothStep delta o 1 ≤ 1 := by
      have := smoothStep_opening delta ho
      have := mul_nonneg hfo0 h1o
      linarith
    have hco' : smoothStep delta c 0 ≤ 1 - smoothStep delta o 1 := by
      rw [smoothStep_closing delta hc, smoothStep_opening delta ho]
      calc (1 - min (delta * 15) 1) * c
          ≤ (1 - min (delta * 15) 1) * (1 - o) := mul_le_mul_of_nonneg_left hco hfc0
        _ ≤ (1 - min (delta * 12) 1) * (1 - o) :=
            mul_le_mul_of_nonneg_right (by linarith) h1o
    exact smoothIter_closing_opening delta hd n _ _ hc' ho' hco'

theorem lookup_mem_values {α : Type} : ∀ (l : List (String × α)) (k : String) (v : α),
    l.lookup k = some v → v ∈ l.map Prod.snd
  | [], _, _, h => by simp at h
  | (k', v') :: l, k, v, h => by
    rw [List.lookup_cons] at h
    cases hk : (k == k') with
    | true =>
      simp only [hk, Option.some.injEq] at h
      simp [h]
    | false =>
      simp only [hk] at h
      have := lookup_mem_values l k v h
      simp only [List.map_cons, List.mem_cons]
      exact Or.inr this

theorem phonemeToViseme_mem (p : String) : phonemeToViseme p ∈ visemeNames := by
  unfold phonemeToViseme
  cases h : mapping.lookup p with
  | none => decide
  | some v =>
    have hv := lookup_mem_values mapping p v h
    have hall : ∀ x ∈ mapping.map Prod.snd, x ∈ visemeNames := by decide
    exact hall v hv

theorem mem_wordEvents_token {rm cur : ℚ} {w : List Char} {e : VisemeEvent}
    (h : e ∈ wordEvents rm cur w) :
    ∃ p ∈ wordToPhonemes w, e.viseme = phonemeToViseme p ∧
      e.intensity = getIntensityForPhoneme p := by
  unfold wordEvents at h
  rw [List.mem_map] at h
  obtain ⟨⟨i, p⟩, hip, rfl⟩ := h
  exact ⟨p, List.snd_mem_of_mem_enum hip, rfl, rfl⟩

theorem mem_eventsFrom_token {rm : ℚ} : ∀ (ws : List (List Char)) (cur : ℚ) (e : VisemeEvent),
    e ∈ eventsFrom rm cur ws →
    ∃ w ∈ ws, ∃ p ∈ wordToPhonemes w, e.viseme = phonemeToViseme p ∧
      e.intensity = getIntensityForPhoneme p
  | [], _, e, h => by simp [eventsFrom] at h
  | w :: ws, cur, e, h => by
    simp only [eventsFrom, List.mem_append] at h
    rcases h with h | h
    · obtain ⟨p, hp, h1, h2⟩ := mem_wordEvents_token h
      exact ⟨w, List.mem_cons_self _ _, p, hp, h1, h2⟩
    · obtain ⟨w', hw', p, hp, h1, h2⟩ := mem_eventsFrom_token ws _ e h
      exact ⟨w', List.mem_cons_of_mem _ hw', p, hp, h1, h2⟩

theorem mem_wordToPhonemes : ∀ (w : List Char) (p : String), p ∈ wordToPhonemes w →
    p = "TH" ∨ p = "CH" ∨ p = "SH" ∨ ∃ c ∈ w, p = String.singleton c
  | [], p, h => by simp [wordToPhonemes] at h
  | [c], p, h => by
    simp only [wordToPhonemes, List.mem_singleton] at h
    exact Or.inr (Or.inr (Or.inr ⟨c, by simp, h⟩))
  | c :: d :: rest, p, h => by
    have ih1 := mem_wordToPhonemes rest p
    have ih2 := mem_wordToPhonemes (d :: rest) p
    have lift1 : (∃ x ∈ rest, p = String.singleton x) →
        ∃ x ∈ c :: d :: rest, p = String.singleton x := by
      rintro ⟨x, hx, hp⟩
      exact ⟨x, List.mem_cons_of_mem _ (List.mem_cons_of_mem _ hx), hp⟩
    have lift2 : (∃ x ∈ d :: rest, p = String.singleton x) →
        ∃ x ∈ c :: d :: rest, p = String.singleton x := by
      rintro ⟨x, hx, hp⟩
      exact ⟨x, List.mem_cons_of_mem _ hx, hp⟩
    unfold wordToPhonemes at h
    split_ifs at h
    · rcases List.mem_cons.mp h with h | h
      · exact Or.inl h
      · rcases ih1 h with h | h | h | h
        · exact Or.inl h
        · exact Or.inr (Or.inl h)
        · exact Or.inr (Or.inr (Or.inl h))
        · exact Or.inr (Or.inr (Or.inr (lift1 h)))
    · rcases List.mem_cons.mp h with h | h
      · exact Or.inr (Or.inl h)
      · rcases ih1 h with h | h | h | h
        · exact Or.inl h
        · exact Or.inr (Or.inl h)
        · exact Or.inr (Or.inr (Or.inl h))
        · exact Or.inr (Or.inr (Or.inr (lift1 h)))
    · rcases List.mem_cons.mp h with h | h
      · exact Or.inr (Or.inr (Or.inl h))
      · rcases ih1 h with h | h | h | h
        · exact Or.inl h
        · exact Or.inr (Or.inl h)
        · exact Or.inr (Or.inr (Or.inl h))
        · exact Or.inr (Or.inr (Or.inr (lift1 h)))
    · rcases List.mem_cons.mp h with h | h
      · exact Or.inr (Or.inr (Or.inr ⟨c, List.mem_cons_self _ _, h⟩))
      · rcases ih2 h with h | h | h | h
        · exact Or.inl h
        · exact Or.inr (Or.inl h)
        · exact Or.inr (Or.inr (Or.inl h))
        · exact Or.inr (Or.inr (Or.inr (lift2 h)))

theorem lowerChar_not_upper (c d : Char) (h : d ∈ lowerChar c) : isUpper d = false := by
  unfold lowerChar at h
  simp only at h
  split_ifs at h with h1 h2 h3
  · simp only [List.mem_singleton] at h
    subst h
    obtain ⟨ha, hb⟩ := h1
    generalize c.toNat = n at ha hb
    interval_cases n <;> decide
  · simp only [List.mem_cons, List.mem_singleton, List.not_mem_nil, or_false] at h
    rcases h with h | h <;> subst h <;> decide
  · simp only [List.mem_singleton] at h
    subst h
    decide
  · simp only [List.mem_singleton] at h
    subst h
    unfold isUpper
    simp only [Bool.and_eq_false_iff, decide_eq_false_iff_not]
    by_contra hcon
    push_neg at hcon
    exact h1 hcon

theorem toLowerCase_not_upper (s : List Char) : ∀ d ∈ toLowerCase s, isUpper d = false := by
  intro d hd
  unfold toLowerCase at hd
  rw [List.mem_flatten] at hd
  obtain ⟨l, hl, hdl⟩ := hd
  rw [List.mem_map] at hl
  obtain ⟨c, _, rfl⟩ := hl
  exact lowerChar_not_upper c d hdl

theorem textWords_not_upper (text : String) :
    ∀ w ∈ textWords text, ∀ d ∈ w, isUpper d = false := by
  unfold textWords
  apply mem_splitSpace
  intro c hc
  unfold stripNonWord at hc
  exact toLowerCase_not_upper _ c (List.mem_of_mem_filter hc)

theorem nonBlankWords_not_upper (text : String) :
    ∀ w ∈ nonBlankWords text, ∀ d ∈ w, isUpper d = false := by
  intro w hw
  unfold nonBlankWords at hw
  exact textWords_not_upper text w (List.mem_of_mem_filter hw)

theorem singleton_eq_iff (c d : Char) : String.singleton c = String.singleton d ↔ c = d := by
  constructor
  · intro h
    have := congrArg String.data h
    simpa [String.singleton] using this
  · rintro rfl
    rfl

theorem getIntensity_singleton (c : Char) (hc : isUpper c = false) :
    getIntensityForPhoneme (String.singleton c) = tokenIntensity (String.singleton c) := by
  have e1 : ∀ d : Char, (String.singleton c = String.singleton d) = (c = d) :=
    fun d => propext (singleton_eq_iff c d)
  have e2 : ∀ (a b : Char), String.singleton c ≠ String.mk [a, b] := by
    intro a b h
    have := congrArg String.length h
    simp [String.singleton, String.length] at this
  have hE : c ≠ 'E' := by rintro rfl; simp [isUpper] at hc
  have hI : c ≠ 'I' := by rintro rfl; simp [isUpper] at hc
  have hO : c ≠ 'O' := by rintro rfl; simp [isUpper] at hc
  have hU : c ≠ 'U' := by rintro rfl; simp [isUpper] at hc
  have s1 : ∀ d : Char, String.mk [d] = String.singleton d := fun _ => rfl
  unfold getIntensityForPhoneme tokenIntensity
  have haa : String.singleton c ≠ "aa" := e2 'a' 'a'
  have hah : String.singleton c ≠ "ah" := e2 'a' 'h'
  have hPP : String.singleton c ≠ "PP" := e2 'P' 'P'
  have hFF : String.singleton c ≠ "FF" := e2 'F' 'F'
  have hTH : String.singleton c ≠ "TH" := e2 'T' 'H'
  have hDD : String.singleton c ≠ "DD" := e2 'D' 'D'
  have hkk : String.singleton c ≠ "kk" := e2 'k' 'k'
  have hCH : String.singleton c ≠ "CH" := e2 'C' 'H'
  have hEs : String.singleton c ≠ "E" := fun h => hE ((singleton_eq_iff c 'E').mp h)
  have hIs : String.singleton c ≠ "I" := fun h => hI ((singleton_eq_iff c 'I').mp h)
  have hOs : String.singleton c ≠ "O" := fun h => hO ((singleton_eq_iff c 'O').mp h)
  have hUs : String.singleton c ≠ "U" := fun h => hU ((singleton_eq_iff c 'U').mp h)
  simp only [List.mem_cons, List.mem_singleton, List.not_mem_nil, or_false, haa, hah, hPP,
    hFF, hTH, hDD, hkk, hCH, hEs, hIs, hOs, hUs, false_or, or_self, if_false]

theorem tokenIntensity_bounds (p : String) :
    0.5 ≤ tokenIntensity p ∧ tokenIntensity p ≤ 1.2 := by
  unfold tokenIntensity
  split_ifs <;> norm_num

theorem getElem?_wordEvents (rm cur : ℚ) (w : List Char) (i : Nat)
    (hi : i < (wordToPhonemes w).length) :
    (wordEvents rm cur w)[i]? =
      some (phonemeEvent cur (phonemeDuration rm w) i ((wordToPhonemes w)[i])) := by
  unfold wordEvents
  rw [List.getElem?_map, List.getElem?_enum, List.getElem?_eq_getElem hi]
  rfl

theorem vowelRunLengths_vowel {d : Char} (hd : isVowel d = true) (rest : List Char) :
    ∃ n ns, vowelRunLengths (d :: rest) = (n + 1) :: ns ∧
      ((vowelRunLengths rest).map fun L => (L + 1) / 2).sum =
        (n + 1) / 2 + (ns.map fun L => (L + 1) / 2).sum := by
  cases rest with
  | nil => exact ⟨0, [], by simp [vowelRunLengths, hd], by simp [vowelRunLengths]⟩
  | cons e r =>
    by_cases he : isVowel e = true
    · have key : ∃ m ms, vowelRunLengths (e :: r) = (m + 1) :: ms := by
        cases r with
        | nil => exact ⟨0, [], by simp [vowelRunLengths, he]⟩
        | cons f r' =>
          by_cases hf : isVowel f = true
          · cases hv : vowelRunLengths (f :: r') with
            | nil => exact ⟨0, [], by simp [vowelRunLengths, he, hf, hv]⟩
            | cons k ks => exact ⟨k, ks, by simp [vowelRunLengths, he, hf, hv]⟩
          · exact ⟨0, vowelRunLengths (f :: r'), by simp [vowelRunLengths, he, hf]⟩
      obtain ⟨m, ms, hm⟩ := key
      refine ⟨m + 1, ms, by simp [vowelRunLengths, hd, he, hm], ?_⟩
      simp [hm]
    · refine ⟨0, vowelRunLengths (e :: r), by simp [vowelRunLengths, hd, he], ?_⟩
      simp

theorem countVowelMatches_eq_sum : ∀ (w : List Char),
    countVowelMatches w = ((vowelRunLengths w).map fun L => (L + 1) / 2).sum
  | [] => by simp [countVowelMatches, vowelRunLengths]
  | [c] => by
    by_cases hc : isVowel c = true <;> simp [countVowelMatches, vowelRunLengths, hc]
  | c :: d :: rest => by
    have ih1 := countVowelMatches_eq_sum rest
    have ih2 := countVowelMatches_eq_sum (d :: rest)
    by_cases hc : isVowel c = true
    · by_cases hd : isVowel d = true
      · obtain ⟨n, ns, hn, hsum⟩ := vowelRunLengths_vowel hd rest
        simp only [countVowelMatches, vowelRunLengths, hc, hd, if_true, hn, List.map_cons,
          List.sum_cons, ih1, hsum]
        omega
      · simp only [countVowelMatches, vowelRunLengths, hc, hd, if_true, List.map_cons,
          List.sum_cons, ih2]
        simp
    · simp only [countVowelMatches, vowelRunLengths, hc, ih2]
      simp

theorem sum_half_eq_length : ∀ (ns : List Nat), (∀ n ∈ ns, 1 ≤ n ∧ n ≤ 2) →
    (ns.map fun L => (L + 1) / 2).sum = ns.length
  | [], _ => rfl
  | n :: ns, h => by
    have h1 := h n (List.mem_cons_self _ _)
    have ih := sum_half_eq_length ns (fun x hx => h x (List.mem_cons_of_mem _ hx))
    simp only [List.map_cons, List.sum_cons, List.length_cons, ih]
    omega

theorem countVowelMatches_le_filter : ∀ (w : List Char),
    countVowelMatches w ≤ (w.filter isVowel).length
  | [] => by simp [countVowelMatches]
  | [c] => by
    by_cases hc : isVowel c = true <;> simp [countVowelMatches, hc]
  | c :: d :: rest => by
    have ih1 := countVowelMatches_le_filter rest
    have ih2 := countVowelMatches_le_filter (d :: rest)
    cases hc : isVowel c with
    | true =>
      cases hd : isVowel d with
      | true =>
        simp only [countVowelMatches, hc, hd, if_true, List.filter_cons_of_pos,
          List.length_cons]
        omega
      | false =>
        have hf : (List.filter isVowel (c :: d :: rest)).length =
            (List.filter isVowel (d :: rest)).length + 1 := by
          rw [List.filter_cons_of_pos hc, List.length_cons]
        simp only [countVowelMatches, hc, hd, if_true, Bool.false_eq_true, if_false, hf]
        omega
    | false =>
      have hf : List.filter isVowel (c :: d :: rest) = List.filter isVowel (d :: rest) :=
        List.filter_cons_of_neg (by simp [hc])
      simp only [countVowelMatches, hc, Bool.false_eq_true, if_false, hf]
      exact ih2

theorem stripSuffix_isInitial (w : List Char) : stripSuffix w <+: w := by
  unfold stripSuffix
  have hw : w = w.reverse.reverse := (List.reverse_reverse w).symm
  split
  · rename_i last prev third rest heq
    have h3 : w = rest.reverse ++ [third, prev, last] := by
      rw [hw, heq]; simp
    split_ifs
    · exact ⟨[third, prev, last], h3.symm⟩
    · exact ⟨[prev, last], by rw [h3]; simp⟩
    · exact ⟨[prev, last], by rw [h3]; simp⟩
    · exact List.prefix_refl w
  · split_ifs
    · exact List.nil_prefix
    · exact List.nil_prefix
    · exact List.prefix_refl w
  · exact List.prefix_refl w

theorem stripLeadingY_suffix (w : List Char) : stripLeadingY w <:+ w := by
  cases w with
  | nil => exact List.suffix_refl _
  | cons c cs =>
    simp only [stripLeadingY]
    split_ifs
    · exact List.suffix_cons c cs
    · exact List.suffix_refl _

theorem filter_lowerChar_length (c : Char) : ((lowerChar c).filter isVowel).length ≤ 1 := by
  unfold lowerChar
  simp only
  split_ifs
  · exact le_trans (List.length_filter_le _ _) (by simp)
  · decide
  · decide
  · exact le_trans (List.length_filter_le _ _) (by simp)

theorem filter_toLowerCase_length : ∀ (w : List Char),
    ((toLowerCase w).filter isVowel).length ≤ w.length
  | [] => by simp [toLowerCase]
  | c :: w => by
    have ih := filter_toLowerCase_length w
    have hc := filter_lowerChar_length c
    unfold toLowerCase at ih ⊢
    simp only [List.map_cons, List.flatten_cons, List.filter_append, List.length_append,
      List.length_cons]
    omega

theorem countSyllables_le_length {w : List Char} (hw : w ≠ []) :
    countSyllables w ≤ w.length := by
  have hlen : 1 ≤ w.length := by
    cases w with
    | nil => exact absurd rfl hw
    | cons c cs => simp
  have h1 := countVowelMatches_le_filter (stripLeadingY (stripSuffix (toLowerCase w)))
  have h2 : ((stripLeadingY (stripSuffix (toLowerCase w))).filter isVowel).length ≤
      ((toLowerCase w).filter isVowel).length := by
    apply List.Sublist.length_le
    apply List.Sublist.filter
    exact (stripLeadingY_suffix _).sublist.trans (stripSuffix_isInitial _).sublist
  have h3 := filter_toLowerCase_length w
  unfold countSyllables
  simp only
  split_ifs <;> omega

theorem writeBack_singleton (c : Char) : writeBack (String.singleton c) = [c] := by
  have e2 : ∀ (a b : Char), String.singleton c ≠ String.mk [a, b] := by
    intro a b h
    have := congrArg String.length h
    simp [String.singleton, String.length] at this
  have hTH : String.singleton c ≠ "TH" := e2 'T' 'H'
  have hCH : String.singleton c ≠ "CH" := e2 'C' 'H'
  have hSH : String.singleton c ≠ "SH" := e2 'S' 'H'
  unfold writeBack
  rw [if_neg hTH, if_neg hCH, if_neg hSH]
  rfl

theorem isDigraphToken_singleton (c : Char) : isDigraphToken (String.singleton c) = false := by
  have e2 : ∀ (a b : Char), String.singleton c ≠ String.mk [a, b] := by
    intro a b h
    have := congrArg String.length h
    simp [String.singleton, String.length] at this
  have hTH : String.singleton c ≠ "TH" := e2 'T' 'H'
  have hCH : String.singleton c ≠ "CH" := e2 'C' 'H'
  have hSH : String.singleton c ≠ "SH" := e2 'S' 'H'
  simp [isDigraphToken, hTH, hCH, hSH]

theorem wordToPhonemes_lossless : ∀ (w : List Char),
    ((wordToPhonemes w).map writeBack).flatten = w ∧
    (wordToPhonemes w).length + ((wordToPhonemes w).filter isDigraphToken).length = w.length
  | [] => by simp [wordToPhonemes]
  | [c] => by simp [wordToPhonemes, writeBack_singleton, isDigraphToken_singleton]
  | c :: d :: rest => by
    have ih1 := wordToPhonemes_lossless rest
    have ih2 := wordToPhonemes_lossless (d :: rest)
    have hTH : writeBack "TH" = ['t', 'h'] := by decide
    have hCH : writeBack "CH" = ['c', 'h'] := by decide
    have hSH : writeBack "SH" = ['s', 'h'] := by decide
    have dTH : isDigraphToken "TH" = true := by decide
    have dCH : isDigraphToken "CH" = true := by decide
    have dSH : isDigraphToken "SH" = true := by decide
    unfold wordToPhonemes
    split_ifs with h1 h2 h3
    · obtain ⟨rfl, rfl⟩ := h1
      simp only [List.map_cons, List.flatten_cons, hTH, ih1.1, List.filter_cons_of_pos, dTH,
        List.length_cons]
      exact ⟨rfl, by omega⟩
    · obtain ⟨rfl, rfl⟩ := h2
      simp only [List.map_cons, List.flatten_cons, hCH, ih1.1, List.filter_cons_of_pos, dCH,
        List.length_cons]
      exact ⟨rfl, by omega⟩
    · obtain ⟨rfl, rfl⟩ := h3
      simp only [List.map_cons, List.flatten_cons, hSH, ih1.1, List.filter_cons_of_pos, dSH,
        List.length_cons]
      exact ⟨rfl, by omega⟩
    · have hf : ¬ (isDigraphToken (String.singleton c) = true) := by
        simp [isDigraphToken_singleton]
      simp only [List.map_cons, List.flatten_cons, writeBack_singleton, ih2.1,
        List.filter_cons_of_neg hf, List.length_cons]
      have := ih2.2
      simp only [List.length_cons] at this
      exact ⟨rfl, by omega⟩

theorem vowelRunLengths_pos : ∀ (w : List Char), ∀ n ∈ vowelRunLengths w, 1 ≤ n
  | [], n, h => by simp [vowelRunLengths] at h
  | [c], n, h => by
    unfold vowelRunLengths at h
    split_ifs at h
    · simp only [List.mem_singleton] at h
      omega
    · simp at h
  | c :: d :: rest, n, h => by
    have ih := vowelRunLengths_pos (d :: rest)
    unfold vowelRunLengths at h
    split_ifs at h
    · cases hv : vowelRunLengths (d :: rest) with
      | nil =>
        simp only [hv, List.mem_singleton] at h
        omega
      | cons k ks =>
        simp only [hv, List.mem_cons] at h
        rcases h with h | h
        · omega
        · exact ih n (by simp [hv, h])
    · rcases List.mem_cons.mp h with h | h
      · omega
      · exact ih n h
    · exact ih n h

theorem cover_enumFrom_map (cur pd : ℚ) (hpd : 0 ≤ pd) (t : ℚ) :
    ∀ (ps : List String) (k : Nat), ps ≠ [] →
    cur + k * pd - pd * 0.1 ≤ t → t ≤ cur + ((k : ℚ) + (ps.length : ℚ)) * pd →
    ∃ e ∈ (ps.enumFrom k).map (fun ip => phonemeEvent cur pd ip.1 ip.2), Covers t e
  | [], _, h, _, _ => absurd rfl h
  | [p], k, _, h1, h2 => by
    refine ⟨phonemeEvent cur pd k p, by simp, ?_, ?_⟩
    · simp only [phonemeEvent]
      linarith
    · simp only [phonemeEvent, List.length_singleton, Nat.cast_one] at h2 ⊢
      linarith
  | p :: q :: rest, k, _, h1, h2 => by
    by_cases ht : t ≤ cur + ((k : ℚ) + 1) * pd
    · refine ⟨phonemeEvent cur pd k p, by simp, ?_, ?_⟩
      · simp only [phonemeEvent]
        linarith
      · simp only [phonemeEvent]
        linarith
    · have ih := cover_enumFrom_map cur pd hpd t (q :: rest) (k + 1) (List.cons_ne_nil _ _)
        (by push_cast; push_neg at ht; nlinarith)
        (by
          simp only [List.length_cons, Nat.cast_add, Nat.cast_one] at h2 ⊢
          linarith)
      obtain ⟨e, he, hc⟩ := ih
      refine ⟨e, ?_, hc⟩
      simp only [List.enumFrom_cons, List.map_cons, List.mem_cons] at he ⊢
      exact Or.inr he

theorem cover_wordEvents {rm : ℚ} (hrm : 0 < rm) (cur t : ℚ) {w : List Char} (hw : w ≠ [])
    (h1 : cur ≤ t) (h2 : t ≤ cur + wordDuration rm w) :
    ∃ e ∈ wordEvents rm cur w, Covers t e := by
  have hpd := phonemeDuration_pos hrm hw
  have hmul := length_mul_phonemeDuration rm hw
  have hne : wordToPhonemes w ≠ [] := by
    intro h
    have := wordToPhonemes_length_pos w hw
    rw [h] at this
    simp at this
  unfold wordEvents
  apply cover_enumFrom_map cur _ (le_of_lt hpd) t _ 0 hne
  · simp only [Nat.cast_zero, zero_mul, add_zero]
    have : (0 : ℚ) ≤ phonemeDuration rm w * 0.1 := by positivity
    linarith
  · simp only [Nat.cast_zero, zero_add]
    rw [hmul]
    exact h2

theorem cover_eventsFrom {rm : ℚ} (hrm : 0 < rm) (t : ℚ) :
    ∀ (ws : List (List Char)) (cur : ℚ), ws ≠ [] → (∀ w ∈ ws, w ≠ []) →
    cur ≤ t → t ≤ cur + (ws.map (wordDuration rm)).sum →
    ∃ e ∈ eventsFrom rm cur ws, Covers t e
  | [], _, h, _, _, _ => absurd rfl h
  | w :: ws, cur, _, hne, h1, h2 => by
    have hw : w ≠ [] := hne w (List.mem_cons_self _ _)
    simp only [List.map_cons, List.sum_cons] at h2
    by_cases ht : t ≤ cur + wordDuration rm w
    · obtain ⟨e, he, hc⟩ := cover_wordEvents hrm cur t hw h1 ht
      exact ⟨e, by simp [eventsFrom, he], hc⟩
    · have hws : ws ≠ [] := by
        rintro rfl
        simp only [List.map_nil, List.sum_nil, add_zero] at h2
        exact ht h2
      obtain ⟨e, he, hc⟩ := cover_eventsFrom hrm t ws (cur + wordDuration rm w) hws
        (fun v hv => hne v (List.mem_cons_of_mem _ hv)) (by linarith) (by linarith)
      exact ⟨e, by simp [eventsFrom, he], hc⟩

theorem splitSpace_ne_nil : ∀ (s : List Char), splitSpace s ≠ []
  | [] => by simp [splitSpace]
  | c :: cs => by
    unfold splitSpace
    split_ifs
    · simp
    · cases splitSpace cs <;> simp

theorem splitSpace_append_space : ∀ (a r : List Char),
    splitSpace (a ++ ' ' :: r) = splitSpace a ++ splitSpace r
  | [], r => by simp [splitSpace]
  | c :: a, r => by
    have ih := splitSpace_append_space a r
    by_cases hc : c = ' '
    · simp [splitSpace, hc, ih]
    · cases hs : splitSpace a with
      | nil => exact absurd hs (splitSpace_ne_nil a)
      | cons w ws =>
        rw [List.cons_append]
        simp only [splitSpace, hc, if_false, ih, hs, List.cons_append]

theorem splitSpace_of_no_space : ∀ (a : List Char), (∀ c ∈ a, c ≠ ' ') → splitSpace a = [a]
  | [], _ => rfl
  | c :: a, h => by
    have ih := splitSpace_of_no_space a (fun x hx => h x (List.mem_cons_of_mem _ hx))
    have hc := h c (List.mem_cons_self _ _)
    simp [splitSpace, hc, ih]

theorem splitSpace_replicate_space : ∀ (n : Nat) (r : List Char),
    splitSpace (List.replicate n ' ' ++ r) = List.replicate n [] ++ splitSpace r
  | 0, r => by simp
  | n + 1, r => by
    have ih := splitSpace_replicate_space n r
    simp [List.replicate_succ, splitSpace, ih]

theorem toLowerCase_append (a b : List Char) :
    toLowerCase (a ++ b) = toLowerCase a ++ toLowerCase b := by
  simp [toLowerCase]

theorem stripNonWord_append (a b : List Char) :
    stripNonWord (a ++ b) = stripNonWord a ++ stripNonWord b := by
  simp [stripNonWord]

theorem lowerChar_letter {c : Char} (hc : isLetter c = true) :
    ∃ d, lowerChar c = [d] ∧ 0x61 ≤ d.toNat ∧ d.toNat ≤ 0x7A := by
  unfold isLetter at hc
  simp only [Bool.or_eq_true, Bool.and_eq_true, decide_eq_true_eq] at hc
  unfold lowerChar
  simp only
  rcases hc with ⟨ha, hb⟩ | ⟨ha, hb⟩
  · refine ⟨Char.ofNat (c.toNat + 32), by simp [ha, hb], ?_⟩
    generalize c.toNat = n at ha hb
    interval_cases n <;> decide
  · refine ⟨c, ?_, ha, hb⟩
    have h1 : ¬ (0x41 ≤ c.toNat ∧ c.toNat ≤ 0x5A) := by omega
    have h2 : ¬ c.toNat = 0x130 := by omega
    have h3 : ¬ c.toNat = 0x212A := by omega
    simp [h1, h2, h3]

theorem lower_letter_props {d : Char} (h1 : 0x61 ≤ d.toNat) (h2 : d.toNat ≤ 0x7A) :
    isWordChar d = true ∧ isSpace d = false ∧ d ≠ ' ' ∧ d ≠ '\t' ∧ d ≠ '\n' := by
  refine ⟨?_, ?_, ?_, ?_, ?_⟩
  · simp [isWordChar, h1, h2]
  · unfold isSpace
    simp only [Bool.or_eq_false_iff, Bool.and_eq_false_iff, beq_eq_false_iff_ne,
      decide_eq_false_iff_not]
    refine ⟨⟨⟨⟨⟨⟨⟨⟨⟨⟨⟨⟨⟨⟨?_, ?_⟩, ?_⟩, ?_⟩, ?_⟩, ?_⟩, ?_⟩, ?_⟩, ?_⟩, ?_⟩, ?_⟩, ?_⟩, ?_⟩, ?_⟩, ?_⟩ <;>
      omega
  · rintro rfl
    simp at h1
  · rintro rfl
    simp at h1
  · rintro rfl
    simp at h1

theorem normalise_letters : ∀ (u : List Char), (∀ c ∈ u, isLetter c = true) →
    stripNonWord (toLowerCase u) = toLowerCase u ∧
    (toLowerCase u).length = u.length ∧
    ∀ d ∈ toLowerCase u, isSpace d = false ∧ d ≠ ' ' ∧ d ≠ '\t' ∧ d ≠ '\n'
  | [], _ => by simp [toLowerCase, stripNonWord]
  | c :: u, h => by
    obtain ⟨ih1, ih2, ih3⟩ := normalise_letters u (fun x hx => h x (List.mem_cons_of_mem _ hx))
    obtain ⟨d, hd, hd1, hd2⟩ := lowerChar_letter (h c (List.mem_cons_self _ _))
    obtain ⟨p1, p2, p3, p4, p5⟩ := lower_letter_props hd1 hd2
    have hcons : toLowerCase (c :: u) = d :: toLowerCase u := by
      simp [toLowerCase, hd]
    rw [hcons]
    refine ⟨?_, by simp [ih2], ?_⟩
    · unfold stripNonWord at ih1 ⊢
      rw [List.filter_cons_of_pos (by simp [p1]), ih1]
    · intro x hx
      rcases List.mem_cons.mp hx with hx | hx
      · subst hx
        exact ⟨p2, p3, p4, p5⟩
      · exact ih3 x hx

theorem trim_ne_nil_of_head {w : List Char} (hw : w ≠ []) (h : ∀ d ∈ w, isSpace d = false) :
    trim w ≠ [] := by
  cases w with
  | nil => exact absurd rfl hw
  | cons c cs =>
    have hc := h c (List.mem_cons_self _ _)
    have hall : ∀ l : List Char, (∀ d ∈ l, isSpace d = false) → l.dropWhile isSpace = l := by
      intro l hl
      cases l with
      | nil => rfl
      | cons x xs => simp [List.dropWhile, hl x (List.mem_cons_self _ _)]
    unfold trim
    rw [hall _ h, hall _ (by
      intro d hd
      exact h d (List.mem_reverse.mp hd))]
    simp

theorem wordToPhonemes_append_sep (sep : Char) (h1 : sep ≠ 'h') (h2 : sep ≠ 't')
    (h3 : sep ≠ 'c') (h4 : sep ≠ 's') : ∀ (u v : List Char),
    wordToPhonemes (u ++ sep :: v) =
      wordToPhonemes u ++ String.singleton sep :: wordToPhonemes v
  | [], [] => by simp [wordToPhonemes]
  | [], d :: v => by simp [wordToPhonemes, h2, h3, h4]
  | [c], v => by
    have ih := wordToPhonemes_append_sep sep h1 h2 h3 h4 [] v
    simp only [List.nil_append] at ih
    simp [wordToPhonemes, h1, ih]
  | c :: d :: rest, v => by
    have ih1 := wordToPhonemes_append_sep sep h1 h2 h3 h4 rest v
    have ih2 := wordToPhonemes_append_sep sep h1 h2 h3 h4 (d :: rest) v
    simp only [List.cons_append] at ih2 ⊢
    simp only [wordToPhonemes]
    split_ifs
    · simp [ih1]
    · simp [ih1]
    · simp [ih1]
    · simp [ih2]

theorem half_factor_arith (x : ℚ) (hx : 0 < x) :
    0 ≤ 1 - min x 1 ∧ 1 - min x 1 ≤ (1 - min (x / 2) 1) ^ 2 ∧
    (1 - min x 1 = (1 - min (x / 2) 1) ^ 2 ↔ 2 ≤ x) := by
  rcases le_or_lt 2 x with h2 | h2
  · have hf : min x 1 = 1 := min_eq_right (by linarith)
    have hg : min (x / 2) 1 = 1 := min_eq_right (by linarith)
    rw [hf, hg]
    norm_num
    exact h2
  · have hg : min (x / 2) 1 = x / 2 := min_eq_left (by linarith)
    rcases le_or_lt 1 x with h1 | h1
    · have hf : min x 1 = 1 := min_eq_right h1
      rw [hf, hg]
      have hpos : 0 < (1 - x / 2) ^ 2 := by
        apply pow_pos
        linarith
      refine ⟨by norm_num, by linarith, ?_⟩
      constructor
      · intro h
        linarith
      · intro h
        linarith
    · have hf : min x 1 = x := min_eq_left (le_of_lt h1)
      rw [hf, hg]
      have hsq : (1 - x / 2) ^ 2 - (1 - x) = x ^ 2 / 4 := by ring
      have hpos : 0 < x ^ 2 / 4 := by positivity
      refine ⟨by linarith, by linarith, ?_⟩
      constructor
      · intro h
        linarith
      · intro h
        linarith

theorem smoothStep_sub_closing (delta : ℚ) {current target : ℚ} (h : target < current) :
    smoothStep delta current target - target =
      (1 - min (delta * 15) 1) * (current - target) := by
  unfold smoothStep lerp
  simp only [h, if_true]
  ring

theorem smoothStep_sub_opening (delta : ℚ) {current target : ℚ} (h : ¬ target < current) :
    smoothStep delta current target - target =
      (1 - min (delta * 12) 1) * (current - target) := by
  unfold smoothStep lerp
  simp only [h, if_false]
  ring

theorem smoothStep_self (delta target : ℚ) : smoothStep delta target target = target := by
  unfold smoothStep lerp
  simp only [lt_irrefl, if_false]
  ring

theorem two_half_steps_closing (delta : ℚ) (_hd : 0 < delta) {current target : ℚ}
    (h : target < current) :
    smoothStep (delta / 2) (smoothStep (delta / 2) current target) target - target =
      (1 - min (delta * 15 / 2) 1) ^ 2 * (current - target) := by
  have h1 := smoothStep_sub_closing (delta / 2) h
  have he : delta / 2 * 15 = delta * 15 / 2 := by ring
  rw [he] at h1
  rcases le_or_lt 1 (delta * 15 / 2) with hg | hg
  · have hmin : min (delta * 15 / 2) 1 = 1 := min_eq_right hg
    rw [hmin] at h1 ⊢
    have hs : smoothStep (delta / 2) current target = target := by linarith
    rw [hs, smoothStep_self]
    ring
  · have hmin : min (delta * 15 / 2) 1 = delta * 15 / 2 := min_eq_left (le_of_lt hg)
    rw [hmin] at h1 ⊢
    have hpos : 0 < (1 - delta * 15 / 2) * (current - target) :=
      mul_pos (by linarith) (by linarith)
    have hlt : target < smoothStep (delta / 2) current target := by linarith
    have h2 := smoothStep_sub_closing (delta / 2) hlt
    rw [he, hmin] at h2
    rw [h2]
    have : smoothStep (delta / 2) current target - target =
        (1 - delta * 15 / 2) * (current - target) := h1
    rw [this]
    ring

theorem two_half_steps_opening (delta : ℚ) (_hd : 0 < delta) {current target : ℚ}
    (h : current < target) :
    smoothStep (delta / 2) (smoothStep (delta / 2) current target) target - target =
      (1 - min (delta * 12 / 2) 1) ^ 2 * (current - target) := by
  have hn : ¬ target < current := not_lt.mpr (le_of_lt h)
  have h1 := smoothStep_sub_opening (delta / 2) hn
  have he : delta / 2 * 12 = delta * 12 / 2 := by ring
  rw [he] at h1
  have hg0 : 0 ≤ 1 - min (delta * 12 / 2) 1 := by
    have := min_le_right (delta * 12 / 2) 1
    linarith
  have hle : smoothStep (delta / 2) current target - target ≤ 0 := by
    rw [h1]
    exact mul_nonpos_of_nonneg_of_nonpos hg0 (by linarith)
  have hn2 : ¬ target < smoothStep (delta / 2) current target := by
    rw [not_lt]
    linarith
  have h2 := smoothStep_sub_opening (delta / 2) hn2
  rw [he] at h2
  rw [h2, h1]
  ring

theorem lookup_setKey_self {α : Type} : ∀ (t : List (String × α)) (k : String) (v : α),
    (setKey t k v).lookup k = some v
  | [], k, v => by simp [setKey, List.lookup]
  | (k', v') :: t, k, v => by
    by_cases h : k' = k
    · simp [setKey, h, List.lookup]
    · have hb : (k == k') = false := by simpa using fun e => h e.symm
      simp [setKey, h, List.lookup, hb, lookup_setKey_self t k v]

theorem lookup_setKey_ne {α : Type} : ∀ (t : List (String × α)) (k k' : String) (v : α),
    k' ≠ k → (setKey t k v).lookup k' = t.lookup k'
  | [], k, k', v, h => by
    have hb : (k' == k) = false := by simpa using h
    simp [setKey, List.lookup, hb]
  | (k0, v0) :: t, k, k', v, h => by
    by_cases h0 : k0 = k
    · subst h0
      have hb : (k' == k0) = false := by simpa using h
      simp [setKey, List.lookup, hb]
    · simp only [setKey, h0, if_false, List.lookup]
      cases hb : (k' == k0) with
      | true => rfl
      | false => exact lookup_setKey_ne t k k' v h

theorem keys_setKey_of_mem {α : Type} : ∀ (t : List (String × α)) (k : String) (v : α),
    k ∈ t.map Prod.fst → (setKey t k v).map Prod.fst = t.map Prod.fst
  | [], _, _, h => by simp at h
  | (k0, v0) :: t, k, v, h => by
    by_cases h0 : k0 = k
    · simp [setKey, h0]
    · have hk : k ∈ t.map Prod.fst := by
        simp only [List.map_cons, List.mem_cons] at h
        rcases h with h | h
        · exact absurd h.symm h0
        · exact h
      simp [setKey, h0, keys_setKey_of_mem t k v hk]

theorem keys_setKey_of_not_mem {α : Type} : ∀ (t : List (String × α)) (k : String) (v : α),
    k ∉ t.map Prod.fst → (setKey t k v).map Prod.fst = t.map Prod.fst ++ [k]
  | [], _, _, _ => by simp [setKey]
  | (k0, v0) :: t, k, v, h => by
    simp only [List.map_cons, List.mem_cons, not_or] at h
    have h0 : ¬ k0 = k := fun e => h.1 e.symm
    simp [setKey, h0, keys_setKey_of_not_mem t k v h.2]

theorem lookup_eq_none_of_not_mem {α : Type} : ∀ (t : List (String × α)) (k : String),
    k ∉ t.map Prod.fst → t.lookup k = none
  | [], _, _ => rfl
  | (k0, v0) :: t, k, h => by
    simp only [List.map_cons, List.mem_cons, not_or] at h
    have hb : (k == k0) = false := by simpa using h.1
    simp [List.lookup, hb, lookup_eq_none_of_not_mem t k h.2]

theorem lookup_isSome_of_mem {α : Type} : ∀ (t : List (String × α)) (k : String),
    k ∈ t.map Prod.fst → ∃ v, t.lookup k = some v
  | [], _, h => by simp at h
  | (k0, v0) :: t, k, h => by
    by_cases h0 : k = k0
    · exact ⟨v0, by simp [List.lookup, h0]⟩
    · have hb : (k == k0) = false := by simpa using h0
      have hk : k ∈ t.map Prod.fst := by
        simp only [List.map_cons, List.mem_cons] at h
        rcases h with h | h
        · exact absurd h h0
        · exact h
      obtain ⟨v, hv⟩ := lookup_isSome_of_mem t k hk
      exact ⟨v, by simp [List.lookup, hb, hv]⟩

theorem mem_keys_of_lookup {α : Type} : ∀ (t : List (String × α)) (k : String) (v : α),
    t.lookup k = some v → k ∈ t.map Prod.fst ∧ (k, v) ∈ t
  | [], _, _, h => by simp at h
  | (k0, v0) :: t, k, v, h => by
    rw [List.lookup_cons] at h
    cases hb : (k == k0) with
    | true =>
      simp only [hb, Option.some.injEq] at h
      have : k = k0 := by simpa using hb
      subst this
      subst h
      simp
    | false =>
      simp only [hb] at h
      obtain ⟨h1, h2⟩ := mem_keys_of_lookup t k v h
      exact ⟨by simp [h1], by simp [h2]⟩

theorem lookup_of_mem_nodup {α : Type} : ∀ (t : List (String × α)) (k : String) (v : α),
    (t.map Prod.fst).Nodup → (k, v) ∈ t → t.lookup k = some v
  | [], _, _, _, h => by simp at h
  | (k0, v0) :: t, k, v, hn, h => by
    simp only [List.map_cons, List.nodup_cons] at hn
    rcases List.mem_cons.mp h with h | h
    · cases h
      simp [List.lookup]
    · have hk : k ∈ t.map Prod.fst := List.mem_map.mpr ⟨(k, v), h, rfl⟩
      have hne : k ≠ k0 := by
        rintro rfl
        exact hn.1 hk
      have hb : (k == k0) = false := by simpa using hne
      simp [List.lookup, hb, lookup_of_mem_nodup t k v hn.2 h]

theorem setKey_of_lookup {α : Type} : ∀ (t : List (String × α)) (k : String) (v : α),
    t.lookup k = some v → setKey t k v = t
  | [], _, _, h => by simp at h
  | (k0, v0) :: t, k, v, h => by
    rw [List.lookup_cons] at h
    cases hb : (k == k0) with
    | true =>
      simp only [hb, Option.some.injEq] at h
      have : k = k0 := by simpa using hb
      subst this
      subst h
      simp [setKey]
    | false =>
      simp only [hb] at h
      have hne : ¬ k0 = k := by
        intro e
        have : (k == k0) = true := by simp [e]
        rw [hb] at this
        exact Bool.false_ne_true this
      simp [setKey, hne, setKey_of_lookup t k v h]

theorem assoc_ext {α : Type} : ∀ (l₁ l₂ : List (String × α)),
    l₁.map Prod.fst = l₂.map Prod.fst → (l₁.map Prod.fst).Nodup →
    (∀ k, l₁.lookup k = l₂.lookup k) → l₁ = l₂
  | [], [], _, _, _ => rfl
  | [], _ :: _, h, _, _ => by simp at h
  | _ :: _, [], h, _, _ => by simp at h
  | (k1, v1) :: l₁, (k2, v2) :: l₂, hk, hn, hl => by
    simp only [List.map_cons, List.cons.injEq] at hk
    obtain ⟨hk1, hk2⟩ := hk
    subst hk1
    simp only [List.map_cons, List.nodup_cons] at hn
    have hv : v1 = v2 := by
      have := hl k1
      simpa [List.lookup] using this
    subst hv
    have ih := assoc_ext l₁ l₂ hk2 hn.2 (by
      intro k
      by_cases hkk : k = k1
      · subst hkk
        rw [lookup_eq_none_of_not_mem l₁ k hn.1,
          lookup_eq_none_of_not_mem l₂ k (by rw [← hk2]; exact hn.1)]
      · have hb : (k == k1) = false := by simpa using hkk
        have := hl k
        simpa [List.lookup, hb] using this)
    rw [ih]

theorem lookup_foldl_assign {α : Type} (g : String → Bool) (h : String → Option α → α) :
    ∀ (ks : List String) (t : List (String × α)), ks.Nodup → ∀ k : String,
    (ks.foldl (fun t key => if g key = true then setKey t key (h key (t.lookup key)) else t)
        t).lookup k =
      if k ∈ ks ∧ g k = true then some (h k (t.lookup k)) else t.lookup k
  | [], t, _, k => by simp
  | k0 :: ks, t, hn, k => by
    simp only [List.nodup_cons] at hn
    rw [List.foldl_cons, lookup_foldl_assign g h ks _ hn.2 k]
    by_cases hk : k = k0
    · subst hk
      have hnot : ¬ (k ∈ ks ∧ g k = true) := fun hh => hn.1 hh.1
      rw [if_neg hnot]
      by_cases hg : g k = true
      · simp [hg, lookup_setKey_self]
      · simp [hg]
    · have hmem : k ∈ k0 :: ks ↔ k ∈ ks := by simp [hk]
      have hlook : (if g k0 = true then setKey t k0 (h k0 (t.lookup k0)) else t).lookup k =
          t.lookup k := by
        split_ifs
        · exact lookup_setKey_ne t k0 k _ hk
        · rfl
      simp only [hmem, hlook]

theorem keys_foldl_assign {α : Type} (g : String → Bool) (h : String → Option α → α) :
    ∀ (ks : List String) (t : List (String × α)),
    (∀ k ∈ ks, g k = true → k ∈ t.map Prod.fst) →
    (ks.foldl (fun t key => if g key = true then setKey t key (h key (t.lookup key)) else t)
        t).map Prod.fst = t.map Prod.fst
  | [], _, _ => rfl
  | k0 :: ks, t, hk => by
    rw [List.foldl_cons]
    have hstep : (if g k0 = true then setKey t k0 (h k0 (t.lookup k0)) else t).map Prod.fst =
        t.map Prod.fst := by
      split_ifs with hg
      · exact keys_setKey_of_mem t k0 _ (hk k0 (List.mem_cons_self _ _) hg)
      · rfl
    rw [keys_foldl_assign g h ks _ (by
      intro k hks hg
      rw [hstep]
      exact hk k (List.mem_cons_of_mem _ hks) hg), hstep]

theorem foldl_setKey_entries_id {α : Type} : ∀ (o t : List (String × α)),
    (∀ e ∈ o, t.lookup e.1 = some e.2) →
    o.foldl (fun t entry => setKey t entry.1 entry.2) t = t
  | [], _, _ => rfl
  | e :: o, t, h => by
    rw [List.foldl_cons, setKey_of_lookup t e.1 e.2 (h e (List.mem_cons_self _ _))]
    exact foldl_setKey_entries_id o t (fun x hx => h x (List.mem_cons_of_mem _ hx))

theorem lookup_foldl_setKey_entries {α : Type} : ∀ (o t : List (String × α)),
    (o.map Prod.fst).Nodup → ∀ k : String,
    (o.foldl (fun t entry => setKey t entry.1 entry.2) t).lookup k =
      match o.lookup k with
      | some v => some v
      | none => t.lookup k
  | [], _, _, _ => rfl
  | (k0, v0) :: o, t, hn, k => by
    simp only [List.map_cons, List.nodup_cons] at hn
    rw [List.foldl_cons, lookup_foldl_setKey_entries o _ hn.2 k]
    by_cases hk : k = k0
    · subst hk
      rw [lookup_eq_none_of_not_mem o k hn.1]
      simp [List.lookup, lookup_setKey_self]
    · have hb : (k == k0) = false := by simpa using hk
      simp only [List.lookup, hb, lookup_setKey_ne t k0 k v0 hk]

theorem keys_foldl_setKey_entries {α : Type} : ∀ (o t : List (String × α)),
    (∀ k ∈ o.map Prod.fst, k ∈ t.map Prod.fst) →
    (o.foldl (fun t entry => setKey t entry.1 entry.2) t).map Prod.fst = t.map Prod.fst
  | [], _, _ => rfl
  | (k0, v0) :: o, t, h => by
    have h0 : k0 ∈ t.map Prod.fst := h k0 (by simp)
    rw [List.foldl_cons, keys_foldl_setKey_entries o _ (by
      intro k hk
      rw [keys_setKey_of_mem t k0 v0 h0]
      exact h k (by simp [hk])), keys_setKey_of_mem t k0 v0 h0]

theorem keys_foldl_setKey_fresh {α : Type} {β : Type} (f : String × β → α) :
    ∀ (o : List (String × β)) (t : List (String × α)), (o.map Prod.fst).Nodup →
    (∀ k ∈ o.map Prod.fst, k ∉ t.map Prod.fst) →
    (o.foldl (fun t entry => setKey t entry.1 (f entry)) t).map Prod.fst =
      t.map Prod.fst ++ o.map Prod.fst
  | [], _, _, _ => by simp
  | (k0, v0) :: o, t, hn, h => by
    simp only [List.map_cons, List.nodup_cons] at hn
    have h0 : k0 ∉ t.map Prod.fst := h k0 (by simp)
    rw [List.foldl_cons, keys_foldl_setKey_fresh f o _ hn.2 (by
      intro k hk
      rw [keys_setKey_of_not_mem t k0 _ h0]
      simp only [List.mem_append, List.mem_singleton, not_or]
      refine ⟨h k (by simp [hk]), ?_⟩
      rintro rfl
      exact hn.1 hk), keys_setKey_of_not_mem t k0 _ h0]
    simp

theorem initialTargets_keys (dictionary : List (String × Nat)) (influences : Nat → ℚ)
    (hn : (dictionary.map Prod.fst).Nodup) :
    (initialTargets dictionary influences).map Prod.fst = dictionary.map Prod.fst := by
  unfold initialTargets
  have := keys_foldl_setKey_fresh (fun entry : String × Nat => influences entry.2) dictionary []
    hn (by simp)
  simpa using this

theorem initMorphTargets_ready (child : Mesh)
    (hk : (child.morphTargetDictionary.map Prod.fst).Nodup)
    (hv : (child.morphTargetDictionary.map Prod.snd).Nodup) :
    (initMorphTargets child).Ready :=
  ⟨hk, hv, initialTargets_keys _ _ hk, initialTargets_keys _ _ hk⟩

theorem resetTargets_eq {m : Mesh} (h : m.Ready) :
    resetTargets m = { m with targetMorphTargets := m.originalMorphTargets } := by
  obtain ⟨hk, _, ho, ht⟩ := h
  have hno : (m.originalMorphTargets.map Prod.fst).Nodup := by rw [ho]; exact hk
  have hkeys : (m.originalMorphTargets.foldl (fun t entry => setKey t entry.1 entry.2)
      m.targetMorphTargets).map Prod.fst = m.originalMorphTargets.map Prod.fst := by
    rw [keys_foldl_setKey_entries _ _ (by rw [ho, ht]; exact fun k hk => hk), ht, ho]
  have hfold : m.originalMorphTargets.foldl (fun t entry => setKey t entry.1 entry.2)
      m.targetMorphTargets = m.originalMorphTargets := by
    apply assoc_ext _ _ hkeys (by rw [hkeys]; exact hno)
    intro k
    rw [lookup_foldl_setKey_entries _ _ hno k]
    cases hl : m.originalMorphTargets.lookup k with
    | some v => rfl
    | none =>
      have hnot : k ∉ m.originalMorphTargets.map Prod.fst := by
        intro hmem
        obtain ⟨v, hv⟩ := lookup_isSome_of_mem _ k hmem
        rw [hl] at hv
        exact Option.noConfusion hv
      simp only
      exact lookup_eq_none_of_not_mem _ k (by rw [ht, ← ho]; exact hnot)
  unfold resetTargets
  rw [hfold]

theorem resetTargets_ready {m : Mesh} (h : m.Ready) : (resetTargets m).Ready := by
  rw [resetTargets_eq h]
  exact ⟨h.1, h.2.1, h.2.2.1, h.2.2.1⟩

theorem visemeMapping_nodup (v : String) (names : List String)
    (h : visemeMapping.lookup v = some names) : names.Nodup := by
  have hv := lookup_mem_values visemeMapping v names h
  have hall : ∀ x ∈ visemeMapping.map Prod.snd, x.Nodup := by decide
  exact hall names hv

theorem assignViseme_lookup (dictionary : List (String × Nat)) (intensity : ℚ)
    (t : List (String × ℚ)) (names : List String) (hn : names.Nodup) (k : String) :
    (assignViseme dictionary intensity t names).lookup k =
      if k ∈ names ∧ (dictionary.lookup k).isSome = true then
        some (morphIntensity intensity k)
      else t.lookup k :=
  lookup_foldl_assign (fun key => (dictionary.lookup key).isSome)
    (fun key _ => morphIntensity intensity key) names t hn k

theorem assignViseme_keys (dictionary : List (String × Nat)) (intensity : ℚ)
    (t : List (String × ℚ)) (names : List String)
    (hd : t.map Prod.fst = dictionary.map Prod.fst) :
    (assignViseme dictionary intensity t names).map Prod.fst = t.map Prod.fst :=
  keys_foldl_assign (fun key => (dictionary.lookup key).isSome)
    (fun key _ => morphIntensity intensity key) names t (by
      intro k _ hg
      cases hl : dictionary.lookup k with
      | none => simp [hl] at hg
      | some i =>
        rw [hd]
        exact (mem_keys_of_lookup _ k i hl).1)

theorem assignRandomFloor_lookup (dictionary : List (String × Nat)) (randomIntensity : ℚ)
    (t : List (String × ℚ)) (k : String) :
    (assignRandomFloor dictionary randomIntensity t).lookup k =
      if k ∈ ["mouthOpen", "jawOpen"] ∧ (dictionary.lookup k).isSome = true then
        some (max ((t.lookup k).getD 0) (randomIntensity * 0.3))
      else t.lookup k :=
  lookup_foldl_assign (fun key => (dictionary.lookup key).isSome)
    (fun _ old => max (old.getD 0) (randomIntensity * 0.3)) ["mouthOpen", "jawOpen"] t
    (by decide) k

theorem assignRandomFloor_keys (dictionary : List (String × Nat)) (randomIntensity : ℚ)
    (t : List (String × ℚ)) (hd : t.map Prod.fst = dictionary.map Prod.fst) :
    (assignRandomFloor dictionary randomIntensity t).map Prod.fst = t.map Prod.fst :=
  keys_foldl_assign (fun key => (dictionary.lookup key).isSome)
    (fun _ old => max (old.getD 0) (randomIntensity * 0.3)) ["mouthOpen", "jawOpen"] t (by
      intro k _ hg
      cases hl : dictionary.lookup k with
      | none => simp [hl] at hg
      | some i =>
        rw [hd]
        exact (mem_keys_of_lookup _ k i hl).1)

theorem visemeTargets_active (dictionary : List (String × Nat)) (t : List (String × ℚ))
    (visemeData : VisemeData) (random : ℚ) (names : List String)
    (hl : visemeMapping.lookup visemeData.current = some names)
    (hs : visemeData.current ≠ "sil") :
    visemeTargets dictionary t visemeData random =
      assignRandomFloor dictionary
        ((if visemeData.intensity = 0 then 0.5 else visemeData.intensity) * 1.8 *
          (0.8 + random * 0.4))
        (assignViseme dictionary
          ((if visemeData.intensity = 0 then 0.5 else visemeData.intensity) * 1.8) t names) := by
  have he : visemeData.current ≠ "" := by
    intro h
    have hnone : visemeMapping.lookup "" = none := by decide
    rw [h, hnone] at hl
    exact Option.noConfusion hl
  unfold visemeTargets
  simp only [he, if_false, hl, hs, ne_eq, not_false_eq_true, if_true]

theorem visemeTargets_inactive (dictionary : List (String × Nat)) (t : List (String × ℚ))
    (visemeData : VisemeData) (random : ℚ)
    (h : visemeData.current = "sil" ∨ visemeMapping.lookup visemeData.current = none) :
    visemeTargets dictionary t visemeData random = t := by
  rcases h with h | h
  · have hl : visemeMapping.lookup "sil" = some [] := by decide
    simp [visemeTargets, h, hl]
  · simp [visemeTargets, h]

theorem visemeTargets_keys (dictionary : List (String × Nat)) (t : List (String × ℚ))
    (visemeData : VisemeData) (random : ℚ)
    (hd : t.map Prod.fst = dictionary.map Prod.fst) :
    (visemeTargets dictionary t visemeData random).map Prod.fst = t.map Prod.fst := by
  cases hl : visemeMapping.lookup visemeData.current with
  | none => rw [visemeTargets_inactive _ _ _ _ (Or.inr hl)]
  | some names =>
    by_cases hs : visemeData.current = "sil"
    · rw [visemeTargets_inactive _ _ _ _ (Or.inl hs)]
    · rw [visemeTargets_active _ _ _ _ names hl hs,
        assignRandomFloor_keys _ _ _ (by rw [assignViseme_keys _ _ _ _ hd, hd]),
        assignViseme_keys _ _ _ _ hd]

theorem applyViseme_target {m : Mesh} (h : m.Ready) (visemeData : VisemeData) (random : ℚ) :
    (applyViseme m visemeData random).targetMorphTargets =
      visemeTargets m.morphTargetDictionary m.originalMorphTargets visemeData random := by
  unfold applyViseme
  rw [resetTargets_eq h]

theorem applyViseme_ready {m : Mesh} (h : m.Ready) (visemeData : VisemeData) (random : ℚ) :
    (applyViseme m visemeData random).Ready := by
  refine ⟨h.1, h.2.1, h.2.2.1, ?_⟩
  rw [applyViseme_target h, visemeTargets_keys _ _ _ _ h.2.2.1]
  exact h.2.2.1

theorem dictionary_injective (d : List (String × Nat)) (hv : (d.map Prod.snd).Nodup)
    {k k' : String} {i : Nat} (h1 : d.lookup k = some i) (h2 : d.lookup k' = some i) :
    k = k' := by
  have m1 := (mem_keys_of_lookup d k i h1).2
  have m2 := (mem_keys_of_lookup d k' i h2).2
  have := List.inj_on_of_nodup_map hv m1 m2 rfl
  exact congrArg Prod.fst this

theorem foldl_frame_untouched (d : List (String × Nat)) (delta : ℚ) (i : Nat) :
    ∀ (es : List (String × ℚ)) (inf : Nat → ℚ), (∀ e ∈ es, d.lookup e.1 ≠ some i) →
    (es.foldl (fun influences entry =>
        match d.lookup entry.1 with
        | some index =>
          Function.update influences index (smoothStep delta (influences index) entry.2)
        | none => influences) inf) i = inf i
  | [], _, _ => rfl
  | e :: es, inf, h => by
    rw [List.foldl_cons, foldl_frame_untouched d delta i es _
      (fun x hx => h x (List.mem_cons_of_mem _ hx))]
    have he := h e (List.mem_cons_self _ _)
    cases hl : d.lookup e.1 with
    | none => rfl
    | some j =>
      have hij : i ≠ j := by
        rintro rfl
        exact he hl
      simp [Function.update_noteq hij]

theorem foldl_frame_touched (d : List (String × Nat)) (hv : (d.map Prod.snd).Nodup)
    (delta : ℚ) (k : String) (i : Nat) (hk : d.lookup k = some i) (t : ℚ) :
    ∀ (es : List (String × ℚ)) (inf : Nat → ℚ), (es.map Prod.fst).Nodup → (k, t) ∈ es →
    (es.foldl (fun influences entry =>
        match d.lookup entry.1 with
        | some index =>
          Function.update influences index (smoothStep delta (influences index) entry.2)
        | none => influences) inf) i = smoothStep delta (inf i) t
  | [], _, _, h => by simp at h
  | e :: es, inf, hn, h => by
    simp only [List.map_cons, List.nodup_cons] at hn
    rw [List.foldl_cons]
    by_cases he : e.1 = k
    · have hnot : (k, t) ∉ es := by
        intro hmem
        exact hn.1 (List.mem_map.mpr ⟨(k, t), hmem, he.symm⟩)
      have heq : e = (k, t) := by
        rcases List.mem_cons.mp h with h | h
        · exact h.symm
        · exact absurd h hnot
      subst heq
      rw [foldl_frame_untouched d delta i es _ (by
        intro x hx hxl
        have := dictionary_injective d hv hxl hk
        exact hn.1 (List.mem_map.mpr ⟨x, hx, this⟩))]
      simp [hk]
    · have hmem : (k, t) ∈ es := by
        rcases List.mem_cons.mp h with h | h
        · exact absurd (by rw [← h]) he
        · exact h
      rw [foldl_frame_touched d hv delta k i hk t es _ hn.2 hmem]
      cases hl : d.lookup e.1 with
      | none => rfl
      | some j =>
        have hij : i ≠ j := by
          rintro rfl
          exact he (dictionary_injective d hv hl hk)
        simp [Function.update_noteq hij]

theorem useFrame_channel {m : Mesh} (h : m.Ready) (delta : ℚ) {k : String} {i : Nat} {t : ℚ}
    (hk : m.morphTargetDictionary.lookup k = some i)
    (ht : m.targetMorphTargets.lookup k = some t) :
    (useFrame m delta).morphTargetInfluences i =
      smoothStep delta (m.morphTargetInfluences i) t := by
  unfold useFrame
  exact foldl_frame_touched _ h.2.1 delta k i hk t _ _ (by rw [h.2.2.2]; exact h.1)
    (mem_keys_of_lookup _ k t ht).2

theorem useFrame_ready {m : Mesh} (h : m.Ready) (delta : ℚ) : (useFrame m delta).Ready :=
  h

theorem smoothStep_eq_target_iff (delta current target : ℚ) :
    smoothStep delta current target = target ↔
      current = target ∨ (target < current ∧ 1 ≤ delta * 15) ∨
        (current < target ∧ 1 ≤ delta * 12) := by
  rcases lt_trichotomy target current with h | h | h
  · have h1 := smoothStep_sub_closing delta h
    constructor
    · intro he
      right; left
      refine ⟨h, ?_⟩
      rw [he, sub_self] at h1
      have hz : 1 - min (delta * 15) 1 = 0 := by
        rcases mul_eq_zero.mp h1.symm with hz | hz
        · exact hz
        · linarith
      by_contra hlt
      push_neg at hlt
      rw [min_eq_left (le_of_lt hlt)] at hz
      linarith
    · rintro (hc | ⟨_, hx⟩ | ⟨hc, _⟩)
      · exact absurd hc (ne_of_gt h)
      · rw [min_eq_right hx] at h1
        linarith
      · exact absurd hc (not_lt.mpr (le_of_lt h))
  · subst h
    simp [smoothStep_self]
  · have hn : ¬ target < current := not_lt.mpr (le_of_lt h)
    have h1 := smoothStep_sub_opening delta hn
    constructor
    · intro he
      right; right
      refine ⟨h, ?_⟩
      rw [he, sub_self] at h1
      have hz : 1 - min (delta * 12) 1 = 0 := by
        rcases mul_eq_zero.mp h1.symm with hz | hz
        · exact hz
        · linarith
      by_contra hlt
      push_neg at hlt
      rw [min_eq_left (le_of_lt hlt)] at hz
      linarith
    · rintro (hc | ⟨hc, _⟩ | ⟨_, hx⟩)
      · exact absurd hc (ne_of_lt h)
      · exact absurd hc hn
      · rw [min_eq_right hx] at h1
        linarith

theorem applyViseme_lookup_active {m : Mesh} (h : m.Ready) (visemeData : VisemeData)
    (random : ℚ) (names : List String)
    (hl : visemeMapping.lookup visemeData.current = some names)
    (hs : visemeData.current ≠ "sil") (k : String) :
    (applyViseme m visemeData random).targetMorphTargets.lookup k =
      if k ∈ ["mouthOpen", "jawOpen"] ∧ (m.morphTargetDictionary.lookup k).isSome = true then
        some (max
          ((if k ∈ names ∧ (m.morphTargetDictionary.lookup k).isSome = true then
              some (morphIntensity
                ((if visemeData.intensity = 0 then 0.5 else visemeData.intensity) * 1.8) k)
            else m.originalMorphTargets.lookup k).getD 0)
          ((if visemeData.intensity = 0 then 0.5 else visemeData.intensity) * 1.8 *
            (0.8 + random * 0.4) * 0.3))
      else if k ∈ names ∧ (m.morphTargetDictionary.lookup k).isSome = true then
        some (morphIntensity
          ((if visemeData.intensity = 0 then 0.5 else visemeData.intensity) * 1.8) k)
      else m.originalMorphTargets.lookup k := by
  rw [applyViseme_target h, visemeTargets_active _ _ _ _ names hl hs,
    assignRandomFloor_lookup, assignViseme_lookup _ _ _ _ (visemeMapping_nodup _ _ hl)]

theorem getIntensityForPhoneme_mem (p : String) :
    getIntensityForPhoneme p ∈ generatorIntensities := by
  unfold getIntensityForPhoneme generatorIntensities
  split_ifs <;> simp

theorem generatorIntensities_bounds {I : ℚ} (h : I ∈ generatorIntensities) :
    0 < I ∧ I ≤ 1.2 := by
  unfold generatorIntensities at h
  simp only [List.mem_cons, List.mem_singleton, List.not_mem_nil, or_false] at h
  rcases h with h | h | h | h | h <;> subst h <;> norm_num

theorem random_floor_le {I random : ℚ} (h0 : 0 < I) (h1 : I ≤ 1.2) (_hr0 : 0 ≤ random)
    (hr1 : random < 1) :
    I * 1.8 * (0.8 + random * 0.4) * 0.3 ≤ min (I * 1.8 * 1.2) 1.5 := by
  have hfl : I * 1.8 * (0.8 + random * 0.4) * 0.3 ≤ I * 1.8 * 1.2 * 0.3 := by
    have : 0.8 + random * 0.4 ≤ (1.2 : ℚ) := by linarith
    have hI : 0 ≤ I * 1.8 := by positivity
    nlinarith
  apply le_min
  · nlinarith
  · nlinarith

theorem includes_always_on {k : String} (hk : k ∈ ["mouthOpen", "jawOpen"]) :
    (includes k "Open" || includes k "jaw") = true := by
  simp only [List.mem_cons, List.mem_singleton, List.not_mem_nil, or_false] at hk
  rcases hk with rfl | rfl <;> decide

theorem applyViseme_channel {m : Mesh} (h : m.Ready) (v : String) (names : List String)
    (I random ts : ℚ) (hl : visemeMapping.lookup v = some names) (hs : v ≠ "sil")
    (hI0 : 0 < I) (hI1 : I ≤ 1.2) (hr0 : 0 ≤ random) (hr1 : random < 1)
    (k : String) (hk : k ∈ names) (i : Nat) (hd : m.morphTargetDictionary.lookup k = some i) :
    (applyViseme m ⟨v, I, ts⟩ random).targetMorphTargets.lookup k =
      some (if (includes k "Open" || includes k "jaw") = true then min (I * 1.8 * 1.2) 1.5
        else I * 1.8) := by
  have hne : ¬ I = 0 := ne_of_gt hI0
  rw [applyViseme_lookup_active h ⟨v, I, ts⟩ random names hl hs k]
  simp only [hk, hd, Option.isSome_some, and_self, and_true, if_true, hne, if_false,
    Option.getD_some]
  by_cases ha : k ∈ ["mouthOpen", "jawOpen"]
  · have hinc := includes_always_on ha
    rw [if_pos ha]
    simp only [morphIntensity, hinc, if_true]
    rw [max_eq_left (random_floor_le hI0 hI1 hr0 hr1)]
  · rw [if_neg ha]
    rfl

theorem levenshteinDistance_nil_left : ∀ (ys : List Char),
    levenshteinDistance [] ys = ys.length
  | [] => by simp [levenshteinDistance]
  | y :: ys => by
    have ih := levenshteinDistance_nil_left ys
    unfold levenshteinDistance at ih ⊢
    rw [levenshtein_nil_cons, ih]
    simp [Levenshtein.defaultCost, Nat.add_comm]

theorem levenshteinDistance_nil_right : ∀ (xs : List Char),
    levenshteinDistance xs [] = xs.length
  | [] => by simp [levenshteinDistance]
  | x :: xs => by
    have ih := levenshteinDistance_nil_right xs
    unfold levenshteinDistance at ih ⊢
    rw [levenshtein_cons_nil, ih]
    simp [Levenshtein.defaultCost, Nat.add_comm]

theorem levenshteinDistance_le_max : ∀ (xs ys : List Char),
    levenshteinDistance xs ys ≤ max xs.length ys.length
  | [], ys => by simp [levenshteinDistance_nil_left]
  | x :: xs, [] => by simp [levenshteinDistance_nil_right]
  | x :: xs, y :: ys => by
    have ih := levenshteinDistance_le_max xs ys
    unfold levenshteinDistance at ih ⊢
    rw [levenshtein_cons_cons]
    have hsub : Levenshtein.defaultCost.substitute x y ≤ 1 := by
      simp only [Levenshtein.defaultCost]
      split_ifs <;> omega
    have h3 : Levenshtein.defaultCost.substitute x y + levenshtein Levenshtein.defaultCost xs ys
        ≤ max (x :: xs).length (y :: ys).length := by
      simp only [List.length_cons]
      omega
    exact le_trans (le_trans (min_le_right _ _) (min_le_right _ _)) h3

theorem levenshteinDistance_self : ∀ (xs : List Char), levenshteinDistance xs xs = 0
  | [] => by simp [levenshteinDistance]
  | x :: xs => by
    have ih := levenshteinDistance_self xs
    unfold levenshteinDistance at ih ⊢
    rw [levenshtein_cons_cons]
    have h3 : Levenshtein.defaultCost.substitute x x + levenshtein Levenshtein.defaultCost xs xs
        = 0 := by
      rw [ih]
      simp
    apply Nat.le_zero.mp
    refine le_trans (min_le_right _ _) (le_trans (min_le_right _ _) ?_)
    rw [h3]

theorem toLowerCase_length_ascii : ∀ (s : List Char), (∀ c ∈ s, c.toNat < 128) →
    (toLowerCase s).length = s.length
  | [], _ => rfl
  | c :: s, h => by
    have ih := toLowerCase_length_ascii s (fun x hx => h x (List.mem_cons_of_mem _ hx))
    have hc := h c (List.mem_cons_self _ _)
    have h1 : (lowerChar c).length = 1 := by
      unfold lowerChar
      simp only
      have h2 : ¬ c.toNat = 0x130 := by omega
      have h3 : ¬ c.toNat = 0x212A := by omega
      split_ifs <;> rfl
    unfold toLowerCase at ih ⊢
    simp only [List.map_cons, List.flatten_cons, List.length_append, List.length_cons, h1, ih]
    omega

theorem accuracy_bounds (M d : Nat) (hM : 0 < M) (hd : d ≤ M) :
    0 ≤ max 0 (mathRound ((((M : ℚ) - (d : ℚ)) / (M : ℚ)) * 100)) ∧
    max 0 (mathRound ((((M : ℚ) - (d : ℚ)) / (M : ℚ)) * 100)) ≤ 100 := by
  have hMq : (0 : ℚ) < (M : ℚ) := by exact_mod_cast hM
  have hdq : (d : ℚ) ≤ (M : ℚ) := by exact_mod_cast hd
  have hd0 : (0 : ℚ) ≤ (d : ℚ) := Nat.cast_nonneg d
  have hfrac : ((M : ℚ) - (d : ℚ)) / (M : ℚ) ≤ 1 := by
    rw [div_le_one hMq]
    linarith
  refine ⟨le_max_left _ _, max_le (by norm_num) ?_⟩
  unfold mathRound
  have : ((M : ℚ) - (d : ℚ)) / (M : ℚ) * 100 + 1 / 2 < ((100 : ℤ) : ℚ) + 1 := by
    push_cast
    linarith
  have := Int.floor_lt.mpr (by exact_mod_cast this :
    ((M : ℚ) - (d : ℚ)) / (M : ℚ) * 100 + 1 / 2 < (((100 + 1 : ℤ)) : ℚ))
  omega

/-! ## The claims -/

/-- C1, as stated, fails: for the text `12345678901234567 a` at rate 1 the last
event of the first word starts at 16695/34 (about 491.03) and the next event,
the first of the second word, starts earlier, at 490. -/
theorem generateLipSyncData_start_decreases :
    (0 : ℚ) < 1 ∧
    ((generateLipSyncData "12345678901234567 a" 1)[16]?).map VisemeEvent.start
      = some (16695 / 34) ∧
    ((generateLipSyncData "12345678901234567 a" 1)[17]?).map VisemeEvent.start
      = some 490 ∧
    ¬ StartsNonDecreasing (generateLipSyncData "12345678901234567 a" 1) := by
  refine ⟨by norm_num, by decide!, by decide!, ?_⟩
  intro h
  have h1 : (generateLipSyncData "12345678901234567 a" 1)[16]?
      = some ⟨"sil", 0.5, 16695 / 34, 525⟩ := by decide!
  have h2 : (generateLipSyncData "12345678901234567 a" 1)[16 + 1]?
      = some ⟨"aa", 1.2, 490, 875⟩ := by decide!
  have := h 16 _ _ h1 h2
  norm_num at this

/-- C1, amended: for every text and every positive speechRate, the start times of
the timeline are non-decreasing over every adjacent pair exactly when, at every
boundary between two consecutive non-blank words, the phoneme slice of the next
word is at most 11 times the phoneme slice of the previous word. -/
theorem generateLipSyncData_starts_nonDecreasing_iff (text : String) (speechRate : ℚ)
    (hr : 0 < speechRate) :
    StartsNonDecreasing (generateLipSyncData text speechRate) ↔
      List.Chain' (SliceBounded (1 / speechRate)) (nonBlankWords text) := by
  rw [startsNonDecreasing_iff_chain, generateLipSyncData_eq]
  exact chain_eventsFrom_iff (one_div_pos.mpr hr) _ 0 (nonBlankWords_ne_nil text)

/-- Witness of C1: `hi there` at rate 1 meets the slice condition. -/
theorem generateLipSyncData_starts_nonDecreasing_iff_witness :
    StartsNonDecreasing (generateLipSyncData "hi there" 1) :=
  (generateLipSyncData_starts_nonDecreasing_iff "hi there" 1 (by norm_num)).mpr (by
    have hw : nonBlankWords "hi there" = ["hi".data, "there".data] := by decide!
    rw [hw, List.chain'_cons]
    exact ⟨by decide!, List.chain'_singleton _⟩)

/-- C2: for every text with at least one non-blank word and every positive
speechRate, the last event of the timeline ends at the sum of the wordDuration
values of the non-blank words, which is the final value of the running cursor
`currentTime`, and no event of the timeline ends later. -/
theorem generateLipSyncData_last_end (text : String) (speechRate : ℚ)
    (hr : 0 < speechRate) (hne : nonBlankWords text ≠ []) :
    ∃ e, (generateLipSyncData text speechRate).getLast? = some e ∧
      e.end_ = ((nonBlankWords text).map (wordDuration (1.0 / speechRate))).sum ∧
      e.end_ = ((textWords text).foldl (processWord (1.0 / speechRate))
        { visemes := [], currentTime := 0 }).currentTime ∧
      ∀ e' ∈ generateLipSyncData text speechRate, e'.end_ ≤ e.end_ := by
  have h10 : (1.0 : ℚ) / speechRate = 1 / speechRate := by norm_num
  obtain ⟨e, he, hend⟩ := last_eventsFrom (1 / speechRate) (nonBlankWords text) 0 hne
    (nonBlankWords_ne_nil text)
  rw [zero_add] at hend
  refine ⟨e, ?_, ?_, ?_, ?_⟩
  · rw [generateLipSyncData_eq]
    exact he
  · rw [h10]
    exact hend
  · rw [h10, foldl_processWord, hend]
    simp [nonBlankWords]
  · intro e' he'
    rw [generateLipSyncData_eq] at he'
    have := end_le_eventsFrom (one_div_pos.mpr hr) (nonBlankWords text) 0
      (nonBlankWords_ne_nil text) e' he'
    rw [zero_add] at this
    rw [hend]
    exact this

/-- Witness of C2: `hi there` at rate 1. -/
theorem generateLipSyncData_last_end_witness :
    ∃ e, (generateLipSyncData "hi there" 1).getLast? = some e ∧
      e.end_ = ((nonBlankWords "hi there").map (wordDuration (1.0 / 1))).sum ∧
      e.end_ = ((textWords "hi there").foldl (processWord (1.0 / 1))
        { visemes := [], currentTime := 0 }).currentTime ∧
      ∀ e' ∈ generateLipSyncData "hi there" 1, e'.end_ ≤ e.end_ :=
  generateLipSyncData_last_end "hi there" 1 (by norm_num) (by decide!)

/-- C3: for every text and every positive speechRate, each word that passes the
blank test adds exactly as many events as `wordToPhonemes` gives tokens for it,
that number is at least 1, the timeline has the sum of these numbers as its
length, and so it has at least as many events as there are such words. -/
theorem generateLipSyncData_length (text : String) (speechRate : ℚ) (_hr : 0 < speechRate) :
    (∀ (st : GenState) (word : List Char), trim word ≠ [] →
      (processWord (1.0 / speechRate) st word).visemes.length =
        st.visemes.length + (wordToPhonemes word).length) ∧
    (∀ word ∈ nonBlankWords text, 1 ≤ (wordToPhonemes word).length) ∧
    (generateLipSyncData text speechRate).length =
      ((nonBlankWords text).map fun word => (wordToPhonemes word).length).sum ∧
    (nonBlankWords text).length ≤ (generateLipSyncData text speechRate).length := by
  have hpos : ∀ word ∈ nonBlankWords text, 1 ≤ (wordToPhonemes word).length :=
    fun word hw => wordToPhonemes_length_pos word (nonBlankWords_ne_nil text word hw)
  have hlen : (generateLipSyncData text speechRate).length =
      ((nonBlankWords text).map fun word => (wordToPhonemes word).length).sum := by
    rw [generateLipSyncData_eq, length_eventsFrom]
  refine ⟨?_, hpos, hlen, ?_⟩
  · intro st word hw
    simp [processWord, hw, length_wordEvents]
  · rw [hlen]
    exact length_le_sum_of_one_le _ _ hpos

/-- Witness of C3: `hi there` at rate 1 has two words and six events. -/
theorem generateLipSyncData_length_witness :
    (nonBlankWords "hi there").length = 2 ∧
    (generateLipSyncData "hi there" 1).length = 6 ∧
    (nonBlankWords "hi there").length ≤ (generateLipSyncData "hi there" 1).length :=
  ⟨by decide!, by decide!,
    (generateLipSyncData_length "hi there" 1 (by norm_num)).2.2.2⟩

/-- C4, as stated, fails: the text `_` holds no letter and no digit, and the
timeline has one event, because the underscore belongs to the class `\w` that
the normalisation keeps. -/
theorem generateLipSyncData_underscore :
    (0 : ℚ) < 1 ∧
    ("_".data.all fun c => !(c.isAlpha || c.isDigit || isSpace c)) = true ∧
    generateLipSyncData "_" 1 = [⟨"sil", 0.5, -35, 350⟩] ∧
    generateLipSyncData "_" 1 ≠ [] := by
  refine ⟨by norm_num, by decide, by decide!, by decide!⟩

/-- C4, amended: for every text that holds no letter, no digit and no underscore
(no character of the class `[A-Za-z0-9_]`, and neither of the two letters U+0130
and U+212A, whose lower-case forms hold `i` and `k`), and every positive
speechRate, the timeline is empty. -/
theorem generateLipSyncData_no_word_char (text : String) (speechRate : ℚ)
    (_hr : 0 < speechRate)
    (h : ∀ c ∈ text.data, isWordChar c = false ∧ c.toNat ≠ 0x130 ∧ c.toNat ≠ 0x212A) :
    generateLipSyncData text speechRate = [] := by
  have hwords : nonBlankWords text = [] := by
    unfold nonBlankWords textWords
    rw [toLowerCase_of_not_word _ h, List.filter_eq_nil_iff]
    intro w hw
    have hall : ∀ c ∈ stripNonWord text.data, isSpace c = true := by
      intro c hc
      unfold stripNonWord at hc
      rw [List.mem_filter] at hc
      have := (h c hc.1).1
      simpa [this] using hc.2
    simp [trim_eq_nil_of_all_space (mem_splitSpace _ hall w hw)]
  rw [generateLipSyncData_eq, hwords]
  rfl

/-- Witness of C4: the text `?! ...` at rate 1. -/
theorem generateLipSyncData_no_word_char_witness :
    generateLipSyncData "?! ..." 1 = [] :=
  generateLipSyncData_no_word_char "?! ..." 1 (by norm_num) (by decide)

/-- C5: `generateLipSyncData("hi", 1.0)` returns exactly two events.  The word has
1 syllable, its phonemes `h`, `i` map to the visemes `sil`, `I` with intensities
0.5 and 0.8, the word lasts 350 * 1.5 = 525 ms, each phoneme slice is 262.5 ms
with an overlap of 26.25 ms, and the events span [-26.25, 262.5] and
[236.25, 525]. -/
theorem generateLipSyncData_hi :
    generateLipSyncData "hi" 1.0 =
      [{ viseme := "sil", intensity := 0.5, start := -26.25, end_ := 262.5 },
       { viseme := "I", intensity := 0.8, start := 236.25, end_ := 525 }] ∧
    textWords "hi" = ["hi".data] ∧
    countSyllables "hi".data = 1 ∧
    wordToPhonemes "hi".data = ["h", "i"] ∧
    ["h", "i"].map phonemeToViseme = ["sil", "I"] ∧
    ["h", "i"].map getIntensityForPhoneme = [0.5, 0.8] ∧
    complexityFactor "hi".data = 1.5 ∧
    wordDuration (1.0 / 1.0) "hi".data = 350 * 1.5 ∧
    wordDuration (1.0 / 1.0) "hi".data = 525 ∧
    phonemeDuration (1.0 / 1.0) "hi".data = 262.5 ∧
    phonemeDuration (1.0 / 1.0) "hi".data * 0.1 = 26.25 := by
  refine ⟨by decide!, by decide!, by decide!, by decide!, by decide!, by decide!, by decide!,
    by decide!, by decide!, by decide!, by decide!⟩

/-- C6: for every text and every positive speechRate r, the timeline at rate r
is the timeline at rate 1.0 with the same visemes and intensities in the same
order and every start and end divided by r.  For `cat` at rate 2.0 the base
syllable duration is 175 ms and the last end is 262.5 ms, half of the 525 ms of
rate 1.0. -/
theorem generateLipSyncData_rate (text : String) (speechRate : ℚ) (_hr : 0 < speechRate) :
    generateLipSyncData text speechRate =
      (generateLipSyncData text 1.0).map (fun e =>
        { viseme := e.viseme, intensity := e.intensity,
          start := e.start / speechRate, end_ := e.end_ / speechRate }) ∧
    (generateLipSyncData text speechRate).length = (generateLipSyncData text 1.0).length ∧
    baseSyllableDuration (1.0 / 2.0) = 175 ∧
    ((generateLipSyncData "cat" 2.0).getLast?).map VisemeEvent.end_ = some 262.5 ∧
    ((generateLipSyncData "cat" 1.0).getLast?).map VisemeEvent.end_ = some 525 ∧
    (262.5 : ℚ) = 525 / 2 := by
  have h : generateLipSyncData text speechRate =
      (generateLipSyncData text 1.0).map (scaleEvent speechRate) := by
    rw [generateLipSyncData_eq, generateLipSyncData_eq]
    have h1 : (1 : ℚ) / 1.0 = 1 := by norm_num
    have h0 : (0 : ℚ) = 0 / speechRate := by simp
    rw [h1]
    conv_lhs => rw [h0]
    exact eventsFrom_rate speechRate _ 0
  refine ⟨h, ?_, by decide!, by decide!, by decide!, by norm_num⟩
  rw [h, List.length_map]

/-- Witness of C6: `hello world` at rate 0.9, the rate used by `speakResponse`. -/
theorem generateLipSyncData_rate_witness :
    (generateLipSyncData "hello world" 0.9).length =
      (generateLipSyncData "hello world" 1.0).length :=
  (generateLipSyncData_rate "hello world" 0.9 (by norm_num)).2.1

/-- C7: for every timeline of `generateLipSyncData` at a positive speechRate, the
empty one included, and every elapsed time strictly after the end of its last
event, the lookup of `animateLipSync` matches no event and the sample is the
silence viseme `sil` with intensity 0.2. -/
theorem animateLipSync_after_end (text : String) (speechRate : ℚ) (hr : 0 < speechRate)
    (currentTime : ℚ)
    (ht : ∀ e ∈ (generateLipSyncData text speechRate).getLast?, e.end_ < currentTime) :
    findViseme (generateLipSyncData text speechRate) currentTime = none ∧
    animateLipSync (generateLipSyncData text speechRate) currentTime =
      { current := "sil", intensity := 0.2, timestamp := currentTime } := by
  have hnone : findViseme (generateLipSyncData text speechRate) currentTime = none := by
    rw [findViseme_eq_none_iff]
    intro e he hc
    rw [generateLipSyncData_eq] at he ht
    have hne : nonBlankWords text ≠ [] := by
      intro h0
      rw [h0] at he
      simp [eventsFrom] at he
    obtain ⟨l, hl, hend⟩ := last_eventsFrom (1 / speechRate) (nonBlankWords text) 0 hne
      (nonBlankWords_ne_nil text)
    have h1 := end_le_eventsFrom (one_div_pos.mpr hr) (nonBlankWords text) 0
      (nonBlankWords_ne_nil text) e he
    have h2 := ht l hl
    have h3 := hc.2
    linarith
  refine ⟨hnone, ?_⟩
  unfold animateLipSync
  rw [hnone]

/-- Witness of C7: `hi` at rate 1 ends at 525 ms; at 526 ms the sample is silence,
while the last event carries the viseme `I`. -/
theorem animateLipSync_after_end_witness :
    ((generateLipSyncData "hi" 1).getLast?).map VisemeEvent.viseme = some "I" ∧
    animateLipSync (generateLipSyncData "hi" 1) 526 =
      { current := "sil", intensity := 0.2, timestamp := 526 } :=
  ⟨by decide!, (animateLipSync_after_end "hi" 1 (by norm_num) 526 (by decide!)).2⟩

/-- C8, as stated, fails in its last part: in the timeline of
`mmmmmmmmmmmmmmmok a` at rate 1, the consecutive events 16 (viseme `kk`) and 17
(viseme `aa`) both contain the time 492, and the lookup returns neither the
earlier of the two nor the later, but event 15 (viseme `O`), which contains 492
as well. -/
theorem findViseme_triple_overlap :
    (generateLipSyncData "mmmmmmmmmmmmmmmok a" 1)[15]? =
      some ⟨"O", 1, 15645 / 34, 8400 / 17⟩ ∧
    (generateLipSyncData "mmmmmmmmmmmmmmmok a" 1)[16]? =
      some ⟨"kk", 0.5, 16695 / 34, 525⟩ ∧
    (generateLipSyncData "mmmmmmmmmmmmmmmok a" 1)[17]? =
      some ⟨"aa", 1.2, 490, 875⟩ ∧
    Covers 492 ⟨"kk", 0.5, 16695 / 34, 525⟩ ∧
    Covers 492 ⟨"aa", 1.2, 490, 875⟩ ∧
    findViseme (generateLipSyncData "mmmmmmmmmmmmmmmok a" 1) 492 =
      some ⟨"O", 1, 15645 / 34, 8400 / 17⟩ ∧
    findViseme (generateLipSyncData "mmmmmmmmmmmmmmmok a" 1) 492 ≠
      some ⟨"kk", 0.5, 16695 / 34, 525⟩ ∧
    (animateLipSync (generateLipSyncData "mmmmmmmmmmmmmmmok a" 1) 492).current = "O" := by
  refine ⟨by decide!, by decide!, by decide!, ?_, ?_, by decide!, by decide!, by decide!⟩
  · constructor <;> norm_num
  · constructor <;> norm_num

/-- C8, amended: for every timeline and every elapsed time, the lookup of
`animateLipSync` returns the event of smallest index whose closed interval
[start, end] contains the elapsed time, and nothing when no event contains it;
in particular, when two consecutive events both contain it, the later of the
two is never returned: the returned event has an index at most that of the
earlier one, and it is the earlier one exactly when no event before it contains
the elapsed time. -/
theorem findViseme_first_match (lipSyncData : List VisemeEvent) (currentTime : ℚ) :
    (∀ e, findViseme lipSyncData currentTime = some e ↔
      ∃ i, lipSyncData[i]? = some e ∧ Covers currentTime e ∧
        ∀ (j : Nat) (e' : VisemeEvent), j < i → lipSyncData[j]? = some e' →
          ¬ Covers currentTime e') ∧
    (findViseme lipSyncData currentTime = none ↔
      ∀ e ∈ lipSyncData, ¬ Covers currentTime e) ∧
    (∀ (i : Nat) (a b : VisemeEvent), lipSyncData[i]? = some a →
      lipSyncData[i + 1]? = some b → Covers currentTime a → Covers currentTime b →
      ∃ j e, j ≤ i ∧ lipSyncData[j]? = some e ∧
        findViseme lipSyncData currentTime = some e ∧
        (j = i ↔ ∀ (k : Nat) (e' : VisemeEvent), k < i → lipSyncData[k]? = some e' →
          ¬ Covers currentTime e')) := by
  refine ⟨findViseme_eq_some_iff lipSyncData currentTime,
    findViseme_eq_none_iff lipSyncData currentTime, ?_⟩
  intro i a b ha _ hca _
  cases hf : findViseme lipSyncData currentTime with
  | none =>
    rw [findViseme_eq_none_iff] at hf
    exact absurd hca (hf a (List.getElem?_mem ha))
  | some e =>
    obtain ⟨j, hj, hce, hmin⟩ := (findViseme_eq_some_iff lipSyncData currentTime e).mp hf
    have hji : j ≤ i := by
      by_contra hlt
      exact hmin i a (by omega) ha hca
    refine ⟨j, e, hji, hj, rfl, ?_⟩
    constructor
    · intro h
      subst h
      exact hmin
    · intro h
      by_contra hne
      exact h j e (by omega) hj hce

/-- C9: for every frame delta >= 0 and every number of ticks n, after n smoothing
steps with that delta the distance left to the target when closing (from 1.0
toward 0.0) is at most the distance left when opening (from 0.0 toward 1.0);
hence whenever opening is within a threshold of its target after n ticks,
closing is too. -/
theorem smoothIter_closing_le_opening (delta : ℚ) (hd : 0 ≤ delta) (n : Nat) :
    |smoothIter delta 0 n 1 - 0| ≤ |smoothIter delta 1 n 0 - 1| ∧
    ∀ threshold : ℚ, |smoothIter delta 1 n 0 - 1| ≤ threshold →
      |smoothIter delta 0 n 1 - 0| ≤ threshold := by
  obtain ⟨h1, h2, h3⟩ := smoothIter_closing_opening delta hd n 1 0 (by norm_num)
    (by norm_num) (by norm_num)
  have h : |smoothIter delta 0 n 1 - 0| ≤ |smoothIter delta 1 n 0 - 1| := by
    rw [sub_zero, abs_of_nonneg h1, abs_sub_comm, abs_of_nonneg (by linarith)]
    exact h3
  exact ⟨h, fun threshold ht => le_trans h ht⟩

/-- Witness of C9: three ticks at 60 frames per second. -/
theorem smoothIter_closing_le_opening_witness :
    |smoothIter (1 / 60) 0 3 1 - 0| ≤ |smoothIter (1 / 60) 1 3 0 - 1| :=
  (smoothIter_closing_le_opening (1 / 60) (by norm_num) 3).1

/-- C10: for every current weight, target weight and frame delta >= 0, one
smoothing step gives a value between current and target, no farther from the
target than current was; when delta * 15 >= 1 while closing, or delta * 12 >= 1
otherwise, the result is the target itself. -/
theorem smoothStep_between (delta current target : ℚ) (hd : 0 ≤ delta) :
    min current target ≤ smoothStep delta current target ∧
    smoothStep delta current target ≤ max current target ∧
    |smoothStep delta current target - target| ≤ |current - target| ∧
    (target < current → 1 ≤ delta * 15 → smoothStep delta current target = target) ∧
    (¬ target < current → 1 ≤ delta * 12 → smoothStep delta current target = target) := by
  have key : ∀ f : ℚ, 0 ≤ f → f ≤ 1 →
      min current target ≤ lerp current target f ∧ lerp current target f ≤ max current target ∧
      |lerp current target f - target| ≤ |current - target| := by
    intro f hf0 hf1
    have h1f : 0 ≤ 1 - f := by linarith
    unfold lerp
    refine ⟨?_, ?_, ?_⟩
    · have ha := mul_le_mul_of_nonneg_left (min_le_left current target) h1f
      have hb := mul_le_mul_of_nonneg_left (min_le_right current target) hf0
      linarith
    · have ha := mul_le_mul_of_nonneg_left (le_max_left current target) h1f
      have hb := mul_le_mul_of_nonneg_left (le_max_right current target) hf0
      linarith
    · have he : (1 - f) * current + f * target - target = (1 - f) * (current - target) := by
        ring
      rw [he, abs_mul, abs_of_nonneg h1f]
      have := mul_le_mul_of_nonneg_right (show 1 - f ≤ 1 by linarith) (abs_nonneg (current - target))
      linarith
  have h15 : (0 : ℚ) ≤ min (delta * 15) 1 := le_min (by linarith) (by norm_num)
  have h12 : (0 : ℚ) ≤ min (delta * 12) 1 := le_min (by linarith) (by norm_num)
  have hstep : min current target ≤ smoothStep delta current target ∧
      smoothStep delta current target ≤ max current target ∧
      |smoothStep delta current target - target| ≤ |current - target| := by
    unfold smoothStep
    by_cases hcl : target < current
    · simpa [hcl] using key _ h15 (min_le_right _ _)
    · simpa [hcl] using key _ h12 (min_le_right _ _)
  refine ⟨hstep.1, hstep.2.1, hstep.2.2, ?_, ?_⟩
  · intro hcl h
    unfold smoothStep lerp
    simp [hcl, min_eq_right h]
  · intro hcl h
    unfold smoothStep lerp
    simp [hcl, min_eq_right h]

/-- Witness of C10: closing from 0.9 toward 0.1 over a frame of 0.1 s jumps to the
target. -/
theorem smoothStep_between_witness :
    min (0.9 : ℚ) 0.1 ≤ smoothStep 0.1 0.9 0.1 ∧ smoothStep 0.1 0.9 0.1 = 0.1 :=
  ⟨(smoothStep_between 0.1 0.9 0.1 (by norm_num)).1,
    (smoothStep_between 0.1 0.9 0.1 (by norm_num)).2.2.2.1 (by norm_num) (by norm_num)⟩

/-- C17: for every text and positive speechRate, the viseme of every event of the
timeline is one of the 14 values PP, FF, TH, DD, kk, CH, SS, RR, aa, E, I, O, U,
sil, and a phoneme token with no entry in the table of `phonemeToViseme` (such
as h, w, y, c, q, x, a digit or an underscore) maps to `sil`. -/
theorem generateLipSyncData_viseme_mem (text : String) (speechRate : ℚ)
    (_hr : 0 < speechRate) :
    (∀ e ∈ generateLipSyncData text speechRate, e.viseme ∈ visemeNames) ∧
    visemeNames.length = 14 ∧
    (∀ p : String, mapping.lookup p = none → phonemeToViseme p = "sil") ∧
    (∀ p ∈ ["h", "w", "y", "c", "q", "x", "0", "1", "2", "3", "4", "5", "6", "7", "8", "9",
        "_"], mapping.lookup p = none ∧ phonemeToViseme p = "sil") := by
  refine ⟨?_, rfl, ?_, by decide⟩
  · intro e he
    rw [generateLipSyncData_eq] at he
    obtain ⟨w, _, p, _, hv, _⟩ := mem_eventsFrom_token _ _ e he
    rw [hv]
    exact phonemeToViseme_mem p
  · intro p hp
    simp [phonemeToViseme, hp]

/-- Witness of C17: the visemes of `why 7` at rate 1. -/
theorem generateLipSyncData_viseme_mem_witness :
    (generateLipSyncData "why 7" 1).map VisemeEvent.viseme = ["sil", "sil", "sil", "sil"] ∧
    ∀ e ∈ generateLipSyncData "why 7" 1, e.viseme ∈ visemeNames :=
  ⟨by decide!, (generateLipSyncData_viseme_mem "why 7" 1 (by norm_num)).1⟩

/-- C18: for every text and positive speechRate, the intensity of every event is
the one of its phoneme token: 1.2 for `a`; 1.0 for `e` and `o`; 0.8 for `i` and
`u`; 0.7 for the digraph tokens `TH` and `CH`; 0.5 for every other token, `SH`
and the single consonant letters with visemes PP, FF, DD, kk included; hence it
lies in [0.5, 1.2].  The viseme does not decide it: the tokens `j` and `CH` share
the viseme CH and have the intensities 0.5 and 0.7. -/
theorem generateLipSyncData_intensity (text : String) (speechRate : ℚ)
    (_hr : 0 < speechRate) :
    (∀ e ∈ generateLipSyncData text speechRate,
      ∃ w ∈ nonBlankWords text, ∃ p ∈ wordToPhonemes w,
        e.viseme = phonemeToViseme p ∧ e.intensity = getIntensityForPhoneme p ∧
        e.intensity = tokenIntensity p ∧ 0.5 ≤ e.intensity ∧ e.intensity ≤ 1.2) ∧
    (["SH", "p", "b", "m", "f", "v", "t", "d", "n", "l", "k", "g"].map getIntensityForPhoneme
      = List.replicate 12 0.5) ∧
    (["p", "f", "t", "k"].map phonemeToViseme = ["PP", "FF", "DD", "kk"]) ∧
    (phonemeToViseme "j" = phonemeToViseme "CH" ∧
      getIntensityForPhoneme "j" = 0.5 ∧ getIntensityForPhoneme "CH" = 0.7) := by
  refine ⟨?_, by decide!, by decide, by decide!⟩
  intro e he
  rw [generateLipSyncData_eq] at he
  obtain ⟨w, hw, p, hp, hv, hi⟩ := mem_eventsFrom_token _ _ e he
  have hpi : getIntensityForPhoneme p = tokenIntensity p := by
    rcases mem_wordToPhonemes w p hp with h | h | h | ⟨c, hc, h⟩
    · subst h; decide!
    · subst h; decide!
    · subst h; decide!
    · subst h
      exact getIntensity_singleton c (nonBlankWords_not_upper text w hw c hc)
  refine ⟨w, hw, p, hp, hv, hi, hi.trans hpi, ?_, ?_⟩
  · rw [hi, hpi]
    exact (tokenIntensity_bounds p).1
  · rw [hi, hpi]
    exact (tokenIntensity_bounds p).2

/-- Witness of C18: the intensities of `The chat` at rate 1. -/
theorem generateLipSyncData_intensity_witness :
    (generateLipSyncData "The chat" 1).map VisemeEvent.intensity = [0.7, 1.0, 0.7, 1.2, 0.5] ∧
    ∀ e ∈ generateLipSyncData "The chat" 1,
      ∃ w ∈ nonBlankWords "The chat", ∃ p ∈ wordToPhonemes w,
        e.viseme = phonemeToViseme p ∧ e.intensity = getIntensityForPhoneme p ∧
        e.intensity = tokenIntensity p ∧ 0.5 ≤ e.intensity ∧ e.intensity ≤ 1.2 :=
  ⟨by decide!, (generateLipSyncData_intensity "The chat" 1 (by norm_num)).1⟩

/-- C19: for every word, `countSyllables(word)` is at least 1; so for every text
and positive speechRate both divisors of `generateLipSyncData`, the syllable
count and the number of phonemes, are non-zero for every non-blank word, as is
the speechRate, and the generator returns a list of events whose length is the
total number of phonemes. -/
theorem generateLipSyncData_total (text : String) (speechRate : ℚ) (hr : 0 < speechRate) :
    (∀ word : List Char, 1 ≤ countSyllables word) ∧
    (∀ word ∈ nonBlankWords text,
      (countSyllables word : ℚ) ≠ 0 ∧ ((wordToPhonemes word).length : ℚ) ≠ 0) ∧
    speechRate ≠ 0 ∧
    ∃ events : List VisemeEvent, generateLipSyncData text speechRate = events ∧
      events.length = ((nonBlankWords text).map fun word => (wordToPhonemes word).length).sum := by
  refine ⟨countSyllables_pos, ?_, ne_of_gt hr, _, rfl, ?_⟩
  · intro word hw
    have h1 := countSyllables_pos word
    have h2 := wordToPhonemes_length_pos word (nonBlankWords_ne_nil text word hw)
    constructor
    · exact_mod_cast (by omega : countSyllables word ≠ 0)
    · exact_mod_cast (by omega : (wordToPhonemes word).length ≠ 0)
  · rw [generateLipSyncData_eq, length_eventsFrom]

/-- Witness of C19: the two words of `y, hmm!` have no vowel match once the leading
`y` is removed; both count one syllable. -/
theorem generateLipSyncData_total_witness :
    countSyllables "y".data = 1 ∧
    ∀ word ∈ nonBlankWords "y, hmm!",
      (countSyllables word : ℚ) ≠ 0 ∧ ((wordToPhonemes word).length : ℚ) ≠ 0 :=
  ⟨by decide, (generateLipSyncData_total "y, hmm!" 0.9 (by norm_num)).2.1⟩

/-- C23: for a non-blank word with n phonemes, processed with the cursor at c at
a positive speechRate, with slice d = wordDuration / n, the word adds the events
of its phonemes in order; the event of index i has start = c + i*d - 0.1*d and
end = start + d + 0.1*d = c + (i+1)*d, so it lasts 1.1*d and start < end, and two
consecutive events of the word overlap by exactly 0.1*d. -/
theorem wordEvents_timing (st : GenState) (word : List Char) (speechRate : ℚ)
    (hr : 0 < speechRate) (hw : trim word ≠ []) :
    (processWord (1.0 / speechRate) st word).visemes =
      st.visemes ++ wordEvents (1.0 / speechRate) st.currentTime word ∧
    phonemeDuration (1.0 / speechRate) word =
      wordDuration (1.0 / speechRate) word / ((wordToPhonemes word).length : ℚ) ∧
    (wordEvents (1.0 / speechRate) st.currentTime word).length = (wordToPhonemes word).length ∧
    (∀ i : Nat, i < (wordToPhonemes word).length →
      ∃ e, (wordEvents (1.0 / speechRate) st.currentTime word)[i]? = some e ∧
        e.start = st.currentTime + i * phonemeDuration (1.0 / speechRate) word
          - 0.1 * phonemeDuration (1.0 / speechRate) word ∧
        e.end_ = e.start + phonemeDuration (1.0 / speechRate) word
          + 0.1 * phonemeDuration (1.0 / speechRate) word ∧
        e.end_ = st.currentTime + (i + 1) * phonemeDuration (1.0 / speechRate) word ∧
        e.end_ - e.start = 1.1 * phonemeDuration (1.0 / speechRate) word ∧
        e.start < e.end_) ∧
    (∀ i : Nat, i + 1 < (wordToPhonemes word).length →
      ∃ a b, (wordEvents (1.0 / speechRate) st.currentTime word)[i]? = some a ∧
        (wordEvents (1.0 / speechRate) st.currentTime word)[i + 1]? = some b ∧
        a.end_ - b.start = 0.1 * phonemeDuration (1.0 / speechRate) word ∧
        b.start < a.end_) := by
  have hrm : (0 : ℚ) < 1.0 / speechRate := by
    have : (1.0 : ℚ) = 1 := by norm_num
    rw [this]
    exact one_div_pos.mpr hr
  have hd := phonemeDuration_pos hrm (ne_nil_of_trim_ne_nil hw)
  refine ⟨by simp [processWord, hw], rfl, length_wordEvents _ _ _, ?_, ?_⟩
  · intro i hi
    refine ⟨_, getElem?_wordEvents _ _ word i hi, ?_, ?_, ?_, ?_, ?_⟩
    · simp only [phonemeEvent]; ring
    · simp only [phonemeEvent]; ring
    · simp only [phonemeEvent]; ring
    · simp only [phonemeEvent]; ring
    · simp only [phonemeEvent]
      linarith
  · intro i hi
    refine ⟨_, _, getElem?_wordEvents _ _ word i (by omega),
      getElem?_wordEvents _ _ word (i + 1) hi, ?_, ?_⟩
    · simp only [phonemeEvent]
      push_cast
      ring
    · simp only [phonemeEvent]
      push_cast
      linarith

/-- Witness of C23: the word `there` processed from the cursor 525 at rate 1. -/
theorem wordEvents_timing_witness :
    (wordEvents (1.0 / 1) 525 "there".data).length = (wordToPhonemes "there".data).length :=
  (wordEvents_timing { visemes := [], currentTime := 525 } "there".data 1 (by norm_num)
    (by decide)).2.2.1

/-- C22, as stated, fails: the lower-case word `beautiful` loses no suffix and no
leading `y`, has the three maximal vowel runs `eau`, `i`, `u`, and
`countSyllables` returns 4, because the pattern `[aeiouy]{1,2}` matches `ea` and
`u` inside the first run. -/
theorem countSyllables_beautiful :
    toLowerCase "beautiful".data = "beautiful".data ∧
    stripLeadingY (stripSuffix "beautiful".data) = "beautiful".data ∧
    vowelRunLengths "beautiful".data = [3, 1, 1] ∧
    countVowelRuns (stripLeadingY (stripSuffix "beautiful".data)) = 3 ∧
    countSyllables "beautiful".data = 4 ∧
    countSyllables "beautiful".data ≠
      max 1 (countVowelRuns (stripLeadingY (stripSuffix "beautiful".data))) := by
  refine ⟨by decide, by decide, by decide, by decide, by decide, by decide⟩

/-- C22, amended: for every lower-case word, `countSyllables(word)` equals
max(1, r), where r is the sum, over the maximal runs of characters from
{a, e, i, o, u, y} in the word left after removing the trailing suffix and then
a leading `y`, of the run length halved and rounded up; r is the number of
maximal runs when no run is longer than two characters. -/
theorem countSyllables_eq_runs (word : List Char) (hl : toLowerCase word = word) :
    countSyllables word =
      max 1 (((vowelRunLengths (stripLeadingY (stripSuffix word))).map
        fun L => (L + 1) / 2).sum) ∧
    ((∀ L ∈ vowelRunLengths (stripLeadingY (stripSuffix word)), L ≤ 2) →
      countSyllables word = max 1 (countVowelRuns (stripLeadingY (stripSuffix word)))) := by
  have h1 : countSyllables word =
      max 1 (((vowelRunLengths (stripLeadingY (stripSuffix word))).map
        fun L => (L + 1) / 2).sum) := by
    unfold countSyllables
    simp only [hl, countVowelMatches_eq_sum]
    split_ifs with h0
    · rw [h0]
      rfl
    · omega
  refine ⟨h1, ?_⟩
  intro h2
  rw [h1, countVowelRuns, sum_half_eq_length]
  intro n hn
  exact ⟨vowelRunLengths_pos _ n hn, h2 n hn⟩

/-- Witness of C22: `queue` keeps its four-letter run `ueue`, which counts twice. -/
theorem countSyllables_eq_runs_witness :
    vowelRunLengths (stripLeadingY (stripSuffix "queue".data)) = [4] ∧
    countSyllables "queue".data =
      max 1 (((vowelRunLengths (stripLeadingY (stripSuffix "queue".data))).map
        fun L => (L + 1) / 2).sum) :=
  ⟨by decide, (countSyllables_eq_runs "queue".data (by decide)).1⟩

/-- C26: for every non-blank word, `countSyllables(word) <= word.length`, so the
ratio word.length / syllableCount is at least 1, the complexity factor is
min(1.5, ratio) and lies in [1, 1.5], and at a positive speechRate
wordDuration = min(word.length, 1.5 * syllableCount) * 350 / speechRate. -/
theorem wordDuration_eq_min (word : List Char) (speechRate : ℚ) (hr : 0 < speechRate)
    (hw : trim word ≠ []) :
    countSyllables word ≤ word.length ∧
    (1 : ℚ) ≤ (word.length : ℚ) / (countSyllables word : ℚ) ∧
    complexityFactor word = min 1.5 ((word.length : ℚ) / (countSyllables word : ℚ)) ∧
    1 ≤ complexityFactor word ∧ complexityFactor word ≤ 1.5 ∧
    wordDuration (1.0 / speechRate) word =
      min (word.length : ℚ) (1.5 * (countSyllables word : ℚ)) * 350 / speechRate := by
  have hle := countSyllables_le_length (ne_nil_of_trim_ne_nil hw)
  have hS : (0 : ℚ) < (countSyllables word : ℚ) := by
    exact_mod_cast countSyllables_pos word
  have hleq : (countSyllables word : ℚ) ≤ (word.length : ℚ) := by exact_mod_cast hle
  have hratio : (1 : ℚ) ≤ (word.length : ℚ) / (countSyllables word : ℚ) := by
    rw [le_div_iff₀ hS]
    linarith
  have hmin : (1 : ℚ) ≤ min 1.5 ((word.length : ℚ) / (countSyllables word : ℚ)) :=
    le_min (by norm_num) hratio
  have hcf : complexityFactor word =
      min 1.5 ((word.length : ℚ) / (countSyllables word : ℚ)) := by
    unfold complexityFactor
    simp only
    apply max_eq_right
    have : (0.8 : ℚ) ≤ 1 := by norm_num
    linarith
  refine ⟨hle, hratio, hcf, by rw [hcf]; exact hmin, by rw [hcf]; exact min_le_left _ _, ?_⟩
  unfold wordDuration baseSyllableDuration
  simp only
  rw [hcf]
  rcases le_total (1.5 : ℚ) ((word.length : ℚ) / (countSyllables word : ℚ)) with h | h
  · have h' : 1.5 * (countSyllables word : ℚ) ≤ (word.length : ℚ) := by
      rwa [le_div_iff₀ hS] at h
    rw [min_eq_left h, min_eq_right h']
    field_simp
    ring
  · have h' : (word.length : ℚ) ≤ 1.5 * (countSyllables word : ℚ) := by
      rwa [div_le_iff₀ hS] at h
    rw [min_eq_right h, min_eq_left h']
    field_simp
    ring

/-- Witness of C26: `strengths` has 9 characters and 1 syllable, so it lasts
1.5 * 350 = 525 ms at rate 1. -/
theorem wordDuration_eq_min_witness :
    countSyllables "strengths".data = 1 ∧
    wordDuration (1.0 / 1) "strengths".data =
      min (("strengths".data.length : ℕ) : ℚ)
        (1.5 * ((countSyllables "strengths".data : ℕ) : ℚ)) * 350 / 1 :=
  ⟨by decide, (wordDuration_eq_min "strengths".data 1 (by norm_num) (by decide)).2.2.2.2.2⟩

/-- C27: phoneme segmentation is lossless: for every word, lower-case or not,
concatenating the tokens of `wordToPhonemes(word)` in order, with each digraph
token TH, CH, SH written back as th, ch, sh, gives the word; the number of tokens
is word.length minus the number of digraph tokens, so it lies between
ceil(word.length / 2) and word.length. -/
theorem wordToPhonemes_roundtrip (word : List Char) :
    ((wordToPhonemes word).map writeBack).flatten = word ∧
    (wordToPhonemes word).length =
      word.length - ((wordToPhonemes word).filter isDigraphToken).length ∧
    (word.length + 1) / 2 ≤ (wordToPhonemes word).length ∧
    (wordToPhonemes word).length ≤ word.length := by
  obtain ⟨h1, h2⟩ := wordToPhonemes_lossless word
  have h3 := List.length_filter_le isDigraphToken (wordToPhonemes word)
  exact ⟨h1, by omega, by omega, by omega⟩

/-- C28: a generated timeline has no interior gap: for every text with at least
one non-blank word, every positive speechRate and every elapsed time t with
0 <= t <= (end of the last event), some event satisfies start <= t <= end, so the
lookup of `animateLipSync` finds an event and takes its viseme and intensity
instead of the fallback. -/
theorem generateLipSyncData_no_gap (text : String) (speechRate : ℚ) (hr : 0 < speechRate)
    (hne : nonBlankWords text ≠ []) (t : ℚ) (h0 : 0 ≤ t)
    (hlast : ∀ l ∈ (generateLipSyncData text speechRate).getLast?, t ≤ l.end_) :
    (∃ e ∈ generateLipSyncData text speechRate, e.start ≤ t ∧ t ≤ e.end_) ∧
    ∃ e ∈ generateLipSyncData text speechRate,
      findViseme (generateLipSyncData text speechRate) t = some e ∧
      animateLipSync (generateLipSyncData text speechRate) t =
        { current := e.viseme, intensity := e.intensity, timestamp := t } := by
  have hcov : ∃ e ∈ generateLipSyncData text speechRate, Covers t e := by
    rw [generateLipSyncData_eq] at hlast ⊢
    obtain ⟨l, hl, hend⟩ := last_eventsFrom (1 / speechRate) (nonBlankWords text) 0 hne
      (nonBlankWords_ne_nil text)
    have h2 := hlast l hl
    rw [hend] at h2
    exact cover_eventsFrom (one_div_pos.mpr hr) t _ 0 hne (nonBlankWords_ne_nil text) h0 h2
  refine ⟨hcov, ?_⟩
  cases hf : findViseme (generateLipSyncData text speechRate) t with
  | none =>
    rw [findViseme_eq_none_iff] at hf
    obtain ⟨e, he, hc⟩ := hcov
    exact absurd hc (hf e he)
  | some e =>
    obtain ⟨i, hi, _, _⟩ := (findViseme_eq_some_iff _ t e).mp hf
    refine ⟨e, List.getElem?_mem hi, rfl, ?_⟩
    unfold animateLipSync
    rw [hf]

/-- Witness of C28: in the timeline of `hi there` at rate 1 the time 525, where the
first word ends, is covered. -/
theorem generateLipSyncData_no_gap_witness :
    ∃ e ∈ generateLipSyncData "hi there" 1, e.start ≤ 525 ∧ (525 : ℚ) ≤ e.end_ :=
  (generateLipSyncData_no_gap "hi there" 1 (by norm_num) (by decide!) 525 (by norm_num)
    (by decide!)).1

/-- C20, as stated, fails: `split(' ')` cuts at the space character only.  At rate
1, `hi` and `there` separated by a tab, or by a newline, form one word of seven
phonemes, and the timeline has seven events where the text with a space has
six. -/
theorem generateLipSyncData_tab_not_delimiter :
    nonBlankWords "hi there" = ["hi".data, "there".data] ∧
    nonBlankWords "hi\tthere" = ["hi\tthere".data] ∧
    nonBlankWords "hi\nthere" = ["hi\nthere".data] ∧
    (generateLipSyncData "hi there" 1).length = 6 ∧
    (generateLipSyncData "hi\tthere" 1).length = 7 ∧
    (generateLipSyncData "hi\nthere" 1).length = 7 ∧
    generateLipSyncData "hi\tthere" 1 ≠ generateLipSyncData "hi there" 1 ∧
    generateLipSyncData "hi\nthere" 1 ≠ generateLipSyncData "hi there" 1 := by
  refine ⟨by decide, by decide, by decide, by decide!, by decide!, by decide!, ?_, ?_⟩
  · intro h
    have := congrArg List.length h
    revert this
    decide!
  · intro h
    have := congrArg List.length h
    revert this
    decide!

/-- C20, amended: words are delimited by the space character only.  For all
non-empty words u and v made of letters and every positive speechRate,
separating them by several consecutive spaces returns the same timeline as
separating them by a single space; a tab or a newline between them does not
delimit: u, the separator and v stay one word, whose timeline has one event more
than the timeline of u and v separated by a space. -/
theorem generateLipSyncData_space_delimiter (u v : String) (speechRate : ℚ)
    (_hr : 0 < speechRate) (hu : u.data ≠ []) (hv : v.data ≠ [])
    (hul : ∀ c ∈ u.data, isLetter c = true) (hvl : ∀ c ∈ v.data, isLetter c = true) :
    nonBlankWords (u ++ " " ++ v) = [toLowerCase u.data, toLowerCase v.data] ∧
    (∀ n : Nat,
      generateLipSyncData (u ++ String.mk (List.replicate (n + 1) ' ') ++ v) speechRate =
        generateLipSyncData (u ++ " " ++ v) speechRate) ∧
    (∀ sep : Char, sep = '\t' ∨ sep = '\n' →
      nonBlankWords (u ++ String.singleton sep ++ v) =
        [toLowerCase u.data ++ sep :: toLowerCase v.data] ∧
      (generateLipSyncData (u ++ String.singleton sep ++ v) speechRate).length =
        (generateLipSyncData (u ++ " " ++ v) speechRate).length + 1) := by
  obtain ⟨u1, u2, u3⟩ := normalise_letters u.data hul
  obtain ⟨v1, v2, v3⟩ := normalise_letters v.data hvl
  have hlu : toLowerCase u.data ≠ [] := by
    intro h
    rw [h] at u2
    exact hu (List.length_eq_zero.mp u2.symm)
  have hlv : toLowerCase v.data ≠ [] := by
    intro h
    rw [h] at v2
    exact hv (List.length_eq_zero.mp v2.symm)
  have tu : trim (toLowerCase u.data) ≠ [] := trim_ne_nil_of_head hlu (fun d hd => (u3 d hd).1)
  have tv : trim (toLowerCase v.data) ≠ [] := trim_ne_nil_of_head hlv (fun d hd => (v3 d hd).1)
  have su : splitSpace (toLowerCase u.data) = [toLowerCase u.data] :=
    splitSpace_of_no_space _ (fun d hd => (u3 d hd).2.1)
  have sv : splitSpace (toLowerCase v.data) = [toLowerCase v.data] :=
    splitSpace_of_no_space _ (fun d hd => (v3 d hd).2.1)
  have hspaces : ∀ n : Nat,
      nonBlankWords (u ++ String.mk (List.replicate (n + 1) ' ') ++ v) =
        [toLowerCase u.data, toLowerCase v.data] := by
    intro n
    have hrep : stripNonWord (toLowerCase (List.replicate n ' ')) = List.replicate n ' ' := by
      induction n with
      | zero => rfl
      | succ k ih =>
        rw [List.replicate_succ, ← List.singleton_append, toLowerCase_append,
          stripNonWord_append, ih]
        rfl
    have hone : stripNonWord (toLowerCase [' ']) = [' '] := by decide
    unfold nonBlankWords textWords
    simp only [String.data_append, List.replicate_succ]
    rw [← List.singleton_append, toLowerCase_append, toLowerCase_append, toLowerCase_append,
      stripNonWord_append, stripNonWord_append, stripNonWord_append, u1, v1, hrep, hone]
    simp only [List.singleton_append, List.append_assoc, List.cons_append]
    rw [splitSpace_append_space, List.nil_append, splitSpace_replicate_space, su, sv]
    simp [List.filter_cons, tu, tv, trim_nil, List.filter_replicate]
  have hspace1 : nonBlankWords (u ++ " " ++ v) = [toLowerCase u.data, toLowerCase v.data] :=
    hspaces 0
  refine ⟨hspace1, ?_, ?_⟩
  · intro n
    rw [generateLipSyncData_eq, generateLipSyncData_eq, hspaces n, hspace1]
  · intro sep hsep
    have hsp : isSpace sep = true ∧ sep ≠ ' ' ∧ lowerChar sep = [sep] ∧ sep ≠ 'h' ∧
        sep ≠ 't' ∧ sep ≠ 'c' ∧ sep ≠ 's' := by
      rcases hsep with rfl | rfl <;> decide
    obtain ⟨s1, s2, s3, s4, s5, s6, s7⟩ := hsp
    have hword : ∀ d ∈ toLowerCase u.data ++ sep :: toLowerCase v.data, d ≠ ' ' := by
      intro d hd
      rcases List.mem_append.mp hd with hd | hd
      · exact (u3 d hd).2.1
      · rcases List.mem_cons.mp hd with hd | hd
        · subst hd
          exact s2
        · exact (v3 d hd).2.1
    have htrim : trim (toLowerCase u.data ++ sep :: toLowerCase v.data) ≠ [] := by
      cases hlow : toLowerCase u.data with
      | nil => exact absurd hlow hlu
      | cons c cs =>
        have hc : isSpace c = false := (u3 c (by simp [hlow])).1
        intro h
        unfold trim at h
        simp only [List.cons_append, List.dropWhile, hc, Bool.false_eq_true, if_false] at h
        have hne : (c :: (cs ++ sep :: toLowerCase v.data)).reverse.dropWhile isSpace ≠ [] := by
          rw [List.reverse_cons]
          intro h0
          rw [List.dropWhile_eq_nil_iff] at h0
          have := h0 c (by simp)
          rw [hc] at this
          exact Bool.false_ne_true this
        exact hne (List.reverse_eq_nil_iff.mp h)
    have hwords : nonBlankWords (u ++ String.singleton sep ++ v) =
        [toLowerCase u.data ++ sep :: toLowerCase v.data] := by
      have hone : stripNonWord (toLowerCase [sep]) = [sep] := by
        simp [toLowerCase, s3, stripNonWord, s1]
      unfold nonBlankWords textWords
      have hdata : (u ++ String.singleton sep ++ v).data = u.data ++ ([sep] ++ v.data) := by
        simp [String.data_append, String.singleton]
      rw [hdata, toLowerCase_append, toLowerCase_append, stripNonWord_append,
        stripNonWord_append, u1, v1, hone, List.singleton_append,
        splitSpace_of_no_space _ hword]
      simp [List.filter_cons, htrim]
    refine ⟨hwords, ?_⟩
    rw [generateLipSyncData_eq, generateLipSyncData_eq, length_eventsFrom, length_eventsFrom,
      hwords, hspace1]
    simp only [List.map_cons, List.map_nil, List.sum_cons, List.sum_nil, add_zero,
      wordToPhonemes_append_sep sep s4 s5 s6 s7, List.length_append, List.length_cons]
    omega

/-- Witness of C20: `Hi` and `there` with three spaces between them, at rate 1. -/
theorem generateLipSyncData_space_delimiter_witness :
    generateLipSyncData ("Hi" ++ String.mk (List.replicate (2 + 1) ' ') ++ "there") 1 =
      generateLipSyncData ("Hi" ++ " " ++ "there") 1 :=
  (generateLipSyncData_space_delimiter "Hi" "there" 1 (by norm_num) (by decide) (by decide)
    (by decide) (by decide)).2.1 2

/-- C11, as stated, fails: from current = 0 toward target = 1, one step with a
frame delta of 1/60 s gives 1/5, and two steps with 1/120 s each give 19/100. -/
theorem smoothStep_not_frame_rate_independent :
    (0 : ℚ) < 1 / 60 ∧
    smoothStep (1 / 60) 0 1 = 1 / 5 ∧
    smoothStep (1 / 60 / 2) (smoothStep (1 / 60 / 2) 0 1) 1 = 19 / 100 ∧
    smoothStep (1 / 60 / 2) (smoothStep (1 / 60 / 2) 0 1) 1 ≠ smoothStep (1 / 60) 0 1 := by
  refine ⟨by norm_num, by decide!, by decide!, by decide!⟩

/-- C11, amended: the factor of the smoothing step is proportional to the frame
delta, which does not make the step frame-rate independent.  For every current
weight, target weight and delta > 0, one step with `delta` gives the same weight
as two steps with `delta / 2` exactly when current = target or the factor of the
half step is already clamped to 1 (delta * 15 >= 2 when closing, delta * 12 >= 2
when opening); in every case the two half steps end no closer to the target than
the single step. -/
theorem smoothStep_half_steps (delta current target : ℚ) (hd : 0 < delta) :
    (smoothStep (delta / 2) (smoothStep (delta / 2) current target) target =
        smoothStep delta current target ↔
      current = target ∨ (target < current ∧ 2 ≤ delta * 15) ∨
        (current < target ∧ 2 ≤ delta * 12)) ∧
    |smoothStep delta current target - target| ≤
      |smoothStep (delta / 2) (smoothStep (delta / 2) current target) target - target| := by
  rcases lt_trichotomy target current with h | h | h
  · have h1 := smoothStep_sub_closing delta h
    have h2 := two_half_steps_closing delta hd h
    obtain ⟨a0, a1, a2⟩ := half_factor_arith (delta * 15) (by linarith)
    have hD : 0 < current - target := by linarith
    constructor
    · constructor
      · intro heq
        right; left
        refine ⟨h, a2.mp ?_⟩
        have : (1 - min (delta * 15) 1) * (current - target) =
            (1 - min (delta * 15 / 2) 1) ^ 2 * (current - target) := by
          rw [← h1, ← h2, heq]
        exact mul_right_cancel₀ (ne_of_gt hD) this
      · rintro (hc | ⟨_, hx⟩ | ⟨hc, _⟩)
        · exact absurd hc (ne_of_gt h)
        · have := a2.mpr hx
          have : smoothStep (delta / 2) (smoothStep (delta / 2) current target) target - target =
              smoothStep delta current target - target := by
            rw [h1, h2, this]
          linarith
        · exact absurd hc (not_lt.mpr (le_of_lt h))
    · rw [h1, h2, abs_of_nonneg (mul_nonneg a0 (le_of_lt hD)),
        abs_of_nonneg (mul_nonneg (sq_nonneg _) (le_of_lt hD))]
      exact mul_le_mul_of_nonneg_right a1 (le_of_lt hD)
  · subst h
    simp [smoothStep_self]
  · have hn : ¬ target < current := not_lt.mpr (le_of_lt h)
    have h1 := smoothStep_sub_opening delta hn
    have h2 := two_half_steps_opening delta hd h
    obtain ⟨a0, a1, a2⟩ := half_factor_arith (delta * 12) (by linarith)
    have hD : current - target < 0 := by linarith
    constructor
    · constructor
      · intro heq
        right; right
        refine ⟨h, a2.mp ?_⟩
        have : (1 - min (delta * 12) 1) * (current - target) =
            (1 - min (delta * 12 / 2) 1) ^ 2 * (current - target) := by
          rw [← h1, ← h2, heq]
        exact mul_right_cancel₀ (ne_of_lt hD) this
      · rintro (hc | ⟨hc, _⟩ | ⟨_, hx⟩)
        · exact absurd hc (ne_of_lt h)
        · exact absurd hc hn
        · have := a2.mpr hx
          have : smoothStep (delta / 2) (smoothStep (delta / 2) current target) target - target =
              smoothStep delta current target - target := by
            rw [h1, h2, this]
          linarith
    · rw [h1, h2, abs_of_nonpos (mul_nonpos_of_nonneg_of_nonpos a0 (le_of_lt hD)),
        abs_of_nonpos (mul_nonpos_of_nonneg_of_nonpos (sq_nonneg _) (le_of_lt hD))]
      have := mul_le_mul_of_nonneg_right a1 (by linarith : 0 ≤ -(current - target))
      linarith

/-- Witness of C11: opening from 0 toward 1 with a frame delta of 1/60 s. -/
theorem smoothStep_half_steps_witness :
    |smoothStep (1 / 60) 0 1 - 1| ≤
      |smoothStep (1 / 60 / 2) (smoothStep (1 / 60 / 2) 0 1) 1 - 1| :=
  (smoothStep_half_steps (1 / 60) 0 1 (by norm_num)).2

/-- C12, as stated, fails: on the model `sampleMesh`, after the viseme `aa` with
intensity 1.2 and one frame of 1/60 s the channel `mouthOpen` shows 3/10; after
the speech-ended reset and one more frame of 1/60 s it shows 9/40, not its
baseline 0. -/
theorem useFrame_after_reset_not_baseline :
    sampleMesh.Ready ∧
    sampleMesh.morphTargetDictionary.lookup "mouthOpen" = some 0 ∧
    sampleMesh.originalMorphTargets.lookup "mouthOpen" = some 0 ∧
    (useFrame (applyViseme sampleMesh ⟨"aa", 1.2, 0⟩ (1 / 2)) (1 / 60)).morphTargetInfluences 0
      = 3 / 10 ∧
    (resetTargets (useFrame (applyViseme sampleMesh ⟨"aa", 1.2, 0⟩ (1 / 2))
      (1 / 60))).targetMorphTargets.lookup "mouthOpen" = some 0 ∧
    (useFrame (resetTargets (useFrame (applyViseme sampleMesh ⟨"aa", 1.2, 0⟩ (1 / 2))
      (1 / 60))) (1 / 60)).morphTargetInfluences 0 = 9 / 40 ∧
    (useFrame (resetTargets (useFrame (applyViseme sampleMesh ⟨"aa", 1.2, 0⟩ (1 / 2))
      (1 / 60))) (1 / 60)).morphTargetInfluences 0 ≠ 0 := by
  refine ⟨by decide, by decide, by decide!, by decide!, by decide!, by decide!, by decide!⟩

/-- C12, amended: the speech-ended reset sets every channel's target to its
baseline at once; the displayed weight is still smoothed.  For every state kept
by the effects, every frame delta > 0 and every channel, the single smoothing
step that follows the reset gives `smoothStep` of the displayed weight toward the
baseline, no farther from the baseline than before, and the result is the
baseline exactly when the displayed weight already was, or the factor is clamped
to 1 (delta * 15 >= 1 when closing, delta * 12 >= 1 when opening). -/
theorem useFrame_after_reset (m : Mesh) (h : m.Ready) (delta : ℚ) (hd : 0 < delta)
    (k : String) (i : Nat) (b : ℚ) (hk : m.morphTargetDictionary.lookup k = some i)
    (hb : m.originalMorphTargets.lookup k = some b) :
    (resetTargets m).targetMorphTargets.lookup k = some b ∧
    (useFrame (resetTargets m) delta).morphTargetInfluences i =
      smoothStep delta (m.morphTargetInfluences i) b ∧
    |(useFrame (resetTargets m) delta).morphTargetInfluences i - b| ≤
      |m.morphTargetInfluences i - b| ∧
    ((useFrame (resetTargets m) delta).morphTargetInfluences i = b ↔
      m.morphTargetInfluences i = b ∨ (b < m.morphTargetInfluences i ∧ 1 ≤ delta * 15) ∨
        (m.morphTargetInfluences i < b ∧ 1 ≤ delta * 12)) := by
  have ht : (resetTargets m).targetMorphTargets.lookup k = some b := by
    rw [resetTargets_eq h]
    exact hb
  have hstep : (useFrame (resetTargets m) delta).morphTargetInfluences i =
      smoothStep delta (m.morphTargetInfluences i) b := by
    have := useFrame_channel (resetTargets_ready h) delta
      (by rw [resetTargets_eq h]; exact hk) ht
    rw [this, resetTargets_eq h]
  refine ⟨ht, hstep, ?_, ?_⟩
  · rw [hstep]
    have h15 : (0 : ℚ) ≤ 1 - min (delta * 15) 1 := by
      have := min_le_right (delta * 15) 1
      linarith
    have h12 : (0 : ℚ) ≤ 1 - min (delta * 12) 1 := by
      have := min_le_right (delta * 12) 1
      linarith
    have g15 : (1 : ℚ) - min (delta * 15) 1 ≤ 1 := by
      have : (0 : ℚ) ≤ min (delta * 15) 1 := le_min (by linarith) (by norm_num)
      linarith
    have g12 : (1 : ℚ) - min (delta * 12) 1 ≤ 1 := by
      have : (0 : ℚ) ≤ min (delta * 12) 1 := le_min (by linarith) (by norm_num)
      linarith
    by_cases hc : b < m.morphTargetInfluences i
    · rw [smoothStep_sub_closing delta hc, abs_mul, abs_of_nonneg h15]
      exact mul_le_of_le_one_left (abs_nonneg _) g15
    · rw [smoothStep_sub_opening delta hc, abs_mul, abs_of_nonneg h12]
      exact mul_le_of_le_one_left (abs_nonneg _) g12
  · rw [hstep]
    exact smoothStep_eq_target_iff delta _ b

/-- Witness of C12: `sampleMesh` after the viseme `aa` and one frame, then reset
and one frame of 1/60 s, on the channel `mouthOpen`. -/
theorem useFrame_after_reset_witness :
    (resetTargets (useFrame (applyViseme sampleMesh ⟨"aa", 1.2, 0⟩ (1 / 2))
      (1 / 60))).targetMorphTargets.lookup "mouthOpen" = some 0 :=
  (useFrame_after_reset (useFrame (applyViseme sampleMesh ⟨"aa", 1.2, 0⟩ (1 / 2)) (1 / 60))
    (by decide) (1 / 60) (by norm_num) "mouthOpen" 0 0 (by decide) (by decide!)).1

/-- C13: the Idle reset sets every channel's target to that channel's baseline and
is idempotent: applying it twice gives the same state as applying it once, and
it leaves the displayed weights and the baselines as they are; a channel whose
displayed weight and target both equal the baseline is left unchanged by any
smoothing step. -/
theorem resetTargets_idempotent (m : Mesh) (h : m.Ready) :
    (∀ k : String, (resetTargets m).targetMorphTargets.lookup k =
      m.originalMorphTargets.lookup k) ∧
    resetTargets (resetTargets m) = resetTargets m ∧
    (resetTargets m).morphTargetInfluences = m.morphTargetInfluences ∧
    (resetTargets m).originalMorphTargets = m.originalMorphTargets ∧
    (∀ delta b : ℚ, smoothStep delta b b = b) ∧
    (∀ (delta : ℚ) (k : String) (i : Nat) (b : ℚ),
      m.morphTargetDictionary.lookup k = some i →
      m.originalMorphTargets.lookup k = some b →
      m.targetMorphTargets.lookup k = some b →
      m.morphTargetInfluences i = b →
      (useFrame m delta).morphTargetInfluences i = b) := by
  refine ⟨?_, ?_, rfl, rfl, smoothStep_self, ?_⟩
  · intro k
    rw [resetTargets_eq h]
  · rw [resetTargets_eq (resetTargets_ready h), resetTargets_eq h]
  · intro delta k i b hk _ ht hi
    rw [useFrame_channel h delta hk ht, hi, smoothStep_self]

/-- Witness of C13: the reset applied to `sampleMesh` driven by the viseme `aa`. -/
theorem resetTargets_idempotent_witness :
    resetTargets (resetTargets (applyViseme sampleMesh ⟨"aa", 1.2, 0⟩ (1 / 2))) =
      resetTargets (applyViseme sampleMesh ⟨"aa", 1.2, 0⟩ (1 / 2)) :=
  (resetTargets_idempotent (applyViseme sampleMesh ⟨"aa", 1.2, 0⟩ (1 / 2)) (by decide)).2.1

/-- C14: when the sampled viseme is `sil`, as in the gap sample of intensity 0.2,
or is not a key of the channel table, the viseme effect sets every channel's
target to its baseline, for every model, every intensity and every random
draw. -/
theorem applyViseme_silence (m : Mesh) (h : m.Ready) (visemeData : VisemeData) (random : ℚ)
    (hv : visemeData.current = "sil" ∨ visemeMapping.lookup visemeData.current = none) :
    (applyViseme m visemeData random).targetMorphTargets = m.originalMorphTargets ∧
    (∀ k : String, (applyViseme m visemeData random).targetMorphTargets.lookup k =
      m.originalMorphTargets.lookup k) ∧
    (∀ t : ℚ, (animateLipSync [] t).current = "sil" ∧ (animateLipSync [] t).intensity = 0.2) := by
  have ht : (applyViseme m visemeData random).targetMorphTargets = m.originalMorphTargets := by
    rw [applyViseme_target h, visemeTargets_inactive _ _ _ _ hv]
  refine ⟨ht, fun k => by rw [ht], fun t => ⟨rfl, rfl⟩⟩

/-- Witness of C14: the gap sample on `sampleMesh` driven by the viseme `aa`. -/
theorem applyViseme_silence_witness :
    (applyViseme (applyViseme sampleMesh ⟨"aa", 1.2, 0⟩ (1 / 2)) ⟨"sil", 0.2, 900⟩
      (1 / 3)).targetMorphTargets = sampleMesh.originalMorphTargets :=
  (applyViseme_silence (applyViseme sampleMesh ⟨"aa", 1.2, 0⟩ (1 / 2)) (by decide)
    ⟨"sil", 0.2, 900⟩ (1 / 3) (Or.inl rfl)).1

/-- C16: for every model whose dictionary gives distinct names distinct indices,
every sampled viseme and intensity, the viseme effect writes targets only for
channels of the dictionary: after it the target map has the keys of the baseline
map, which are the keys of the dictionary, a channel that the model lacks has no
target, and the state is again one that the effects keep; the initialisation
effect establishes such a state. -/
theorem applyViseme_keys (m : Mesh) (h : m.Ready) (visemeData : VisemeData) (random : ℚ) :
    (applyViseme m visemeData random).targetMorphTargets.map Prod.fst =
      m.originalMorphTargets.map Prod.fst ∧
    (applyViseme m visemeData random).targetMorphTargets.map Prod.fst =
      m.morphTargetDictionary.map Prod.fst ∧
    (∀ k : String, m.morphTargetDictionary.lookup k = none →
      (applyViseme m visemeData random).targetMorphTargets.lookup k = none) ∧
    (applyViseme m visemeData random).Ready ∧
    (∀ child : Mesh, (child.morphTargetDictionary.map Prod.fst).Nodup →
      (child.morphTargetDictionary.map Prod.snd).Nodup → (initMorphTargets child).Ready) := by
  have hkeys : (applyViseme m visemeData random).targetMorphTargets.map Prod.fst =
      m.originalMorphTargets.map Prod.fst := by
    rw [applyViseme_target h, visemeTargets_keys _ _ _ _ h.2.2.1]
  refine ⟨hkeys, by rw [hkeys, h.2.2.1], ?_, applyViseme_ready h _ _, initMorphTargets_ready⟩
  intro k hk
  apply lookup_eq_none_of_not_mem
  rw [hkeys, h.2.2.1]
  intro hmem
  obtain ⟨v, hv⟩ := lookup_isSome_of_mem _ k hmem
  rw [hk] at hv
  exact Option.noConfusion hv

/-- Witness of C16: `sampleMesh` has no channel `jawForward`; the viseme `kk`
leaves it without a target. -/
theorem applyViseme_keys_witness :
    (applyViseme sampleMesh ⟨"kk", 0.5, 0⟩ (1 / 2)).targetMorphTargets.lookup "jawForward"
      = none :=
  (applyViseme_keys sampleMesh (by decide) ⟨"kk", 0.5, 0⟩ (1 / 2)).2.2.1 "jawForward"
    (by decide)

/-- C15: for every sampled viseme v other than `sil`, every intensity I that the
generator produces, every random draw in [0, 1) and every model, each channel of
v's channel set that exists on the model gets the target I * 1.8 when its name
contains neither `Open` nor `jaw`, and min(I * 1.8 * 1.2, 1.5) when it does. -/
theorem applyViseme_channel_target (m : Mesh) (h : m.Ready) (v : String)
    (names : List String) (I random ts : ℚ)
    (hl : visemeMapping.lookup v = some names) (hs : v ≠ "sil")
    (hI : ∃ p : String, getIntensityForPhoneme p = I)
    (hr0 : 0 ≤ random) (hr1 : random < 1)
    (k : String) (hk : k ∈ names) (i : Nat) (hd : m.morphTargetDictionary.lookup k = some i) :
    ((includes k "Open" || includes k "jaw") = false →
      (applyViseme m ⟨v, I, ts⟩ random).targetMorphTargets.lookup k = some (I * 1.8)) ∧
    ((includes k "Open" || includes k "jaw") = true →
      (applyViseme m ⟨v, I, ts⟩ random).targetMorphTargets.lookup k =
        some (min (I * 1.8 * 1.2) 1.5)) := by
  obtain ⟨p, rfl⟩ := hI
  obtain ⟨h0, h1⟩ := generatorIntensities_bounds (getIntensityForPhoneme_mem p)
  have key := applyViseme_channel h v names _ random ts hl hs h0 h1 hr0 hr1 k hk i hd
  constructor
  · intro hf
    rw [key]
    simp [hf]
  · intro ht
    rw [key]
    simp [ht]

/-- Witness of C15: the viseme `aa` of the token `a` on `sampleMesh`: the channel
`mouthSmileLeft` gets 1.2 * 1.8 = 2.16. -/
theorem applyViseme_channel_target_witness :
    (applyViseme sampleMesh ⟨"aa", 1.2, 0⟩ (1 / 2)).targetMorphTargets.lookup "mouthSmileLeft"
      = some (1.2 * 1.8) :=
  (applyViseme_channel_target sampleMesh (by decide) "aa"
    ["mouthOpen", "jawOpen", "mouthSmileLeft", "mouthSmileRight"] 1.2 (1 / 2) 0 (by decide)
    (by decide) ⟨"a", by decide!⟩ (by norm_num) (by norm_num) "mouthSmileLeft" (by decide) 2
    (by decide)).1 (by decide)

/-- C24, as stated, fails: for the viseme `aa` of the token `a`, of intensity 1.2,
the channel `mouthOpen` gets the capped target 1.5, below the weight
1.2 * 1.8 = 2.16 that `mouthSmileLeft` gets in the same event. -/
theorem applyViseme_boost_lowers :
    getIntensityForPhoneme "a" = 1.2 ∧ phonemeToViseme "a" = "aa" ∧
    (includes "mouthOpen" "Open" || includes "mouthOpen" "jaw") = true ∧
    (applyViseme sampleMesh ⟨"aa", 1.2, 0⟩ (1 / 2)).targetMorphTargets.lookup "mouthOpen"
      = some 1.5 ∧
    (applyViseme sampleMesh ⟨"aa", 1.2, 0⟩ (1 / 2)).targetMorphTargets.lookup "mouthSmileLeft"
      = some 2.16 ∧
    (1.5 : ℚ) < 1.2 * 1.8 := by
  refine ⟨by decide!, by decide, by decide, by decide!, by decide!, by norm_num⟩

/-- C24, amended: for every viseme other than `sil` and every intensity I that the
generator produces, a channel of the viseme's set whose name contains `Open` or
`jaw` gets the target min(I * 1.8 * 1.2, 1.5); it is greater than or equal to
the un-boosted weight I * 1.8 exactly when I * 1.8 <= 1.5, which holds for the
intensities 0.5, 0.7 and 0.8; for 1.0 and 1.2 the cap makes it 1.5, below
I * 1.8. -/
theorem applyViseme_boost (m : Mesh) (h : m.Ready) (v : String)
    (names : List String) (I random ts : ℚ)
    (hl : visemeMapping.lookup v = some names) (hs : v ≠ "sil")
    (hI : I ∈ generatorIntensities)
    (hr0 : 0 ≤ random) (hr1 : random < 1)
    (k : String) (hk : k ∈ names) (i : Nat) (hd : m.morphTargetDictionary.lookup k = some i)
    (hb : (includes k "Open" || includes k "jaw") = true) :
    (applyViseme m ⟨v, I, ts⟩ random).targetMorphTargets.lookup k =
      some (min (I * 1.8 * 1.2) 1.5) ∧
    (I * 1.8 ≤ min (I * 1.8 * 1.2) 1.5 ↔ I * 1.8 ≤ 1.5) ∧
    (I * 1.8 ≤ 1.5 ↔ I = 0.8 ∨ I = 0.7 ∨ I = 0.5) ∧
    (I = 1.0 ∨ I = 1.2 → min (I * 1.8 * 1.2) 1.5 = 1.5 ∧ (1.5 : ℚ) < I * 1.8) := by
  obtain ⟨h0, h1⟩ := generatorIntensities_bounds hI
  have key := applyViseme_channel h v names I random ts hl hs h0 h1 hr0 hr1 k hk i hd
  rw [if_pos hb] at key
  refine ⟨key, ?_, ?_, ?_⟩
  · constructor
    · intro hle
      exact le_trans hle (min_le_right _ _)
    · intro hle
      exact le_min (by nlinarith) hle
  · unfold generatorIntensities at hI
    simp only [List.mem_cons, List.mem_singleton, List.not_mem_nil, or_false] at hI
    rcases hI with hI | hI | hI | hI | hI <;> subst hI <;> norm_num
  · rintro (hI' | hI') <;> subst hI' <;> norm_num

/-- Witness of C24: the viseme `DD` of the token `t`, of intensity 0.5, on
`sampleMesh`: the channel `jawOpen` gets min(1.08, 1.5) = 1.08. -/
theorem applyViseme_boost_witness :
    (applyViseme sampleMesh ⟨"DD", 0.5, 0⟩ (1 / 2)).targetMorphTargets.lookup "jawOpen"
      = some (min (0.5 * 1.8 * 1.2) 1.5) :=
  (applyViseme_boost sampleMesh (by decide) "DD"
    ["mouthSmileLeft", "mouthSmileRight", "mouthOpen", "jawOpen"] 0.5 (1 / 2) 0 (by decide)
    (by decide) (by decide!) (by norm_num) (by norm_num) "jawOpen" (by decide) 1 (by decide)
    (by decide)).1

/-- C25: for every sampled viseme other than `sil`, every intensity I > 0 and every
random draw rand in [0, 1), each of the channels `mouthOpen` and `jawOpen` that
exists on the model ends with the target max(t, I * 1.8 * (0.8 + rand * 0.4) *
0.3), where t is its target after the viseme-specific assignment, which is its
baseline when the channel is not in the viseme's set; hence its target is at
least 0.432 * I. -/
theorem applyViseme_random_floor (m : Mesh) (h : m.Ready) (v : String)
    (names : List String) (I random ts : ℚ)
    (hl : visemeMapping.lookup v = some names) (hs : v ≠ "sil")
    (hI : 0 < I) (hr0 : 0 ≤ random) (_hr1 : random < 1)
    (k : String) (hk : k = "mouthOpen" ∨ k = "jawOpen") (i : Nat)
    (hd : m.morphTargetDictionary.lookup k = some i) (b : ℚ)
    (hb : m.originalMorphTargets.lookup k = some b) :
    (assignViseme m.morphTargetDictionary (I * 1.8) m.originalMorphTargets names).lookup k =
      some (if k ∈ names then morphIntensity (I * 1.8) k else b) ∧
    (applyViseme m ⟨v, I, ts⟩ random).targetMorphTargets.lookup k =
      some (max (if k ∈ names then morphIntensity (I * 1.8) k else b)
        (I * 1.8 * (0.8 + random * 0.4) * 0.3)) ∧
    ∀ t : ℚ, (applyViseme m ⟨v, I, ts⟩ random).targetMorphTargets.lookup k = some t →
      0.432 * I ≤ t := by
  have hne : ¬ I = 0 := ne_of_gt hI
  have ha : k ∈ ["mouthOpen", "jawOpen"] := by
    rcases hk with rfl | rfl <;> simp
  have h1 : (assignViseme m.morphTargetDictionary (I * 1.8) m.originalMorphTargets
      names).lookup k = some (if k ∈ names then morphIntensity (I * 1.8) k else b) := by
    rw [assignViseme_lookup _ _ _ _ (visemeMapping_nodup _ _ hl)]
    by_cases hn : k ∈ names
    · simp [hn, hd]
    · simp [hn, hb]
  have h2 : (applyViseme m ⟨v, I, ts⟩ random).targetMorphTargets.lookup k =
      some (max (if k ∈ names then morphIntensity (I * 1.8) k else b)
        (I * 1.8 * (0.8 + random * 0.4) * 0.3)) := by
    rw [applyViseme_lookup_active h ⟨v, I, ts⟩ random names hl hs k]
    simp only [ha, hd, Option.isSome_some, and_self, if_true, hne, if_false, and_true]
    by_cases hn : k ∈ names
    · simp [hn]
    · simp [hn, hb]
  refine ⟨h1, h2, ?_⟩
  intro t ht
  rw [h2] at ht
  cases ht
  have hfloor : 0.432 * I ≤ I * 1.8 * (0.8 + random * 0.4) * 0.3 := by nlinarith
  exact le_trans hfloor (le_max_right _ _)

/-- Witness of C25: the viseme `SS` has neither `mouthOpen` nor `jawOpen` in its
set; on `sampleMesh` the channel `jawOpen` ends at max(0, floor). -/
theorem applyViseme_random_floor_witness :
    (applyViseme sampleMesh ⟨"SS", 0.5, 0⟩ (1 / 2)).targetMorphTargets.lookup "jawOpen" =
      some (max (if "jawOpen" ∈
          ["mouthSmileLeft", "mouthSmileRight", "mouthStretchLeft", "mouthStretchRight"]
        then morphIntensity (0.5 * 1.8) "jawOpen" else 0)
        (0.5 * 1.8 * (0.8 + 1 / 2 * 0.4) * 0.3)) :=
  (applyViseme_random_floor sampleMesh (by decide) "SS"
    ["mouthSmileLeft", "mouthSmileRight", "mouthStretchLeft", "mouthStretchRight"] 0.5 (1 / 2) 0
    (by decide) (by decide) (by norm_num) (by norm_num) (by norm_num) "jawOpen" (Or.inr rfl) 1
    (by decide) 0 (by decide!)).2.1

/-- C29: target derivation is memoryless: every derivation first resets all
targets to the baseline, so the target map after deriving for a sample and a
random draw is the same for every previous target map of the same model; every
channel that is neither in the sampled viseme's set nor one of `mouthOpen` and
`jawOpen` has its baseline as target, and the derivation changes neither the
displayed weights nor the baseline. -/
theorem applyViseme_memoryless (m₁ m₂ : Mesh) (h₁ : m₁.Ready) (h₂ : m₂.Ready)
    (hd : m₁.morphTargetDictionary = m₂.morphTargetDictionary)
    (ho : m₁.originalMorphTargets = m₂.originalMorphTargets)
    (visemeData : VisemeData) (random : ℚ) :
    (applyViseme m₁ visemeData random).targetMorphTargets =
      (applyViseme m₂ visemeData random).targetMorphTargets ∧
    (applyViseme m₁ visemeData random).targetMorphTargets =
      visemeTargets m₁.morphTargetDictionary m₁.originalMorphTargets visemeData random ∧
    (∀ k : String, (∀ names, visemeMapping.lookup visemeData.current = some names → k ∉ names) →
      k ≠ "mouthOpen" → k ≠ "jawOpen" →
      (applyViseme m₁ visemeData random).targetMorphTargets.lookup k =
        m₁.originalMorphTargets.lookup k) ∧
    (applyViseme m₁ visemeData random).morphTargetInfluences = m₁.morphTargetInfluences ∧
    (applyViseme m₁ visemeData random).originalMorphTargets = m₁.originalMorphTargets := by
  refine ⟨by rw [applyViseme_target h₁, applyViseme_target h₂, hd, ho],
    applyViseme_target h₁ _ _, ?_, rfl, rfl⟩
  intro k hk hm hj
  cases hl : visemeMapping.lookup visemeData.current with
  | none => rw [applyViseme_target h₁, visemeTargets_inactive _ _ _ _ (Or.inr hl)]
  | some names =>
    by_cases hs : visemeData.current = "sil"
    · rw [applyViseme_target h₁, visemeTargets_inactive _ _ _ _ (Or.inl hs)]
    · rw [applyViseme_lookup_active h₁ visemeData random names hl hs k]
      have hn : k ∉ names := hk names hl
      have ha : k ∉ ["mouthOpen", "jawOpen"] := by simp [hm, hj]
      simp [hn, ha]

/-- Witness of C29: on `sampleMesh`, deriving `SS` after `aa` gives the targets of
deriving `SS` from rest. -/
theorem applyViseme_memoryless_witness :
    (applyViseme (applyViseme sampleMesh ⟨"aa", 1.2, 0⟩ (1 / 2)) ⟨"SS", 0.5, 40⟩
      (1 / 3)).targetMorphTargets =
    (applyViseme sampleMesh ⟨"SS", 0.5, 40⟩ (1 / 3)).targetMorphTargets :=
  (applyViseme_memoryless (applyViseme sampleMesh ⟨"aa", 1.2, 0⟩ (1 / 2)) sampleMesh
    (by decide) (by decide) rfl rfl ⟨"SS", 0.5, 40⟩ (1 / 3)).1

/-- C30: for every pair of non-empty ASCII strings expected and spoken,
`calculateAccuracy(expected, spoken)` is an integer between 0 and 100 inclusive,
the Levenshtein distance of the lower-cased strings being at most the longer
length, and it is 100 whenever the two strings are equal ignoring letter case. -/
theorem calculateAccuracy_range (expected spoken : String)
    (he : expected.data ≠ []) (_hs : spoken.data ≠ [])
    (hae : ∀ c ∈ expected.data, c.toNat < 128) (has : ∀ c ∈ spoken.data, c.toNat < 128) :
    levenshteinDistance (toLowerCase expected.data) (toLowerCase spoken.data) ≤
      max expected.data.length spoken.data.length ∧
    0 ≤ calculateAccuracy expected spoken ∧ calculateAccuracy expected spoken ≤ 100 ∧
    (toLowerCase expected.data = toLowerCase spoken.data →
      calculateAccuracy expected spoken = 100) := by
  have hd : levenshteinDistance (toLowerCase expected.data) (toLowerCase spoken.data) ≤
      max expected.data.length spoken.data.length := by
    have := levenshteinDistance_le_max (toLowerCase expected.data) (toLowerCase spoken.data)
    rwa [toLowerCase_length_ascii _ hae, toLowerCase_length_ascii _ has] at this
  have hM : 0 < max expected.data.length spoken.data.length := by
    have : 0 < expected.data.length := List.length_pos.mpr he
    omega
  have hb := accuracy_bounds _ _ hM hd
  refine ⟨hd, hb.1, hb.2, ?_⟩
  intro heq
  have hMq : ((max expected.data.length spoken.data.length : ℕ) : ℚ) ≠ 0 := by
    exact_mod_cast (by omega : max expected.data.length spoken.data.length ≠ 0)
  unfold calculateAccuracy mathRound
  simp only [heq, levenshteinDistance_self, Nat.cast_zero, sub_zero, div_self hMq]
  norm_num

/-- Witness of C30: `Hello` against `hello` scores 100. -/
theorem calculateAccuracy_range_witness :
    calculateAccuracy "Hello" "hello" = 100 :=
  (calculateAccuracy_range "Hello" "hello" (by decide) (by decide) (by decide) (by decide)).2.2.2
    (by decide)

end LipSync
